import Mathlib

/-!
Verification development for the maze-solver repository.

Part 1 embeds the solver side (`try1.py`): the tile model, the shared
`MazeSolver` helpers (`get_neighbors`, `process_special_cell`,
`reconstruct_path`) and the three strategy loops (`BFSSolver.solve`,
`DFSSolver.solve`, `AStarSolver.solve`).  The Python `solve` methods are
generators; each is embedded as a pure step function on an explicit state
record, with one function per while-loop iteration and a wrapper for one
generator resumption (`next`).  Python sets become duplicate-free lists,
cell objects become their `(x, y)` coordinates, and the per-cell `parent`
pointer becomes an association list (assignment shadows by consing, and
`List.lookup` returns the most recent binding, matching mutation).

Part 2 embeds the generator side (`mazegeneration.py`) over `Char` grids,
with the random stream made explicit and every unbounded while loop given
a fuel argument that is proven sufficient.
-/

/-- Tile kinds of the grid, as in the Python `TileType` enumeration
(WALL, PATH, START, END, TELEPORT, PENALTY).  `START`/`END` are rendered
`startT`/`endT` because `end` is a Lean keyword. -/
inductive TileType where
  | wall
  | path
  | startT
  | endT
  | teleport
  | penalty
deriving DecidableEq, Repr

/-- A maze is the row-major list of rows of tiles (`maze[y][x]`). -/
abbrev Maze := List (List TileType)

/-- Character-to-tile mapping of `load_maze`: `TileType(char)`, with the
`ValueError` handler that treats any unrecognized character as PATH. -/
def tileOfChar (c : Char) : TileType :=
  if c = '#' then .wall
  else if c = ' ' then .path
  else if c = 'S' then .startT
  else if c = 'E' then .endT
  else if c = 'T' then .teleport
  else if c = 'P' then .penalty
  else .path

/-- Build a maze from row strings, as `load_maze` builds it from the
lines of the text file. -/
def mazeOfStrings (rows : List String) : Maze :=
  rows.map fun r => r.toList.map tileOfChar

/-- Number of columns, as the Python code measures it: `len(maze[0])`. -/
def mazeWidth (m : Maze) : Nat := (m.headD []).length

/-- Number of rows: `len(maze)`. -/
def mazeHeight (m : Maze) : Nat := m.length

/-- Cell at column `x`, row `y` (`maze[y][x]`), `none` when out of range. -/
def getCell (m : Maze) (x y : Int) : Option TileType :=
  if 0 ≤ x ∧ 0 ≤ y then ((m.get? y.toNat).getD []).get? x.toNat else none

/-- The fixed direction list of `MazeSolver.get_neighbors`:
`[(-1, 0), (1, 0), (0, -1), (0, 1)]`, applied as `(dx, dy)`. -/
def solverDirs : List (Int × Int) := [(-1, 0), (1, 0), (0, -1), (0, 1)]

/-- `MazeSolver.get_neighbors`: the in-bounds, non-Wall orthogonal
neighbors of a cell, in the fixed direction order.  The bounds test uses
`len(maze[0])` and `len(maze)` exactly as the source does. -/
def getNeighbors (m : Maze) (c : Int × Int) : List (Int × Int) :=
  solverDirs.filterMap fun d =>
    let nx := c.1 + d.1
    let ny := c.2 + d.2
    if 0 ≤ nx ∧ nx < (mazeWidth m : Int) ∧ 0 ≤ ny ∧ ny < (mazeHeight m : Int) then
      match getCell m nx ny with
      | some t => if t = TileType.wall then none else some (nx, ny)
      | none => none
    else none

/-- All positions holding tile `t`, in row-major scan order (the order of
the nested loops in `initialize_maze` and `process_special_cell`). -/
def positionsOf (m : Maze) (t : TileType) : List (Int × Int) :=
  (List.range (mazeHeight m)).flatMap fun y =>
    (List.range ((m.get? y).getD []).length).filterMap fun x =>
      if ((m.get? y).getD []).get? x = some t then some ((x : Int), (y : Int)) else none

/-- The start cell recorded by `initialize_maze`: the scan keeps
reassigning `self.start`, so the last START in row-major order wins. -/
def findStartPos (m : Maze) : Option (Int × Int) := (positionsOf m .startT).getLast?

/-- The end cell recorded by `initialize_maze` (last END in scan order). -/
def findEndPos (m : Maze) : Option (Int × Int) := (positionsOf m .endT).getLast?

/-- The paired teleport of `c`: the first other TELEPORT cell found by the
row-major scan in `process_special_cell`. -/
def otherTeleport (m : Maze) (c : Int × Int) : Option (Int × Int) :=
  (positionsOf m .teleport).find? (fun p => p != c)

/-- `visited.add(p)` on the set-as-list representation. -/
def insertVisited (v : List (Int × Int)) (p : Int × Int) : List (Int × Int) :=
  if p ∈ v then v else p :: v

/-- `MazeSolver.process_special_cell`: when `c` is a TELEPORT cell with a
pair, mark both teleports visited and return the pair; otherwise leave the
visited set alone and return nothing.  The returned pair comes first, the
updated visited set second. -/
def processSpecialCell (m : Maze) (v : List (Int × Int)) (c : Int × Int) :
    Option (Int × Int) × List (Int × Int) :=
  if getCell m c.1 c.2 = some TileType.teleport then
    match otherTeleport m c with
    | some o => (some o, insertVisited (insertVisited v c) o)
    | none => (none, v)
  else (none, v)

/-- `MazeSolver.reconstruct_path`: follow `parent` links from `c` and
return the chain in start-to-`c` order.  The Python loop runs until the
parent pointer is `None`; the embedding adds a fuel argument (the callers
pass `width * height`, enough for any acyclic chain of grid cells). -/
def reconstructPath (ps : List ((Int × Int) × (Int × Int))) :
    Nat → (Int × Int) → List (Int × Int)
  | 0, c => [c]
  | fuel + 1, c =>
    match ps.lookup c with
    | none => [c]
    | some par => reconstructPath ps fuel par ++ [c]

/-- Mutable state of `BFSSolver` (and structurally of `DFSSolver`): the
frontier, the visited set, the parent pointers, the step counter, the
result path, the found flag and the most recently popped cell.  For BFS
the frontier is a FIFO `queue` (head = front, pushes append at the tail);
for DFS it is a LIFO stack (head = top, pushes cons at the head). -/
structure BfsState where
  frontier : List (Int × Int)
  visited : List (Int × Int)
  parents : List ((Int × Int) × (Int × Int))
  steps : Nat
  solPath : List (Int × Int)
  solutionFound : Bool
  current : Option (Int × Int)
deriving DecidableEq, Repr

/-- The state right after the first lines of `solve()`: the start cell
enqueued/pushed and marked visited. -/
def solveStart (s0 : Int × Int) : BfsState :=
  { frontier := [s0], visited := [s0], parents := [], steps := 0
    solPath := [], solutionFound := false, current := none }

/-- Outcome of one while-loop iteration of a `solve()` generator. -/
inductive IterRes where
  | exhausted
  | foundEnd
  | teleported
  | expanded
deriving DecidableEq, Repr

/-- The neighbor loop of `BFSSolver.solve`/`DFSSolver.solve`: for each
neighbor not yet visited, mark it visited, set its parent to `c` and push
it.  `push` abstracts the frontier discipline (append for BFS, cons for
DFS); neighbors are processed in the fixed direction order. -/
def pushNeighbors (push : List (Int × Int) → (Int × Int) → List (Int × Int))
    (c : Int × Int) :
    List (Int × Int) → List (Int × Int) → List ((Int × Int) × (Int × Int)) →
    List (Int × Int) →
    List (Int × Int) × List ((Int × Int) × (Int × Int)) × List (Int × Int)
  | [], v, ps, q => (v, ps, q)
  | n :: t, v, ps, q =>
    if n ∈ v then pushNeighbors push c t v ps q
    else pushNeighbors push c t (insertVisited v n) ((n, c) :: ps) (push q n)

/-- FIFO push of `BFSSolver` (`queue.append`). -/
def fifoPush (q : List (Int × Int)) (n : Int × Int) : List (Int × Int) := q ++ [n]

/-- LIFO push of `DFSSolver` (`stack.append`, with the stack top at the
head of the list, so a Python `pop()` is a head pop here). -/
def lifoPush (q : List (Int × Int)) (n : Int × Int) : List (Int × Int) := n :: q

/-- One iteration of the `while` loop shared by `BFSSolver.solve` and
`DFSSolver.solve` (the two differ only in the frontier discipline `push`):
pop the next candidate, finish when it is the end cell, otherwise run the
teleport short-circuit or expand the neighbors.  The `tgt ∉ v` guard after
the teleport branch reproduces the source test
`if (special_target.x, special_target.y) not in self.visited`. -/
def solveIter (push : List (Int × Int) → (Int × Int) → List (Int × Int))
    (m : Maze) (endPos : Int × Int) (s : BfsState) : IterRes × BfsState :=
  match s.frontier with
  | [] => (.exhausted, s)
  | c :: rest =>
    let s1 : BfsState := { s with frontier := rest, current := some c }
    if c = endPos then
      (.foundEnd, { s1 with
        solPath := reconstructPath s1.parents (mazeWidth m * mazeHeight m) c
        solutionFound := true })
    else
      match processSpecialCell m s1.visited c with
      | (some tgt, v) =>
        if tgt ∉ v then
          (.teleported, { s1 with
            visited := insertVisited v tgt
            parents := (tgt, c) :: s1.parents
            frontier := push rest tgt })
        else
          (.teleported, { s1 with visited := v })
      | (none, v) =>
        let r := pushNeighbors push c (getNeighbors m c) v s1.parents rest
        (.expanded, { s1 with
          visited := r.1, parents := r.2.1, frontier := r.2.2
          steps := s.steps + 1 })

/-- One `BFSSolver.solve` loop iteration. -/
def bfsIter (m : Maze) (endPos : Int × Int) (s : BfsState) : IterRes × BfsState :=
  solveIter fifoPush m endPos s

/-- One `DFSSolver.solve` loop iteration. -/
def dfsIter (m : Maze) (endPos : Int × Int) (s : BfsState) : IterRes × BfsState :=
  solveIter lifoPush m endPos s

/-- Iterate `bfsIter` a fixed number of times (terminal states are fixed
points of the `exhausted` branch, which leaves the state unchanged). -/
def bfsIterN (m : Maze) (endPos : Int × Int) : Nat → BfsState → BfsState
  | 0, s => s
  | n + 1, s => bfsIterN m endPos n (bfsIter m endPos s).2

/-- Run a `solve()` generator to completion: iterate loop iterations until
the loop pops the end cell (`some (true, _)`) or the frontier runs dry
(`some (false, _)`); `none` when the fuel runs out first. -/
def solveRun (push : List (Int × Int) → (Int × Int) → List (Int × Int))
    (m : Maze) (endPos : Int × Int) : Nat → BfsState → Option (Bool × BfsState)
  | 0, _ => none
  | fuel + 1, s =>
    match solveIter push m endPos s with
    | (.exhausted, s1) => some (false, s1)
    | (.foundEnd, s1) => some (true, s1)
    | (_, s1) => solveRun push m endPos fuel s1

/-- Full BFS run (`BFSSolver.solve` driven to `StopIteration`). -/
def bfsRun (m : Maze) (endPos : Int × Int) (fuel : Nat) (s : BfsState) :
    Option (Bool × BfsState) := solveRun fifoPush m endPos fuel s

/-- Full DFS run (`DFSSolver.solve` driven to `StopIteration`). -/
def dfsRun (m : Maze) (endPos : Int × Int) (fuel : Nat) (s : BfsState) :
    Option (Bool × BfsState) := solveRun lifoPush m endPos fuel s

/-- What one call of `next()` on a `solve()` generator can produce:
a `yield False` (`progressed`), a `yield True` (`foundOut`), or a
`StopIteration` (`stopIter`, raised when the generator function returns). -/
inductive StepOut where
  | progressed
  | foundOut
  | stopIter
deriving DecidableEq, Repr

/-- Where a `solve()` generator is suspended: not yet started (`ready`),
suspended at a `yield False` in the loop (`running`), suspended at the
`yield True` just before `return True` (`foundYielded`), or finished
(`finished`; every further `next()` raises `StopIteration`). -/
inductive GenPhase where
  | ready
  | running
  | foundYielded
  | finished
deriving DecidableEq, Repr

/-- A generator: its solver state plus its suspension point. -/
structure SolveGen where
  st : BfsState
  ph : GenPhase
deriving DecidableEq, Repr

/-- Resume the loop until it yields or returns.  In `BFSSolver.solve` and
`DFSSolver.solve` the teleport branch ends in a bare `continue` with no
`yield`, so several loop iterations can run inside one `next()`; the fuel
(callers pass frontier length + 1) bounds those silent iterations. -/
def solveResume (push : List (Int × Int) → (Int × Int) → List (Int × Int))
    (m : Maze) (endPos : Int × Int) : Nat → BfsState → StepOut × SolveGen
  | 0, s => (.stopIter, ⟨s, .finished⟩)
  | fuel + 1, s =>
    match solveIter push m endPos s with
    | (.exhausted, s1) => (.stopIter, ⟨s1, .finished⟩)
    | (.foundEnd, s1) => (.foundOut, ⟨s1, .foundYielded⟩)
    | (.expanded, s1) => (.progressed, ⟨s1, .running⟩)
    | (.teleported, s1) => solveResume push m endPos fuel s1

/-- One `next()` on a BFS/DFS generator.  From `ready` it first executes
the pre-loop setup (enqueue start, mark it visited) and then enters the
loop; from a terminal suspension it raises `StopIteration` and leaves the
solver state untouched. -/
def solveNext (push : List (Int × Int) → (Int × Int) → List (Int × Int))
    (m : Maze) (s0 endPos : Int × Int) (g : SolveGen) : StepOut × SolveGen :=
  match g.ph with
  | .finished => (.stopIter, g)
  | .foundYielded => (.stopIter, ⟨g.st, .finished⟩)
  | .ready =>
    let s := solveStart s0
    solveResume push m endPos (s.frontier.length + 1) s
  | .running => solveResume push m endPos (g.st.frontier.length + 1) g.st

/-- One `next()` on the `BFSSolver.solve` generator. -/
def bfsNext (m : Maze) (s0 endPos : Int × Int) (g : SolveGen) : StepOut × SolveGen :=
  solveNext fifoPush m s0 endPos g

/-- One `next()` on the `DFSSolver.solve` generator. -/
def dfsNext (m : Maze) (s0 endPos : Int × Int) (g : SolveGen) : StepOut × SolveGen :=
  solveNext lifoPush m s0 endPos g

/-- Iterate `bfsNext` (for building concrete traces). -/
def bfsNextN (m : Maze) (s0 endPos : Int × Int) : Nat → SolveGen → StepOut × SolveGen
  | 0, g => (.progressed, g)
  | n + 1, g =>
    match n, bfsNext m s0 endPos g with
    | 0, r => r
    | k + 1, (_, g1) => bfsNextN m s0 endPos (k + 1) g1

/-- `AStarSolver.heuristic`: Manhattan distance to the end cell. -/
def heuristic (endPos c : Int × Int) : Nat :=
  ((c.1 - endPos.1).natAbs + (c.2 - endPos.2).natAbs)

/-- Heap keys are compared lexicographically on `(f, counter)`; the
counter is unique, so the position never takes part in the comparison
(matching `heapq` on `(f_score, counter, cell)` tuples). -/
def keyLtB (a b : Nat × Nat × (Int × Int)) : Bool :=
  a.1 < b.1 || (a.1 == b.1 && a.2.1 < b.2.1)

/-- The minimal entry of the heap contents (strict comparison keeps the
earliest among equal keys; keys are unique in every reachable state). -/
def findMinEntry (l : List (Nat × Nat × (Int × Int))) :
    Option (Nat × Nat × (Int × Int)) :=
  l.foldl (fun acc x =>
    match acc with
    | none => some x
    | some a => if keyLtB x a then some x else some a) none

/-- `heapq.heappop` on the heap-as-multiset: remove and return the entry
with the least `(f, counter)` key. -/
def heapPop (l : List (Nat × Nat × (Int × Int))) :
    Option ((Nat × Nat × (Int × Int)) × List (Nat × Nat × (Int × Int))) :=
  match findMinEntry l with
  | some k => some (k, l.erase k)
  | none => none

/-- Mutable state of `AStarSolver`: the open-set heap (as a multiset of
`(f, counter, position)` entries), the `g_score`/`f_score` dictionaries
(assignment shadows by consing), the tie-break counter, and the fields
shared with the other solvers. -/
structure AStarState where
  openSet : List (Nat × Nat × (Int × Int))
  gScore : List ((Int × Int) × Nat)
  fScore : List ((Int × Int) × Nat)
  counter : Nat
  visited : List (Int × Int)
  parents : List ((Int × Int) × (Int × Int))
  steps : Nat
  solPath : List (Int × Int)
  solutionFound : Bool
  current : Option (Int × Int)
deriving DecidableEq, Repr

/-- The state after the pre-loop lines of `AStarSolver.solve`: g and f of
the start cell recorded, counter bumped, start pushed and marked visited. -/
def astarStart (endPos s0 : Int × Int) : AStarState :=
  { openSet := [(heuristic endPos s0, 1, s0)]
    gScore := [(s0, 0)]
    fScore := [(s0, heuristic endPos s0)]
    counter := 1
    visited := [s0], parents := [], steps := 0
    solPath := [], solutionFound := false, current := none }

/-- The body of the neighbor loop of `AStarSolver.solve` for one neighbor
`n` of the current cell `c`: skip it when already visited, otherwise relax
when `n` has no g-score yet or the tentative score improves on it. -/
def astarRelax (endPos c : Int × Int) (s : AStarState) (n : Int × Int) : AStarState :=
  if n ∈ s.visited then s
  else
    let tentative := (s.gScore.lookup c).getD 0 + 1
    let relax : Bool :=
      match s.gScore.lookup n with
      | none => true
      | some g => tentative < g
    if relax then
      { s with
        parents := (n, c) :: s.parents
        gScore := (n, tentative) :: s.gScore
        fScore := (n, tentative + heuristic endPos n) :: s.fScore
        counter := s.counter + 1
        openSet := s.openSet ++ [(tentative + heuristic endPos n, s.counter + 1, n)]
        visited := insertVisited s.visited n }
    else s

/-- One iteration of the `while self.open_set` loop of `AStarSolver.solve`.
Unlike BFS/DFS, the teleport branch ends in `yield False` before its
`continue`, so every non-terminal iteration is one whole `next()`. -/
def astarIter (m : Maze) (endPos : Int × Int) (s : AStarState) : IterRes × AStarState :=
  match heapPop s.openSet with
  | none => (.exhausted, s)
  | some ((_, _, c), rest) =>
    let s1 : AStarState := { s with openSet := rest, current := some c }
    if c = endPos then
      (.foundEnd, { s1 with
        solPath := reconstructPath s1.parents (mazeWidth m * mazeHeight m) c
        solutionFound := true })
    else
      match processSpecialCell m s1.visited c with
      | (some tgt, v) =>
        if tgt ∉ v then
          let tentative := (s1.gScore.lookup c).getD 0 + 1
          (.teleported, { s1 with
            visited := insertVisited v tgt
            parents := (tgt, c) :: s1.parents
            gScore := (tgt, tentative) :: s1.gScore
            fScore := (tgt, tentative + heuristic endPos tgt) :: s1.fScore
            counter := s1.counter + 1
            openSet := rest ++ [(tentative + heuristic endPos tgt, s1.counter + 1, tgt)] })
        else
          (.teleported, { s1 with visited := v })
      | (none, v) =>
        let s2 := (getNeighbors m c).foldl (astarRelax endPos c) { s1 with visited := v }
        (.expanded, { s2 with steps := s2.steps + 1 })

/-- Iterate `astarIter` a fixed number of times. -/
def astarIterN (m : Maze) (endPos : Int × Int) : Nat → AStarState → AStarState
  | 0, s => s
  | n + 1, s => astarIterN m endPos n (astarIter m endPos s).2

/-- Full A* run (`AStarSolver.solve` driven to `StopIteration`). -/
def astarRun (m : Maze) (endPos : Int × Int) : Nat → AStarState → Option (Bool × AStarState)
  | 0, _ => none
  | fuel + 1, s =>
    match astarIter m endPos s with
    | (.exhausted, s1) => some (false, s1)
    | (.foundEnd, s1) => some (true, s1)
    | (_, s1) => astarRun m endPos fuel s1

/-- A generator view of `AStarSolver.solve`. -/
structure AStarGen where
  st : AStarState
  ph : GenPhase
deriving DecidableEq, Repr

/-- One `next()` on the `AStarSolver.solve` generator.  Every loop branch
of the A* loop yields (the teleport branch ends in `yield False`), so one
`next()` is exactly one loop iteration once the loop has started. -/
def astarNext (m : Maze) (s0 endPos : Int × Int) (g : AStarGen) : StepOut × AStarGen :=
  match g.ph with
  | .finished => (.stopIter, g)
  | .foundYielded => (.stopIter, ⟨g.st, .finished⟩)
  | .ready =>
    match astarIter m endPos (astarStart endPos s0) with
    | (.exhausted, s1) => (.stopIter, ⟨s1, .finished⟩)
    | (.foundEnd, s1) => (.foundOut, ⟨s1, .foundYielded⟩)
    | (_, s1) => (.progressed, ⟨s1, .running⟩)
  | .running =>
    match astarIter m endPos g.st with
    | (.exhausted, s1) => (.stopIter, ⟨s1, .finished⟩)
    | (.foundEnd, s1) => (.foundOut, ⟨s1, .foundYielded⟩)
    | (_, s1) => (.progressed, ⟨s1, .running⟩)

/-!
Specification-side notions used to state the claims: open (non-Wall)
cells, orthogonal adjacency, walks through open cells, and walks that may
additionally jump between the two cells of a teleport pair.
-/

/-- A cell that exists in the grid and is not a Wall. -/
def openCell (m : Maze) (p : Int × Int) : Bool :=
  match getCell m p.1 p.2 with
  | some t => t != TileType.wall
  | none => false

/-- One orthogonal move (the displacement is one of the four solver
directions). -/
def adjStep (p q : Int × Int) : Prop := (q.1 - p.1, q.2 - p.2) ∈ solverDirs

instance (p q : Int × Int) : Decidable (adjStep p q) := by
  unfold adjStep; infer_instance

/-- A walk: a nonempty list of open cells whose consecutive entries are
orthogonally adjacent.  `l.length - 1` is its hop count. -/
def Walk (m : Maze) (l : List (Int × Int)) : Prop :=
  l ≠ [] ∧ (∀ p ∈ l, openCell m p = true) ∧ List.Chain' adjStep l

/-- Paths in the sense of the specification's reachability statement for
solvers: orthogonal moves through non-Wall tiles, plus jumps between two
distinct Teleport cells. -/
inductive TPath (m : Maze) : (Int × Int) → (Int × Int) → Prop where
  | refl (p : Int × Int) (h : openCell m p = true) : TPath m p p
  | step (a b c : Int × Int) (h : TPath m a b) (hadj : adjStep b c)
      (hc : openCell m c = true) : TPath m a c
  | jump (a b c : Int × Int) (h : TPath m a b)
      (hb : getCell m b.1 b.2 = some TileType.teleport)
      (hc : getCell m c.1 c.2 = some TileType.teleport)
      (hne : b ≠ c) : TPath m a c

/-- A rectangular maze: every row has the width the Python code assumes
(`len(maze[0])`). -/
def Rect (m : Maze) : Prop := ∀ row ∈ m, row.length = mazeWidth m

/-!
Concrete mazes used for counterexamples and witnesses.
-/

/-- Maze for C1: the teleport at (3,1) is the only continuation, its pair
(3,3) sits next to the end cell (2,3). -/
def mzA : Maze := mazeOfStrings ["#####", "#S.T#", "#####", "#.ET#", "#####"]

/-- Maze for C2: the only route from S (1,1) to E (1,3) uses the teleport
pair (3,1) to (3,3). -/
def mzB : Maze := mazeOfStrings ["#####", "#S T#", "#####", "#E T#", "#####"]

/-- A teleport-free 5 by 5 maze with two routes from S (1,1) to E (3,3). -/
def mzP : Maze := mazeOfStrings ["#####", "#S..#", "#.#.#", "#..E#", "#####"]

/-- A two-cell maze: S at (1,1) directly adjacent to E at (2,1). -/
def mzT : Maze := mazeOfStrings ["####", "#SE#", "####"]

/-- An `n`-hop orthogonal walk through non-wall tiles: each hop moves to a
`get_neighbors` neighbor (in-bounds and not a wall) of the previous cell. -/
inductive WalkN (m : Maze) : (Int × Int) → (Int × Int) → Nat → Prop where
  | refl (p : Int × Int) : WalkN m p p 0
  | step (a b c : Int × Int) (n : Nat) (h : WalkN m a b n)
      (hc : c ∈ getNeighbors m b) : WalkN m a c (n + 1)

/-- Iterate `dfsIter` a fixed number of times. -/
def dfsIterN (m : Maze) (endPos : Int × Int) : Nat → BfsState → BfsState
  | 0, s => s
  | n + 1, s => dfsIterN m endPos n (dfsIter m endPos s).2

/-!
Part 2: embedding of `mazegeneration.py`.  Grids are `Char` matrices
(`'#'` wall, `' '` carved path, later also `'S'`, `'E'`, `'T'`, `'P'`).
The module's `random` calls are made explicit as a stream of naturals:
`randint(a, b)` maps the next stream value into `[a, b]`, failing like
Python when the range is empty, and `choice(l)` picks index
`value mod len(l)`, failing on an empty list (any concrete Python draw is
realized by some stream, so quantifying over streams covers every run).
Each unbounded `while` loop gets a fuel argument; the fuel passed by
`generateMazeFull` is proven sufficient in the theorems below.
-/

/-- An explicit random stream with a read position. -/
structure RNG where
  f : Nat → Nat
  i : Nat

/-- Draw the next raw value. -/
def RNG.take (r : RNG) : Nat × RNG := (r.f r.i, ⟨r.f, r.i + 1⟩)

/-- `random.randint(lo, hi)` (inclusive); `none` models the `ValueError`
Python raises on an empty range. -/
def randint (lo hi : Int) (r : RNG) : Option (Int × RNG) :=
  if hi < lo then none
  else
    let (n, r1) := r.take
    some (lo + (n : Int) % (hi - lo + 1), r1)

/-- `random.choice(l)`; `none` models the `IndexError` on an empty list. -/
def choice {α : Type} (l : List α) (r : RNG) : Option (α × RNG) :=
  let (n, r1) := r.take
  match l.get? (n % l.length) with
  | some a => some (a, r1)
  | none => none

/-- A generator-side grid: the row-major `Char` matrix. -/
abbrev CGrid := List (List Char)

/-- Read `grid[y][x]`; out-of-range reads return the sentinel `'X'`,
which is never stored in a grid. -/
def getC (g : CGrid) (x y : Int) : Char :=
  if 0 ≤ x ∧ 0 ≤ y then (((g.get? y.toNat).getD []).get? x.toNat).getD 'X' else 'X'

/-- Write `grid[y][x] = c` (no-op out of range; every write the generator
performs is in range). -/
def setC (g : CGrid) (x y : Int) (c : Char) : CGrid :=
  if 0 ≤ x ∧ 0 ≤ y then g.set y.toNat (((g.get? y.toNat).getD []).set x.toNat c) else g

/-- The generator's direction list `[(0,1), (0,-1), (1,0), (-1,0)]`. -/
def genDirs : List (Int × Int) := [(0, 1), (0, -1), (1, 0), (-1, 0)]

/-- The `connected` count of a frontier wall: how many of its four
neighbors are already carved (`0 <= nx < width and 0 <= ny < height and
grid[ny][nx] == ' '`). -/
def connectedCount (g : CGrid) (width height wx wy : Int) : Nat :=
  genDirs.countP fun d =>
    decide (0 ≤ wx + d.1 ∧ wx + d.1 < width ∧ 0 ≤ wy + d.2 ∧ wy + d.2 < height
      ∧ getC g (wx + d.1) (wy + d.2) = ' ')

/-- The frontier entries appended right after the seed cell is carved
(interior bounds check only, no wall check — every neighbor is still a
wall at that point). -/
def initialWalls (width height sx sy : Int) : List ((Int × Int) × (Int × Int)) :=
  genDirs.filterMap fun d =>
    let nx := sx + d.1
    let ny := sy + d.2
    if 0 < nx ∧ nx < width - 1 ∧ 0 < ny ∧ ny < height - 1 then
      some ((nx, ny), (sx, sy))
    else none

/-- The frontier entries appended after carving `(wx, wy)`: interior
neighbors that are still walls, tagged with their origin. -/
def newWallEntries (g : CGrid) (width height wx wy : Int) :
    List ((Int × Int) × (Int × Int)) :=
  genDirs.filterMap fun d =>
    let nx := wx + d.1
    let ny := wy + d.2
    if 0 < nx ∧ nx < width - 1 ∧ 0 < ny ∧ ny < height - 1 ∧ getC g nx ny = '#' then
      some ((nx, ny), (wx, wy))
    else none

/-- The `while walls:` carving loop of `generate_maze`: pop a uniformly
random frontier entry, skip it when already carved, carve it when it
connects exactly one carved cell, then push its interior wall
neighbors. -/
def carve (width height : Int) :
    Nat → CGrid → List ((Int × Int) × (Int × Int)) → RNG → Option (CGrid × RNG)
  | 0, _, _, _ => none
  | fuel + 1, g, walls, r =>
    match walls with
    | [] => some (g, r)
    | _ :: _ =>
      match randint 0 ((walls.length : Int) - 1) r with
      | none => none
      | some (i, r1) =>
        match walls.get? i.toNat with
        | none => none
        | some ((wx, wy), _) =>
          let rest := walls.eraseIdx i.toNat
          if getC g wx wy ≠ '#' then carve width height fuel g rest r1
          else if connectedCount g width height wx wy = 1 then
            let g1 := setC g wx wy ' '
            carve width height fuel g1
              (rest ++ newWallEntries g1 width height wx wy) r1
          else carve width height fuel g rest r1

/-- Neighbor pushes shared by the flood fill and the distance pass:
bounds check then `grid[ny][nx] in (' ', 'P', 'T')`. -/
def floodCands (g : CGrid) (width height x y : Int) : List (Int × Int) :=
  genDirs.filterMap fun d =>
    let nx := x + d.1
    let ny := y + d.2
    if 0 ≤ nx ∧ nx < width ∧ 0 ≤ ny ∧ ny < height
        ∧ (getC g nx ny = ' ' ∨ getC g nx ny = 'P' ∨ getC g nx ny = 'T') then
      some (nx, ny)
    else none

/-- The stack-based flood fill computing the reachable set.  The visited
set is returned in insertion order (Python's `list(visited)` order over a
set of tuples is implementation-defined; insertion order is this
embedding's choice). -/
def flood (g : CGrid) (width height : Int) :
    Nat → List (Int × Int) → List (Int × Int) → Option (List (Int × Int))
  | 0, _, _ => none
  | fuel + 1, vis, stack =>
    match stack with
    | [] => some vis
    | p :: rest =>
      if p ∈ vis then flood g width height fuel vis rest
      else
        flood g width height fuel (vis ++ [p])
          ((floodCands g width height p.1 p.2).foldl (fun st n => n :: st) rest)

/-- The breadth-first distance pass (`queue.pop(0)`, FIFO): returns the
`distances` association list in insertion (pop) order, which is the
iteration order of the Python dict. -/
def distLoop (g : CGrid) (width height : Int) :
    Nat → List ((Int × Int) × Nat) → List (Int × Int) → List ((Int × Int) × Nat) →
    Option (List ((Int × Int) × Nat))
  | 0, _, _, _ => none
  | fuel + 1, queue, vis, dists =>
    match queue with
    | [] => some dists
    | (p, d) :: rest =>
      if p ∈ vis then distLoop g width height fuel rest vis dists
      else
        distLoop g width height fuel
          (rest ++ (floodCands g width height p.1 p.2).map (fun n => (n, d + 1)))
          (vis ++ [p]) (dists ++ [(p, d)])

/-- `max(distances.keys(), key=lambda pos: distances[pos])`: the first
key attaining the maximal value, in dictionary (insertion) order. -/
def argmaxFirst (l : List ((Int × Int) × Nat)) : Option (Int × Int) :=
  (l.foldl (fun acc kv =>
    match acc with
    | none => some kv
    | some best => if kv.2 > best.2 then some kv else some best) none).map Prod.fst

/-- `[(x, y) for y in range(height) for x in range(width) if grid[y][x] == c]`. -/
def cellsWithChar (g : CGrid) (width height : Int) (c : Char) : List (Int × Int) :=
  (List.range height.toNat).flatMap fun y =>
    (List.range width.toNat).filterMap fun x =>
      if getC g (Int.ofNat x) (Int.ofNat y) = c then some (Int.ofNat x, Int.ofNat y)
      else none

/-- The penalty placement loop: `for _ in range(penalty_count)` with the
`if not empty_cells: break` guard, choosing and marking one cell per
round. -/
def placePenalties : Nat → CGrid → List (Int × Int) → RNG → Option (CGrid × RNG)
  | 0, g, _, r => some (g, r)
  | k + 1, g, cells, r =>
    match cells with
    | [] => some (g, r)
    | _ :: _ =>
      match choice cells r with
      | none => none
      | some (p, r1) => placePenalties k (setC g p.1 p.2 'P') (cells.erase p) r1

/-- The intermediate data of one `generate_maze` run, exposed so the
theorems can name the carved grid and the chosen start/end positions;
`generateMaze` projects the returned grid. -/
structure GenOut where
  grid : CGrid
  carved : CGrid
  seed : Int × Int
  startPos : Int × Int
  endPos : Int × Int
deriving Repr

/-- Fuel passed to each generation loop; proven sufficient below. -/
def genFuel (width height : Int) : Nat := 5 * (width.toNat * height.toNat) + 10

/-- Lines 3–41 of `generate_maze`: initialize the all-wall grid, carve
the random interior seed, seed the frontier and run the carving loop.
Returns the carved grid and the seed position. -/
def carveStage (width height : Int) (r : RNG) : Option (CGrid × (Int × Int) × RNG) :=
  let g0 : CGrid := List.replicate height.toNat (List.replicate width.toNat '#')
  match randint 1 (width - 2) r with
  | none => none
  | some (sx, r1) =>
    match randint 1 (height - 2) r1 with
    | none => none
    | some (sy, r2) =>
      let g1 := setC g0 sx sy ' '
      match carve width height (genFuel width height) g1
          (initialWalls width height sx sy) r2 with
      | none => none
      | some (gC, r3) => some (gC, (sx, sy), r3)

/-- Lines 44–71 of `generate_maze`: collect the empty cells, flood-fill
from a random one, and choose Start from the reachable set (with the
defensive fallback to all empty cells).  Returns Start and the remaining
reachable cells. -/
def startStage (gC : CGrid) (width height : Int) (r3 : RNG) :
    Option ((Int × Int) × List (Int × Int) × RNG) :=
  let empty1 := cellsWithChar gC width height ' '
  match choice empty1 r3 with
  | none => none
  | some (st0, r4) =>
    match flood gC width height (genFuel width height) [] [st0] with
    | none => none
    | some visited =>
      let reach1 := if visited = [] then empty1 else visited
      match choice reach1 r4 with
      | none => none
      | some (startP, r5) => some (startP, reach1.erase startP, r5)

/-- Lines 73–92 of `generate_maze`: run the distance pass from Start and
take the first farthest cell as End, falling back to a random remaining
reachable cell or to Start itself. -/
def endStage (gC : CGrid) (width height : Int) (startP : Int × Int)
    (reach2 : List (Int × Int)) (r5 : RNG) : Option ((Int × Int) × RNG) :=
  match distLoop gC width height (genFuel width height) [(startP, 0)] [] [] with
  | none => none
  | some dists =>
    if dists = [] then
      (if reach2 = [] then some (startP, r5) else choice reach2 r5)
    else (argmaxFirst dists).map (fun e => (e, r5))

/-- Lines 101–108 of `generate_maze`: when at least two plain path cells
remain, mark two distinct random ones as the teleport pair. -/
def teleportStage (g5 : CGrid) (empty2 : List (Int × Int)) (r6 : RNG) :
    Option (CGrid × List (Int × Int) × RNG) :=
  if 2 ≤ empty2.length then
    match choice empty2 r6 with
    | none => none
    | some (t1, r7) =>
      match choice (empty2.erase t1) r7 with
      | none => none
      | some (t2, r8) =>
        some (setC (setC g5 t1.1 t1.2 'T') t2.1 t2.2 'T',
          (empty2.erase t1).erase t2, r8)
  else some (g5, empty2, r6)

/-- `generate_maze(width, height)` with the random stream explicit: the
carving stage, the Start choice, the End choice, writing `S` and `E`,
recomputing the plain path cells, the teleport pair and the penalty
tiles. -/
def generateMazeFull (width height : Int) (r : RNG) : Option (GenOut × RNG) :=
  match carveStage width height r with
  | none => none
  | some (gC, seedP, r3) =>
    match startStage gC width height r3 with
    | none => none
    | some (startP, reach2, r5) =>
      match endStage gC width height startP reach2 r5 with
      | none => none
      | some (endP, r6) =>
        let g5 := setC (setC gC startP.1 startP.2 'S') endP.1 endP.2 'E'
        let empty2 := (cellsWithChar g5 width height ' ').filter
          (fun p => p ≠ startP ∧ p ≠ endP)
        match teleportStage g5 empty2 r6 with
        | none => none
        | some (g6, empty3, r9) =>
          match placePenalties (max 1 (empty3.length / 20)) g6 empty3 r9 with
          | none => none
          | some (g7, r10) => some (⟨g7, gC, seedP, startP, endP⟩, r10)

/-- `generate_maze`: just the grid. -/
def generateMaze (width height : Int) (r : RNG) : Option CGrid :=
  (generateMazeFull width height r).map (fun x => x.1.grid)

/-- Number of occurrences of a character in the grid. -/
def countChar (g : CGrid) (c : Char) : Nat :=
  (g.map (fun row => row.countP (fun ch => ch = c))).sum

/-- A generator-grid cell that exists and is not a wall. -/
def openCG (g : CGrid) (p : Int × Int) : Bool :=
  getC g p.1 p.2 != '#' && getC g p.1 p.2 != 'X'

/-- Reachability through the cells satisfying `P`, by orthogonal steps. -/
inductive ReachVia (P : (Int × Int) → Prop) : (Int × Int) → (Int × Int) → Prop where
  | refl (p : Int × Int) (h : P p) : ReachVia P p p
  | tail (a b c : Int × Int) (h : ReachVia P a b) (hadj : adjStep b c) (hc : P c) :
      ReachVia P a c

/-- The all-zero random stream (used for concrete generator runs). -/
def rngZero : RNG := ⟨fun _ => 0, 0⟩

/-- Every character of the grid belongs to `S`. -/
def CharsIn (g : CGrid) (S : List Char) : Prop :=
  ∀ r ∈ g, ∀ ch ∈ r, ch ∈ S

/-- A position inside the `width × height` box. -/
def InRange (width height : Int) (p : Int × Int) : Prop :=
  0 ≤ p.1 ∧ p.1 < width ∧ 0 ≤ p.2 ∧ p.2 < height

instance (width height : Int) (p : Int × Int) : Decidable (InRange width height p) := by
  unfold InRange; infer_instance

/-- The finite set of positions of the `width × height` box. -/
def intBox (width height : Int) : Finset (Int × Int) :=
  (Finset.range width.toNat ×ˢ Finset.range height.toNat).image
    (fun q => ((q.1 : Int), (q.2 : Int)))

/-- The grid really is a `width × height` matrix. -/
def GridDims (g : CGrid) (width height : Int) : Prop :=
  g.length = height.toNat ∧ ∀ row ∈ g, row.length = width.toNat

/-!
Theorems.  Each claim of the specification gets one theorem below (plus a
counterexample or witness where required); shared helper lemmas come
first.
-/

/-- Characterization of `processSpecialCell` on a teleport cell that has
a pair. -/
theorem processSpecialCell_teleport (m : Maze) (v : List (Int × Int))
    (c o : Int × Int) (h1 : getCell m c.1 c.2 = some TileType.teleport)
    (h2 : otherTeleport m c = some o) :
    processSpecialCell m v c = (some o, insertVisited (insertVisited v c) o) := by
  simp [processSpecialCell, h1, h2]

/-- Characterization of `processSpecialCell` on a non-teleport candidate
or an unpaired teleport. -/
theorem processSpecialCell_plain (m : Maze) (v : List (Int × Int))
    (c : Int × Int)
    (h : getCell m c.1 c.2 ≠ some TileType.teleport ∨ otherTeleport m c = none) :
    processSpecialCell m v c = (none, v) := by
  rcases h with h | h
  · simp [processSpecialCell, h]
  · unfold processSpecialCell
    split
    · rw [h]
    · rfl

/-- C1.  The claim fails on the code: `process_special_cell` adds the
paired teleport to `visited` before `solve` tests
`(special_target.x, special_target.y) not in self.visited`, so the guard
is always false and the pair is never linked nor inserted.  On `mzA` the
pair (3,3) is unvisited before the expansion of the teleport (3,1), yet
after that expansion it has no predecessor and the frontier is empty, and
all three solvers end Exhausted even though (3,3) adjoins the end cell. -/
theorem c1_teleport_pair_never_linked :
    (3, 3) ∉ (bfsIterN mzA (2, 3) 2 (solveStart (1, 1))).visited
    ∧ (bfsIterN mzA (2, 3) 2 (solveStart (1, 1))).frontier = [(3, 1)]
    ∧ getCell mzA 3 1 = some TileType.teleport
    ∧ otherTeleport mzA (3, 1) = some (3, 3)
    ∧ (3, 3) ∈ (bfsIterN mzA (2, 3) 3 (solveStart (1, 1))).visited
    ∧ (bfsIterN mzA (2, 3) 3 (solveStart (1, 1))).parents.lookup (3, 3) = none
    ∧ (bfsIterN mzA (2, 3) 3 (solveStart (1, 1))).frontier = []
    ∧ (bfsRun mzA (2, 3) 30 (solveStart (1, 1))).map Prod.fst = some false
    ∧ (dfsRun mzA (2, 3) 30 (solveStart (1, 1))).map Prod.fst = some false
    ∧ (astarRun mzA (2, 3) 30 (astarStart (2, 3) (1, 1))).map Prod.fst = some false := by
  decide

/-- C2.  The claim fails on the code: on `mzB` the breadth-first run ends
Exhausted, yet a path from Start (1,1) to End (1,3) using orthogonal
moves through non-Wall tiles and one teleport-pair jump exists. -/
theorem c2_exhausted_despite_teleport_path :
    findStartPos mzB = some (1, 1) ∧ findEndPos mzB = some (1, 3)
    ∧ (bfsRun mzB (1, 3) 30 (solveStart (1, 1))).map Prod.fst = some false
    ∧ TPath mzB (1, 1) (1, 3) := by
  refine ⟨by decide, by decide, by decide, ?_⟩
  have h0 : TPath mzB (1, 1) (1, 1) := .refl _ (by decide)
  have h1 : TPath mzB (1, 1) (2, 1) := .step _ _ _ h0 (by decide) (by decide)
  have h2 : TPath mzB (1, 1) (3, 1) := .step _ _ _ h1 (by decide) (by decide)
  have h3 : TPath mzB (1, 1) (3, 3) := .jump _ _ _ h2 (by decide) (by decide) (by decide)
  have h4 : TPath mzB (1, 1) (2, 3) := .step _ _ _ h3 (by decide) (by decide)
  exact .step _ _ _ h4 (by decide) (by decide)

/-- C6, counterexample.  On `mzT` the second `next()` yields the Found
result, but the third call raises `StopIteration` instead of returning
the terminal result again (the state itself stays unchanged). -/
theorem c6_found_not_repeated :
    (bfsNextN mzT (1, 1) (2, 1) 2 ⟨solveStart (1, 1), .ready⟩).1 = .foundOut
    ∧ (bfsNextN mzT (1, 1) (2, 1) 3 ⟨solveStart (1, 1), .ready⟩).1 = .stopIter
    ∧ (bfsNextN mzT (1, 1) (2, 1) 3 ⟨solveStart (1, 1), .ready⟩).2.st
      = (bfsNextN mzT (1, 1) (2, 1) 2 ⟨solveStart (1, 1), .ready⟩).2.st := by
  decide

/-- C6, amended.  Once a `solve()` generator is finished, every further
`next()` raises `StopIteration` and leaves the whole solver state (in
particular the visited set and the reconstructed path) unchanged; the
call after the Found yield likewise only raises `StopIteration` without
touching the state. -/
theorem c6_terminal_stop_idempotent (m : Maze) (s0 e : Int × Int)
    (s : BfsState) (t : AStarState) :
    bfsNext m s0 e ⟨s, .finished⟩ = (.stopIter, ⟨s, .finished⟩)
    ∧ dfsNext m s0 e ⟨s, .finished⟩ = (.stopIter, ⟨s, .finished⟩)
    ∧ astarNext m s0 e ⟨t, .finished⟩ = (.stopIter, ⟨t, .finished⟩)
    ∧ bfsNext m s0 e ⟨s, .foundYielded⟩ = (.stopIter, ⟨s, .finished⟩)
    ∧ dfsNext m s0 e ⟨s, .foundYielded⟩ = (.stopIter, ⟨s, .finished⟩)
    ∧ astarNext m s0 e ⟨t, .foundYielded⟩ = (.stopIter, ⟨t, .finished⟩) :=
  ⟨rfl, rfl, rfl, rfl, rfl, rfl⟩

/-- C7, counterexample.  After the single expansion of the start cell on
`mzP` (one pop, `steps = 1`, `current` is the start), both neighbors are
already in the visited set while still sitting unpopped in the open-set
heap: the A* code marks visited at push time, not at pop time. -/
theorem c7_visited_marked_at_push :
    (astarIterN mzP (3, 3) 1 (astarStart (3, 3) (1, 1))).current = some (1, 1)
    ∧ (astarIterN mzP (3, 3) 1 (astarStart (3, 3) (1, 1))).steps = 1
    ∧ (2, 1) ∈ (astarIterN mzP (3, 3) 1 (astarStart (3, 3) (1, 1))).visited
    ∧ (1, 2) ∈ (astarIterN mzP (3, 3) 1 (astarStart (3, 3) (1, 1))).visited
    ∧ (2, 1) ∈ (astarIterN mzP (3, 3) 1 (astarStart (3, 3) (1, 1))).openSet.map
        (fun kv => kv.2.2)
    ∧ (1, 2) ∈ (astarIterN mzP (3, 3) 1 (astarStart (3, 3) (1, 1))).openSet.map
        (fun kv => kv.2.2) := by
  decide

/-- Membership after a set-as-list insertion. -/
theorem mem_insertVisited (v : List (Int × Int)) (p q : Int × Int) :
    p ∈ insertVisited v q ↔ p = q ∨ p ∈ v := by
  unfold insertVisited
  split
  · next h =>
    constructor
    · exact fun hp => Or.inr hp
    · rintro (rfl | hp)
      · exact h
      · exact hp
  · simp [List.mem_cons]

/-- The two possible outcomes of the A* loop body on an unvisited
neighbor: either nothing changes (failed relaxation) or the state is
rewritten with the neighbor pushed, scored and marked visited. -/
theorem astarRelax_not_visited (e c n : Int × Int) (s : AStarState)
    (h : n ∉ s.visited) :
    astarRelax e c s n = s
    ∨ ∃ t, astarRelax e c s n = { s with
        parents := (n, c) :: s.parents
        gScore := (n, t) :: s.gScore
        fScore := (n, t + heuristic e n) :: s.fScore
        counter := s.counter + 1
        openSet := s.openSet ++ [(t + heuristic e n, s.counter + 1, n)]
        visited := insertVisited s.visited n } := by
  unfold astarRelax
  rw [if_neg h]
  dsimp only
  split
  · exact Or.inr ⟨_, rfl⟩
  · exact Or.inl rfl

/-- C7, amended.  In the A* neighbor loop an already-visited neighbor is
skipped outright (no predecessor, score, counter or frontier change), and
whenever the loop body does change the state it marks the neighbor
visited at that push, records the popped cell as its predecessor and
appends exactly one new frontier entry — so a position already placed in
the frontier is never relaxed again. -/
theorem c7_no_second_relaxation (e c n : Int × Int) (s : AStarState) :
    (n ∈ s.visited → astarRelax e c s n = s)
    ∧ (astarRelax e c s n ≠ s →
        n ∈ (astarRelax e c s n).visited
        ∧ (astarRelax e c s n).parents.lookup n = some c
        ∧ ∃ k, (astarRelax e c s n).openSet = s.openSet ++ [(k, s.counter + 1, n)]) := by
  constructor
  · intro h
    simp [astarRelax, h]
  · intro hne
    by_cases h : n ∈ s.visited
    · exact absurd (by simp [astarRelax, h]) hne
    · rcases astarRelax_not_visited e c n s h with heq | ⟨t, heq⟩
      · exact absurd heq hne
      · rw [heq]
        refine ⟨?_, ?_, ⟨t + heuristic e n, rfl⟩⟩
        · exact (mem_insertVisited s.visited n n).2 (Or.inl rfl)
        · simp [List.lookup]

/-- C7, witness for the amended theorem: the already-visited neighbor
(2,1) of the popped start cell is skipped unchanged on `mzP`. -/
theorem c7_no_second_relaxation_w :
    astarRelax (3, 3) (1, 1) (astarIterN mzP (3, 3) 1 (astarStart (3, 3) (1, 1))) (2, 1)
      = astarIterN mzP (3, 3) 1 (astarStart (3, 3) (1, 1)) :=
  (c7_no_second_relaxation (3, 3) (1, 1) (2, 1) _).1 (by decide)

/-- C8.  In one BFS or DFS loop iteration: popping the end cell leaves
the step counter alone, a teleport pass-through (teleport candidate with
a pair) leaves it alone, and every other expansion increments it exactly
once. -/
theorem c8_step_counter (m : Maze) (e : Int × Int) (s : BfsState)
    (c : Int × Int) (rest : List (Int × Int)) (hq : s.frontier = c :: rest) :
    (c = e → (bfsIter m e s).2.steps = s.steps ∧ (dfsIter m e s).2.steps = s.steps)
    ∧ (c ≠ e → getCell m c.1 c.2 = some TileType.teleport →
        (∃ o, otherTeleport m c = some o) →
        (bfsIter m e s).2.steps = s.steps ∧ (dfsIter m e s).2.steps = s.steps)
    ∧ (c ≠ e →
        (getCell m c.1 c.2 ≠ some TileType.teleport ∨ otherTeleport m c = none) →
        (bfsIter m e s).2.steps = s.steps + 1
        ∧ (dfsIter m e s).2.steps = s.steps + 1) := by
  refine ⟨?_, ?_, ?_⟩
  · intro hce
    simp [bfsIter, dfsIter, solveIter, hq, hce]
  · rintro hne ht ⟨o, ho⟩
    rw [bfsIter, dfsIter, solveIter, solveIter, hq]
    simp only [if_neg hne, processSpecialCell_teleport m _ c o ht ho]
    constructor <;> split <;> rfl
  · intro hne h
    rw [bfsIter, dfsIter, solveIter, solveIter, hq]
    simp only [if_neg hne, processSpecialCell_plain m _ c h]
    exact ⟨trivial, trivial⟩

/-- C8, witness: on `mzA`, the iteration popping the teleport (3,1) does
not change the step counter (it stays at the 2 counted for the two
ordinary expansions before it). -/
theorem c8_step_counter_w :
    (bfsIter mzA (2, 3) (bfsIterN mzA (2, 3) 2 (solveStart (1, 1)))).2.steps
      = (bfsIterN mzA (2, 3) 2 (solveStart (1, 1))).steps
    ∧ (bfsIterN mzA (2, 3) 2 (solveStart (1, 1))).steps = 2 :=
  ⟨((c8_step_counter mzA (2, 3) _ (3, 1) [] (by decide)).2.1 (by decide) (by decide)
      ⟨(3, 3), by decide⟩).1, by decide⟩


/-- Setting an existing index then reading it back. -/
theorem get?_set_self {α : Type} (l : List α) (i : Nat) (a b : α)
    (h : l.get? i = some b) : (l.set i a).get? i = some a := by
  have hlen : i < l.length := by
    by_contra hc
    rw [List.get?_eq_none.2 (le_of_not_lt hc)] at h
    exact Option.noConfusion h
  rw [List.get?_set_eq, List.get?_eq_get hlen]
  rfl

/-- Reading back the cell just written (the write is in range because the
old value is not the sentinel). -/
theorem getC_setC_self (g : CGrid) (x y : Int) (c : Char)
    (h : getC g x y ≠ 'X') : getC (setC g x y c) x y = c := by
  unfold getC setC at *
  by_cases hb : 0 ≤ x ∧ 0 ≤ y
  · rw [if_pos hb] at h ⊢
    rw [if_pos hb]
    rcases hr : g.get? y.toNat with _ | row
    · rw [hr] at h
      simp at h
    · rw [hr] at h
      simp only [Option.getD_some] at h
      rcases hv : row.get? x.toNat with _ | v
      · rw [hv] at h
        simp at h
      · rw [get?_set_self g y.toNat _ row hr]
        simp only [Option.getD_some]
        rw [get?_set_self row x.toNat c v hv]
        rfl
  · rw [if_neg hb] at h
    exact absurd rfl h

/-- Reads at other positions are unchanged by a write. -/
theorem getC_setC_ne (g : CGrid) (x y a b : Int) (c : Char)
    (hne : (a, b) ≠ (x, y)) : getC (setC g x y c) a b = getC g a b := by
  unfold getC setC
  by_cases hb : 0 ≤ x ∧ 0 ≤ y
  · rw [if_pos hb]
    by_cases hab : 0 ≤ a ∧ 0 ≤ b
    · rw [if_pos hab, if_pos hab]
      by_cases hyy : b.toNat = y.toNat
      · have hby : b = y := by
          rw [← Int.toNat_of_nonneg hab.2, ← Int.toNat_of_nonneg hb.2, hyy]
        subst hby
        have hax : a ≠ x := fun hax => hne (by rw [hax])
        have haxn : a.toNat ≠ x.toNat := by
          intro hc
          apply hax
          rw [← Int.toNat_of_nonneg hab.1, ← Int.toNat_of_nonneg hb.1, hc]
        rw [List.get?_set_eq]
        rcases hr : g.get? b.toNat with _ | row
        · rfl
        · simp only [Option.map_some, Option.getD_some]
          rw [List.get?_set_ne _ _ (fun hc => haxn hc.symm)]
      · rw [List.get?_set_ne _ _ (fun hc => hyy hc.symm)]
    · rw [if_neg hab, if_neg hab]
  · rw [if_neg hb]

/-- Replacing one list entry exchanges its contribution to `countP`. -/
theorem countP_set (l : List Char) (i : Nat) (a v : Char) (p : Char → Bool)
    (h : l.get? i = some v) :
    (l.set i a).countP p + (if p v then 1 else 0)
      = l.countP p + (if p a then 1 else 0) := by
  induction l generalizing i with
  | nil => exact absurd h (by simp)
  | cons hd tl ih =>
    cases i with
    | zero =>
      simp only [List.get?] at h
      cases h
      simp only [List.set, List.countP_cons]
      omega
    | succ k =>
      simp only [List.get?] at h
      have hk := ih k h
      simp only [List.set, List.countP_cons]
      omega

/-- Replacing one list entry exchanges its contribution to a mapped sum. -/
theorem sum_map_set {α : Type} (l : List α) (i : Nat) (a b : α) (f : α → Nat)
    (h : l.get? i = some b) :
    ((l.set i a).map f).sum + f b = (l.map f).sum + f a := by
  induction l generalizing i with
  | nil => exact absurd h (by simp)
  | cons hd tl ih =>
    cases i with
    | zero =>
      simp only [List.get?] at h
      cases h
      simp only [List.set, List.map_cons, List.sum_cons]
      omega
    | succ k =>
      simp only [List.get?] at h
      have hk := ih k h
      simp only [List.set, List.map_cons, List.sum_cons]
      omega

/-- How one in-range write changes a character count. -/
theorem countChar_setC (g : CGrid) (x y : Int) (c v : Char)
    (hv : getC g x y = v) (hX : v ≠ 'X') (ch : Char) :
    countChar (setC g x y c) ch + (if v = ch then 1 else 0)
      = countChar g ch + (if c = ch then 1 else 0) := by
  unfold getC at hv
  by_cases hb : 0 ≤ x ∧ 0 ≤ y
  · rw [if_pos hb] at hv
    rcases hr : g.get? y.toNat with _ | row
    · rw [hr] at hv
      simp at hv
      exact absurd hv.symm hX
    · rw [hr] at hv
      simp only [Option.getD_some] at hv
      rcases hgv : row.get? x.toNat with _ | w
      · rw [hgv] at hv
        simp at hv
        exact absurd hv.symm hX
      · rw [hgv] at hv
        simp only [Option.getD_some] at hv
        subst hv
        unfold setC countChar
        rw [if_pos hb, hr]
        simp only [Option.getD_some]
        have h1 := sum_map_set g y.toNat (row.set x.toNat c) row
          (fun r => r.countP (fun a => decide (a = ch))) hr
        have h2 := countP_set row x.toNat c w (fun a => decide (a = ch)) hgv
        simp only [decide_eq_true_eq] at h2
        dsimp only at h1
        omega
  · rw [if_neg hb] at hv
    exact absurd hv.symm hX

/-- A duplicate-free list of box positions has at most `width * height`
entries. -/
theorem nodup_inRange_length (width height : Int) (l : List (Int × Int))
    (hnd : l.Nodup) (hin : ∀ p ∈ l, InRange width height p) :
    l.length ≤ width.toNat * height.toNat := by
  have hsub : l.toFinset ⊆ intBox width height := by
    intro p hp
    rw [List.mem_toFinset] at hp
    rcases hin p hp with ⟨h1, h2, h3, h4⟩
    unfold intBox
    rw [Finset.mem_image]
    refine ⟨(p.1.toNat, p.2.toNat), ?_, ?_⟩
    · rw [Finset.mem_product, Finset.mem_range, Finset.mem_range]
      constructor
      · omega
      · omega
    · simp only
      rw [Int.toNat_of_nonneg h1, Int.toNat_of_nonneg h3]
  have h1 : l.toFinset.card = l.length := List.toFinset_card_of_nodup hnd
  have h2 : (intBox width height).card ≤ width.toNat * height.toNat := by
    unfold intBox
    calc ((Finset.range width.toNat ×ˢ Finset.range height.toNat).image
        (fun q => ((q.1 : Int), (q.2 : Int)))).card
        ≤ (Finset.range width.toNat ×ˢ Finset.range height.toNat).card :=
          Finset.card_image_le
      _ = width.toNat * height.toNat := by simp
  calc l.length = l.toFinset.card := h1.symm
    _ ≤ (intBox width height).card := Finset.card_le_card hsub
    _ ≤ width.toNat * height.toNat := h2

/-- `randint` succeeds exactly on nonempty ranges, and its value lies in
the range. -/
theorem randint_some (lo hi : Int) (r : RNG) (h : lo ≤ hi) :
    ∃ v r1, randint lo hi r = some (v, r1) ∧ lo ≤ v ∧ v ≤ hi := by
  unfold randint RNG.take
  rw [if_neg (not_lt.2 h)]
  have hm1 : (0 : Int) ≤ ((r.f r.i : Nat) : Int) % (hi - lo + 1) :=
    Int.emod_nonneg _ (by omega)
  have hm2 : ((r.f r.i : Nat) : Int) % (hi - lo + 1) < hi - lo + 1 :=
    Int.emod_lt_of_pos _ (by omega)
  exact ⟨_, _, rfl, by omega, by omega⟩

/-- `randint` fails exactly on empty ranges. -/
theorem randint_none (lo hi : Int) (r : RNG) (h : hi < lo) :
    randint lo hi r = none := by
  unfold randint
  rw [if_pos h]

/-- `choice` on a nonempty list succeeds and returns a member. -/
theorem choice_some {α : Type} (l : List α) (r : RNG) (h : l ≠ []) :
    ∃ a r1, choice l r = some (a, r1) ∧ a ∈ l := by
  unfold choice RNG.take
  dsimp only
  have hlt : r.f r.i % l.length < l.length := Nat.mod_lt _ (List.length_pos.2 h)
  rw [List.get?_eq_get hlt]
  exact ⟨_, _, rfl, List.get_mem _ _ _⟩

/-- Membership in the cell comprehension. -/
theorem mem_cellsWithChar (g : CGrid) (width height : Int) (c : Char)
    (p : Int × Int) :
    p ∈ cellsWithChar g width height c
      ↔ 0 ≤ p.1 ∧ p.1 < width ∧ 0 ≤ p.2 ∧ p.2 < height ∧ getC g p.1 p.2 = c := by
  rcases p with ⟨x, y⟩
  simp only [cellsWithChar, List.mem_flatMap, List.mem_filterMap, List.mem_range]
  constructor
  · rintro ⟨yn, hyn, xn, hxn, hif⟩
    split at hif
    · next hc =>
      have hp := Option.some_inj.1 hif
      have hx1 : Int.ofNat xn = x := congrArg Prod.fst hp
      have hy1 : Int.ofNat yn = y := congrArg Prod.snd hp
      subst hx1
      subst hy1
      refine ⟨?_, ?_, ?_, ?_, hc⟩ <;> simp only [Int.ofNat_eq_natCast] <;> omega
    · exact absurd hif (by simp)
  · rintro ⟨h1, h2, h3, h4, h5⟩
    refine ⟨y.toNat, by omega, x.toNat, by omega, ?_⟩
    have hxx : Int.ofNat x.toNat = x := by simp only [Int.ofNat_eq_natCast]; omega
    have hyy : Int.ofNat y.toNat = y := by simp only [Int.ofNat_eq_natCast]; omega
    rw [hxx, hyy]
    rw [if_pos h5]

/-- The cell comprehension never repeats a position. -/
theorem nodup_cellsWithChar (g : CGrid) (width height : Int) (c : Char) :
    (cellsWithChar g width height c).Nodup := by
  unfold cellsWithChar
  rw [List.nodup_flatMap]
  constructor
  · intro y _
    apply List.Nodup.filterMap ?_ (List.nodup_range _)
    intro a b q ha hb
    split at ha
    · split at hb
      · have h1 := congrArg Prod.fst (Option.some_inj.1 ha)
        have h2 := congrArg Prod.fst (Option.some_inj.1 hb)
        dsimp only at h1 h2
        simp only [Int.ofNat_eq_natCast] at h1 h2
        omega
      · exact absurd hb (by simp)
    · exact absurd ha (by simp)
  · have hp : ∀ y1 y2 : Nat, y1 ≠ y2 → ∀ q : Int × Int,
        q ∈ (List.range width.toNat).filterMap (fun x =>
          if getC g (Int.ofNat x) (Int.ofNat y1) = c
          then some (Int.ofNat x, Int.ofNat y1) else none) →
        q ∈ (List.range width.toNat).filterMap (fun x =>
          if getC g (Int.ofNat x) (Int.ofNat y2) = c
          then some (Int.ofNat x, Int.ofNat y2) else none) →
        False := by
      intro y1 y2 hne q hq1 hq2
      rw [List.mem_filterMap] at hq1 hq2
      rcases hq1 with ⟨x1, _, h1⟩
      rcases hq2 with ⟨x2, _, h2⟩
      split at h1
      · split at h2
        · have e1 := congrArg Prod.snd (Option.some_inj.1 h1)
          have e2 := congrArg Prod.snd (Option.some_inj.1 h2)
          dsimp only at e1 e2
          simp only [Int.ofNat_eq_natCast] at e1 e2
          omega
        · exact absurd h2 (by simp)
      · exact absurd h1 (by simp)
    exact (List.pairwise_lt_range _).imp
      (fun hlt q hq1 hq2 => hp _ _ (Nat.ne_of_lt hlt) q hq1 hq2)


/-- Generic inversion principle for one unfolding of the carve loop. -/
theorem carve_succ_cases (width height : Int) (fuel : Nat) (g : CGrid)
    (walls : List ((Int × Int) × (Int × Int))) (r : RNG) (out : CGrid × RNG)
    (h : carve width height (fuel + 1) g walls r = some out) :
    (walls = [] ∧ out = (g, r))
    ∨ ∃ i rr wx wy o rest,
        randint 0 ((walls.length : Int) - 1) r = some (i, rr)
        ∧ walls.get? i.toNat = some ((wx, wy), o)
        ∧ rest = walls.eraseIdx i.toNat
        ∧ ((getC g wx wy ≠ '#'
              ∧ carve width height fuel g rest rr = some out)
          ∨ (getC g wx wy = '#' ∧ connectedCount g width height wx wy = 1
              ∧ carve width height fuel (setC g wx wy ' ')
                  (rest ++ newWallEntries (setC g wx wy ' ') width height wx wy) rr
                = some out)
          ∨ (getC g wx wy = '#' ∧ connectedCount g width height wx wy ≠ 1
              ∧ carve width height fuel g rest rr = some out)) := by
  unfold carve at h
  rcases walls with _ | ⟨⟨⟨wx, wy⟩, o⟩, rest0⟩
  · left
    dsimp only at h
    exact ⟨rfl, (Option.some_inj.1 h).symm ▸ rfl⟩
  · right
    rcases hrand : randint 0 (((((wx, wy), o) :: rest0).length : Int) - 1) r
        with _ | ⟨i, rr⟩
    · rw [hrand] at h
      exact absurd h (by simp)
    · rw [hrand] at h
      dsimp only at h
      rcases hget : (((wx, wy), o) :: rest0).get? i.toNat with _ | ⟨⟨ex, ey⟩, eo⟩
      · rw [hget] at h
        exact absurd h (by simp)
      · rw [hget] at h
        dsimp only at h
        refine ⟨i, rr, ex, ey, eo, _, rfl, hget, rfl, ?_⟩
        by_cases hwall : getC g ex ey ≠ '#'
        · rw [if_pos hwall] at h
          exact Or.inl ⟨hwall, h⟩
        · rw [if_neg hwall] at h
          push_neg at hwall
          by_cases hcon : connectedCount g width height ex ey = 1
          · rw [if_pos hcon] at h
            exact Or.inr (Or.inl ⟨hwall, hcon, h⟩)
          · rw [if_neg hcon] at h
            exact Or.inr (Or.inr ⟨hwall, hcon, h⟩)

/-- Reachability is monotone in the open-cell predicate. -/
theorem ReachVia_mono {P Q : (Int × Int) → Prop} (himp : ∀ p, P p → Q p)
    {a b : Int × Int} (h : ReachVia P a b) : ReachVia Q a b := by
  induction h with
  | refl hp => exact .refl _ (himp _ hp)
  | tail b c _ hadj hc ih => exact .tail _ _ _ ih hadj (himp _ hc)

/-- The negation of a generator direction is a solver direction (the two
lists hold the same four offsets). -/
theorem mem_genDirs_neg (d : Int × Int) (h : d ∈ genDirs) :
    (-d.1, -d.2) ∈ solverDirs := by
  fin_cases h <;> decide

/-- Writing a character of the alphabet preserves the alphabet. -/
theorem charsIn_setC (g : CGrid) (x y : Int) (c : Char) (S : List Char)
    (hg : CharsIn g S) (hc : c ∈ S) : CharsIn (setC g x y c) S := by
  unfold setC
  by_cases hb : 0 ≤ x ∧ 0 ≤ y
  · rw [if_pos hb]
    intro row hrow ch hch
    rcases List.mem_or_eq_of_mem_set hrow with hrow1 | hrow1
    · exact hg row hrow1 ch hch
    · subst hrow1
      rcases List.mem_or_eq_of_mem_set hch with hch1 | hch1
      · rcases hget : g.get? y.toNat with _ | row0
        · rw [hget] at hch1
          exact absurd hch1 (by simp)
        · rw [hget] at hch1
          exact hg row0 (List.get?_mem hget) ch hch1
      · subst hch1
        exact hc
  · rw [if_neg hb]
    exact hg

/-- Carving a frontier wall that touches exactly one carved cell keeps
every carved cell reachable from the seed. -/
theorem reach_after_carve (g : CGrid) (width height ex ey : Int)
    (seed : Int × Int) (hwall : getC g ex ey = '#')
    (hcon : connectedCount g width height ex ey = 1)
    (hreach : ∀ p : Int × Int, getC g p.1 p.2 = ' ' →
      ReachVia (fun q => getC g q.1 q.2 = ' ') seed p) :
    ∀ p : Int × Int, getC (setC g ex ey ' ') p.1 p.2 = ' ' →
      ReachVia (fun q => getC (setC g ex ey ' ') q.1 q.2 = ' ') seed p := by
  have hmono : ∀ q : Int × Int,
      getC g q.1 q.2 = ' ' → getC (setC g ex ey ' ') q.1 q.2 = ' ' := by
    intro q hq
    have hne : (q.1, q.2) ≠ (ex, ey) := by
      intro hc
      have e1 : q.1 = ex := congrArg Prod.fst hc
      have e2 : q.2 = ey := congrArg Prod.snd hc
      rw [e1, e2] at hq
      rw [hq] at hwall
      exact absurd hwall (by decide)
    rw [getC_setC_ne _ _ _ _ _ _ hne]
    exact hq
  intro p hp
  by_cases hpe : (p.1, p.2) = (ex, ey)
  · have hpos : 0 < genDirs.countP (fun d =>
        decide (0 ≤ ex + d.1 ∧ ex + d.1 < width ∧ 0 ≤ ey + d.2 ∧ ey + d.2 < height
          ∧ getC g (ex + d.1) (ey + d.2) = ' ')) := by
      unfold connectedCount at hcon
      omega
    obtain ⟨d, hd, hcond⟩ := List.countP_pos_iff.mp hpos
    obtain ⟨_, _, _, _, hsp⟩ := of_decide_eq_true hcond
    have hn := ReachVia_mono hmono (hreach (ex + d.1, ey + d.2) hsp)
    have hstep : adjStep (ex + d.1, ey + d.2) (ex, ey) := by
      unfold adjStep
      have h5 : ((ex, ey).1 - (ex + d.1, ey + d.2).1,
          (ex, ey).2 - (ex + d.1, ey + d.2).2) = (-d.1, -d.2) := by
        rw [Prod.mk.injEq]
        constructor <;> ring
      rw [h5]
      exact mem_genDirs_neg d hd
    have hself : getC (setC g ex ey ' ') ex ey = ' ' :=
      getC_setC_self _ _ _ _ (by rw [hwall]; decide)
    have hr := ReachVia.tail seed (ex + d.1, ey + d.2) (ex, ey) hn hstep hself
    have hpeta : p = (ex, ey) := by
      rw [← hpe]
    rw [hpeta]
    exact hr
  · rw [getC_setC_ne _ _ _ _ _ _ hpe] at hp
    exact ReachVia_mono hmono (hreach p hp)

/-- The carving loop preserves carved cells, the grid alphabet and
seed-reachability of every carved cell. -/
theorem carve_preserves (width height : Int) (seed : Int × Int) :
    ∀ (fuel : Nat) (g : CGrid) (walls : List ((Int × Int) × (Int × Int)))
      (r : RNG) (g1 : CGrid) (r1 : RNG),
      carve width height fuel g walls r = some (g1, r1) →
      (∀ x y, getC g x y = ' ' → getC g1 x y = ' ')
      ∧ (CharsIn g ['#', ' '] → CharsIn g1 ['#', ' '])
      ∧ ((∀ p : Int × Int, getC g p.1 p.2 = ' ' →
            ReachVia (fun q => getC g q.1 q.2 = ' ') seed p) →
          ∀ p : Int × Int, getC g1 p.1 p.2 = ' ' →
            ReachVia (fun q => getC g1 q.1 q.2 = ' ') seed p)
  | 0, g, walls, r, g1, r1 => by
    intro h
    exact absurd h (by simp [carve])
  | fuel + 1, g, walls, r, g1, r1 => by
    intro h
    rcases carve_succ_cases width height fuel g walls r (g1, r1) h with
      ⟨hnil, hout⟩ | ⟨i, rr, wx, wy, o, rest, hrand, hget, hrest, hbr⟩
    · have h2 : g = g1 := congrArg Prod.fst hout |>.symm
      subst h2
      exact ⟨fun x y hs => hs, fun hc => hc, fun hr => hr⟩
    · rcases hbr with ⟨hwall, hrec⟩ | ⟨hwall, hcon, hrec⟩ | ⟨hwall, _, hrec⟩
      · exact carve_preserves width height seed fuel _ _ _ _ _ hrec
      · have ih := carve_preserves width height seed fuel _ _ _ _ _ hrec
        refine ⟨?_, ?_, ?_⟩
        · intro x y hs
          apply ih.1
          have hne : (x, y) ≠ (wx, wy) := by
            intro hc
            have e1 : x = wx := congrArg Prod.fst hc
            have e2 : y = wy := congrArg Prod.snd hc
            rw [e1, e2] at hs
            rw [hs] at hwall
            exact absurd hwall (by decide)
          rw [getC_setC_ne _ _ _ _ _ _ hne]
          exact hs
        · intro hc
          exact ih.2.1 (charsIn_setC _ _ _ _ _ hc (by decide))
        · intro hreach
          exact ih.2.2 (reach_after_carve g width height wx wy seed hwall hcon hreach)
      · exact carve_preserves width height seed fuel _ _ _ _ _ hrec

/-- The fuel `5 * wallCount + |walls|` always suffices for the carving
loop: skipping an entry shortens the frontier, carving one removes a
wall. -/
theorem carve_term (width height : Int) :
    ∀ (fuel : Nat) (g : CGrid) (walls : List ((Int × Int) × (Int × Int))) (r : RNG),
      5 * countChar g '#' + walls.length < fuel →
      ∃ out, carve width height fuel g walls r = some out
  | 0, g, walls, r => by
    intro h
    exact absurd h (by omega)
  | fuel + 1, g, walls, r => by
    intro hm
    rcases hw : walls with _ | ⟨⟨⟨wx, wy⟩, o⟩, rest0⟩
    · exact ⟨(g, r), rfl⟩
    · subst hw
      have hlen : (1 : Int) ≤ ((((wx, wy), o) :: rest0).length : Int) := by
        simp [List.length_cons]
      obtain ⟨i, rr, heq, hi0, hile⟩ :=
        randint_some 0 ((((((wx, wy), o) :: rest0)).length : Int) - 1) r (by omega)
      have hlt : i.toNat < ((((wx, wy), o) :: rest0)).length := by omega
      rcases hget2 : ((((wx, wy), o) :: rest0)).get ⟨i.toNat, hlt⟩ with ⟨⟨ex, ey⟩, eo⟩
      have hget : ((((wx, wy), o) :: rest0)).get? i.toNat = some ((ex, ey), eo) := by
        rw [List.get?_eq_get hlt, hget2]
      have hrestlen : ((((wx, wy), o) :: rest0).eraseIdx i.toNat).length
          = (((wx, wy), o) :: rest0).length - 1 :=
        List.length_eraseIdx_of_lt hlt
      unfold carve
      rw [heq]
      dsimp only
      rw [hget]
      dsimp only
      by_cases hwall : getC g ex ey ≠ '#'
      · rw [if_pos hwall]
        apply carve_term width height fuel
        rw [hrestlen]
        simp only [List.length_cons] at hm ⊢
        omega
      · rw [if_neg hwall]
        push_neg at hwall
        by_cases hcon : connectedCount g width height ex ey = 1
        · rw [if_pos hcon]
          apply carve_term width height fuel
          have hcount := countChar_setC g ex ey ' ' '#' hwall (by decide) '#'
          simp at hcount
          have hnew : (newWallEntries (setC g ex ey ' ') width height ex ey).length ≤ 4 := by
            have := List.length_filterMap_le (fun d : Int × Int =>
              let nx := ex + d.1
              let ny := ey + d.2
              if 0 < nx ∧ nx < width - 1 ∧ 0 < ny ∧ ny < height - 1
                  ∧ getC (setC g ex ey ' ') nx ny = '#' then
                some ((nx, ny), (ex, ey))
              else none) genDirs
            unfold newWallEntries
            simpa using this
          rw [List.length_append, hrestlen]
          simp only [List.length_cons] at hm ⊢
          omega
        · rw [if_neg hcon]
          apply carve_term width height fuel
          rw [hrestlen]
          simp only [List.length_cons] at hm ⊢
          omega

/-- Every candidate pushed by the flood fill or the distance pass is in
range and carries one of the traversable characters. -/
theorem mem_floodCands (g : CGrid) (width height x y : Int) (p : Int × Int)
    (h : p ∈ floodCands g width height x y) :
    InRange width height p
    ∧ (getC g p.1 p.2 = ' ' ∨ getC g p.1 p.2 = 'P' ∨ getC g p.1 p.2 = 'T') := by
  unfold floodCands at h
  rw [List.mem_filterMap] at h
  rcases h with ⟨d, _, hif⟩
  dsimp only at hif
  split at hif
  · next hc =>
    have hp := Option.some_inj.1 hif
    rcases hc with ⟨h1, h2, h3, h4, h5⟩
    subst hp
    exact ⟨⟨h1, h2, h3, h4⟩, h5⟩
  · exact absurd hif (by simp)

/-- There are at most four flood candidates. -/
theorem floodCands_length_le (g : CGrid) (width height x y : Int) :
    (floodCands g width height x y).length ≤ 4 := by
  have h := List.length_filterMap_le (fun d : Int × Int =>
    let nx := x + d.1
    let ny := y + d.2
    if 0 ≤ nx ∧ nx < width ∧ 0 ≤ ny ∧ ny < height
        ∧ (getC g nx ny = ' ' ∨ getC g nx ny = 'P' ∨ getC g nx ny = 'T') then
      some (nx, ny)
    else none) genDirs
  unfold floodCands
  simpa using h

/-- Folding cons reverses onto the accumulator (the Python
`stack.append` loop with the stack top at the list head). -/
theorem foldl_cons_rev {α : Type} (l acc : List α) :
    l.foldl (fun st n => n :: st) acc = l.reverse ++ acc := by
  induction l generalizing acc with
  | nil => simp
  | cons a t ih => simp [List.foldl_cons, ih]

/-- The flood fill terminates on the stated fuel and returns a
duplicate-free, in-range visited set containing the whole stack, every
new member being a traversable cell popped off the stack. -/
theorem flood_term (g : CGrid) (width height : Int) :
    ∀ (fuel : Nat) (vis stack : List (Int × Int)),
      vis.Nodup → (∀ p ∈ vis, InRange width height p) →
      (∀ p ∈ stack, InRange width height p) →
      5 * (width.toNat * height.toNat - vis.length) + stack.length < fuel →
      ∃ out, flood g width height fuel vis stack = some out
        ∧ (∀ p ∈ vis, p ∈ out)
        ∧ (∀ p ∈ stack, p ∈ out)
        ∧ out.Nodup
        ∧ (∀ p ∈ out, InRange width height p)
        ∧ (∀ p ∈ out, p ∈ vis ∨ p ∈ stack
            ∨ getC g p.1 p.2 = ' ' ∨ getC g p.1 p.2 = 'P' ∨ getC g p.1 p.2 = 'T')
  | 0, vis, stack => by
    intro _ _ _ hm
    exact absurd hm (by omega)
  | fuel + 1, vis, stack => by
    intro hnd hvr hsr hm
    rcases hst : stack with _ | ⟨p, rest⟩
    · exact ⟨vis, rfl, fun p hp => hp, by simp, hnd, hvr, fun p hp => Or.inl hp⟩
    · subst hst
      by_cases hpv : p ∈ vis
      · have hrec := flood_term g width height fuel vis rest hnd hvr
          (fun q hq => hsr q (List.mem_cons_of_mem _ hq))
          (by simp only [List.length_cons] at hm; omega)
        rcases hrec with ⟨out, heq, hv, hs, hnd1, hr1, hsrc⟩
        refine ⟨out, ?_, hv, ?_, hnd1, hr1, ?_⟩
        · unfold flood
          dsimp only
          rw [if_pos hpv]
          exact heq
        · intro q hq
          rcases List.mem_cons.1 hq with rfl | hq1
          · exact hv q hpv
          · exact hs q hq1
        · intro q hq
          rcases hsrc q hq with h | h | h
          · exact Or.inl h
          · exact Or.inr (Or.inl (List.mem_cons_of_mem _ h))
          · exact Or.inr (Or.inr h)
      · have hpr : InRange width height p := hsr p (List.mem_cons_self _ _)
        have hnd2 : (vis ++ [p]).Nodup := by
          rw [List.nodup_append]
          exact ⟨hnd, List.nodup_singleton _, by simpa using hpv⟩
        have hvr2 : ∀ q ∈ vis ++ [p], InRange width height q := by
          intro q hq
          rcases List.mem_append.1 hq with h | h
          · exact hvr q h
          · rw [List.mem_singleton.1 h]
            exact hpr
        have hstack2 : (floodCands g width height p.1 p.2).foldl
            (fun st n => n :: st) rest
            = (floodCands g width height p.1 p.2).reverse ++ rest :=
          foldl_cons_rev _ _
        have hsr2 : ∀ q ∈ (floodCands g width height p.1 p.2).foldl
            (fun st n => n :: st) rest, InRange width height q := by
          intro q hq
          rw [hstack2, List.mem_append, List.mem_reverse] at hq
          rcases hq with h | h
          · exact (mem_floodCands g width height p.1 p.2 q h).1
          · exact hsr q (List.mem_cons_of_mem _ h)
        have hlenv : (vis ++ [p]).length ≤ width.toNat * height.toNat :=
          nodup_inRange_length width height _ hnd2 hvr2
        have hc4 : (floodCands g width height p.1 p.2).length ≤ 4 :=
          floodCands_length_le g width height p.1 p.2
        have hm2 : 5 * (width.toNat * height.toNat - (vis ++ [p]).length)
            + ((floodCands g width height p.1 p.2).foldl
              (fun st n => n :: st) rest).length < fuel := by
          rw [hstack2]
          simp only [List.length_append, List.length_reverse,
            List.length_singleton, List.length_cons] at hlenv hm ⊢
          omega
        have hrec := flood_term g width height fuel (vis ++ [p]) _ hnd2 hvr2
          hsr2 hm2
        rcases hrec with ⟨out, heq, hv, hs, hnd1, hr1, hsrc⟩
        refine ⟨out, ?_, ?_, ?_, hnd1, hr1, ?_⟩
        · unfold flood
          dsimp only
          rw [if_neg hpv]
          exact heq
        · intro q hq
          exact hv q (List.mem_append.2 (Or.inl hq))
        · intro q hq
          rcases List.mem_cons.1 hq with rfl | hq1
          · exact hv q (List.mem_append.2 (Or.inr (List.mem_singleton_self _)))
          · refine hs q ?_
            rw [hstack2, List.mem_append]
            exact Or.inr hq1
        · intro q hq
          rcases hsrc q hq with h | h | h
          · rcases List.mem_append.1 h with h1 | h1
            · exact Or.inl h1
            · exact Or.inr (Or.inl (by rw [List.mem_singleton.1 h1]; exact List.mem_cons_self _ _))
          · rw [hstack2, List.mem_append, List.mem_reverse] at h
            rcases h with h1 | h1
            · exact Or.inr (Or.inr (mem_floodCands g width height p.1 p.2 q h1).2)
            · exact Or.inr (Or.inl (List.mem_cons_of_mem _ h1))
          · exact Or.inr (Or.inr h)

/-- The distance pass terminates on the stated fuel; every entry of the
output was an initial entry, an initial queue key, or a traversable
cell, and every queue key ends up visited or recorded. -/
theorem distLoop_term (g : CGrid) (width height : Int) :
    ∀ (fuel : Nat) (queue : List ((Int × Int) × Nat)) (vis : List (Int × Int))
      (dists : List ((Int × Int) × Nat)),
      vis.Nodup → (∀ p ∈ vis, InRange width height p) →
      (∀ kv ∈ queue, InRange width height kv.1) →
      5 * (width.toNat * height.toNat - vis.length) + queue.length < fuel →
      ∃ out, distLoop g width height fuel queue vis dists = some out
        ∧ (∀ kv ∈ dists, kv ∈ out)
        ∧ (∀ kv ∈ queue, kv.1 ∈ vis ∨ ∃ d0, (kv.1, d0) ∈ out)
        ∧ (∀ kv ∈ out, kv ∈ dists ∨ (∃ d0, (kv.1, d0) ∈ queue)
            ∨ getC g kv.1.1 kv.1.2 = ' ' ∨ getC g kv.1.1 kv.1.2 = 'P'
            ∨ getC g kv.1.1 kv.1.2 = 'T')
  | 0, queue, vis, dists => by
    intro _ _ _ hm
    exact absurd hm (by omega)
  | fuel + 1, queue, vis, dists => by
    intro hnd hvr hqr hm
    rcases hq : queue with _ | ⟨⟨p, d⟩, rest⟩
    · exact ⟨dists, rfl, fun kv hkv => hkv, by simp, fun kv hkv => Or.inl hkv⟩
    · subst hq
      by_cases hpv : p ∈ vis
      · have hrec := distLoop_term g width height fuel rest vis dists hnd hvr
          (fun kv hkv => hqr kv (List.mem_cons_of_mem _ hkv))
          (by simp only [List.length_cons] at hm; omega)
        rcases hrec with ⟨out, heq, hd, hqm, hsrc⟩
        refine ⟨out, ?_, hd, ?_, ?_⟩
        · unfold distLoop
          dsimp only
          rw [if_pos hpv]
          exact heq
        · intro kv hkv
          rcases List.mem_cons.1 hkv with rfl | hkv1
          · exact Or.inl hpv
          · exact hqm kv hkv1
        · intro kv hkv
          rcases hsrc kv hkv with h | ⟨d0, h⟩ | h | h | h
          · exact Or.inl h
          · exact Or.inr (Or.inl ⟨d0, List.mem_cons_of_mem _ h⟩)
          · exact Or.inr (Or.inr (Or.inl h))
          · exact Or.inr (Or.inr (Or.inr (Or.inl h)))
          · exact Or.inr (Or.inr (Or.inr (Or.inr h)))
      · have hpr : InRange width height p := hqr (p, d) (List.mem_cons_self _ _)
        have hnd2 : (vis ++ [p]).Nodup := by
          rw [List.nodup_append]
          exact ⟨hnd, List.nodup_singleton _, by simpa using hpv⟩
        have hvr2 : ∀ q ∈ vis ++ [p], InRange width height q := by
          intro q hq2
          rcases List.mem_append.1 hq2 with h | h
          · exact hvr q h
          · rw [List.mem_singleton.1 h]
            exact hpr
        have hqr2 : ∀ kv ∈ rest ++ (floodCands g width height p.1 p.2).map
            (fun n => (n, d + 1)), InRange width height kv.1 := by
          intro kv hkv
          rcases List.mem_append.1 hkv with h | h
          · exact hqr kv (List.mem_cons_of_mem _ h)
          · rcases List.mem_map.1 h with ⟨n, hn, rfl⟩
            exact (mem_floodCands g width height p.1 p.2 n hn).1
        have hlenv : (vis ++ [p]).length ≤ width.toNat * height.toNat :=
          nodup_inRange_length width height _ hnd2 hvr2
        have hc4 : (floodCands g width height p.1 p.2).length ≤ 4 :=
          floodCands_length_le g width height p.1 p.2
        have hm2 : 5 * (width.toNat * height.toNat - (vis ++ [p]).length)
            + (rest ++ (floodCands g width height p.1 p.2).map
              (fun n => (n, d + 1))).length < fuel := by
          simp only [List.length_append, List.length_map, List.length_singleton,
            List.length_cons] at hlenv hm ⊢
          omega
        have hrec := distLoop_term g width height fuel _ (vis ++ [p])
          (dists ++ [(p, d)]) hnd2 hvr2 hqr2 hm2
        rcases hrec with ⟨out, heq, hd, hqm, hsrc⟩
        refine ⟨out, ?_, ?_, ?_, ?_⟩
        · unfold distLoop
          dsimp only
          rw [if_neg hpv]
          exact heq
        · intro kv hkv
          exact hd kv (List.mem_append.2 (Or.inl hkv))
        · intro kv hkv
          rcases List.mem_cons.1 hkv with rfl | hkv1
          · exact Or.inr ⟨d, hd (p, d) (List.mem_append.2 (Or.inr (List.mem_singleton_self _)))⟩
          · rcases hqm kv (List.mem_append.2 (Or.inl hkv1)) with h | h
            · rcases List.mem_append.1 h with h1 | h1
              · exact Or.inl h1
              · have h3 : kv.1 = p := List.mem_singleton.1 h1
                refine Or.inr ⟨d, ?_⟩
                rw [h3]
                exact hd (p, d) (List.mem_append.2 (Or.inr (List.mem_singleton_self _)))
            · exact Or.inr h
        · intro kv hkv
          rcases hsrc kv hkv with h | ⟨d0, h⟩ | h | h | h
          · rcases List.mem_append.1 h with h1 | h1
            · exact Or.inl h1
            · have h2 : kv = (p, d) := List.mem_singleton.1 h1
              refine Or.inr (Or.inl ⟨d, ?_⟩)
              rw [h2]
              exact List.mem_cons_self _ _
          · rcases List.mem_append.1 h with h1 | h1
            · exact Or.inr (Or.inl ⟨d0, List.mem_cons_of_mem _ h1⟩)
            · rcases List.mem_map.1 h1 with ⟨n, hn, he⟩
              have h3 : kv.1 = n := by
                rw [← congrArg Prod.fst he]
              rw [h3]
              rcases (mem_floodCands g width height p.1 p.2 n hn).2 with h4 | h4 | h4
              · exact Or.inr (Or.inr (Or.inl h4))
              · exact Or.inr (Or.inr (Or.inr (Or.inl h4)))
              · exact Or.inr (Or.inr (Or.inr (Or.inr h4)))
          · exact Or.inr (Or.inr (Or.inl h))
          · exact Or.inr (Or.inr (Or.inr (Or.inl h)))
          · exact Or.inr (Or.inr (Or.inr (Or.inr h)))

/-- A stored character that is read back belongs to the grid alphabet
(or is the out-of-range sentinel). -/
theorem getC_charsIn (g : CGrid) (S : List Char) (hc : CharsIn g S)
    (x y : Int) : getC g x y ∈ S ∨ getC g x y = 'X' := by
  unfold getC
  by_cases hb : 0 ≤ x ∧ 0 ≤ y
  · rw [if_pos hb]
    rcases hr : g.get? y.toNat with _ | row
    · right
      rfl
    · rcases hv : row.get? x.toNat with _ | v
      · simp only [Option.getD_some, hv, Option.getD_none]
        right
        trivial
      · simp only [Option.getD_some, hv]
        exact Or.inl (hc row (List.get?_mem hr) v (List.get?_mem hv))
  · rw [if_neg hb]
    right
    rfl

/-- A character outside the alphabet never occurs in the grid. -/
theorem countChar_eq_zero (g : CGrid) (S : List Char) (hc : CharsIn g S)
    (ch : Char) (h : ch ∉ S) : countChar g ch = 0 := by
  unfold countChar
  rw [List.sum_eq_zero]
  intro n hn
  rcases List.mem_map.1 hn with ⟨row, hrow, rfl⟩
  rw [List.countP_eq_zero]
  intro a ha
  simp only [decide_eq_true_eq]
  intro hh
  exact h (hh ▸ hc row hrow a ha)

/-- Writes preserve the matrix dimensions. -/
theorem setC_dims (g : CGrid) (width height x y : Int) (c : Char)
    (h : GridDims g width height) : GridDims (setC g x y c) width height := by
  unfold setC
  by_cases hb : 0 ≤ x ∧ 0 ≤ y
  · rw [if_pos hb]
    by_cases hy : y.toNat < g.length
    · refine ⟨by rw [List.length_set]; exact h.1, ?_⟩
      intro row hrow
      rcases List.mem_or_eq_of_mem_set hrow with h1 | h1
      · exact h.2 row h1
      · subst h1
        rw [List.length_set]
        rcases hr : g.get? y.toNat with _ | row0
        · have := List.get?_eq_none.1 hr
          omega
        · simp only [Option.getD_some]
          exact h.2 row0 (List.get?_mem hr)
    · rw [List.set_eq_of_length_le (le_of_not_lt hy)]
      exact h
  · rw [if_neg hb]
    exact h

/-- The initial all-wall grid has the requested dimensions. -/
theorem replicate_dims (width height : Int) :
    GridDims (List.replicate height.toNat (List.replicate width.toNat '#'))
      width height := by
  constructor
  · exact List.length_replicate _ _
  · intro row hrow
    rw [List.eq_of_mem_replicate hrow]
    exact List.length_replicate _ _

/-- The carving loop preserves the matrix dimensions. -/
theorem carve_dims (width height : Int) :
    ∀ (fuel : Nat) (g : CGrid) (walls : List ((Int × Int) × (Int × Int)))
      (r : RNG) (g1 : CGrid) (r1 : RNG),
      carve width height fuel g walls r = some (g1, r1) →
      GridDims g width height → GridDims g1 width height
  | 0, g, walls, r, g1, r1 => by
    intro h
    exact absurd h (by simp [carve])
  | fuel + 1, g, walls, r, g1, r1 => by
    intro h hd
    rcases carve_succ_cases width height fuel g walls r (g1, r1) h with
      ⟨hnil, hout⟩ | ⟨i, rr, wx, wy, o, rest, hrand, hget, hrest, hbr⟩
    · have h2 : g = g1 := congrArg Prod.fst hout |>.symm
      subst h2
      exact hd
    · rcases hbr with ⟨_, hrec⟩ | ⟨_, _, hrec⟩ | ⟨_, _, hrec⟩
      · exact carve_dims width height fuel _ _ _ _ _ hrec hd
      · exact carve_dims width height fuel _ _ _ _ _ hrec (setC_dims _ _ _ _ _ _ hd)
      · exact carve_dims width height fuel _ _ _ _ _ hrec hd

/-- A successful in-range read pins the position inside the box. -/
theorem getC_inRange (g : CGrid) (width height x y : Int)
    (hd : GridDims g width height) (h : getC g x y ≠ 'X') :
    InRange width height (x, y) := by
  unfold getC at h
  by_cases hb : 0 ≤ x ∧ 0 ≤ y
  · rw [if_pos hb] at h
    rcases hr : g.get? y.toNat with _ | row
    · rw [hr] at h
      simp at h
    · rw [hr] at h
      simp only [Option.getD_some] at h
      rcases hv : row.get? x.toNat with _ | v
      · rw [hv] at h
        simp at h
      · have hy : y.toNat < g.length := by
          by_contra hc
          rw [List.get?_eq_none.2 (le_of_not_lt hc)] at hr
          exact Option.noConfusion hr
        have hx : x.toNat < row.length := by
          by_contra hc
          rw [List.get?_eq_none.2 (le_of_not_lt hc)] at hv
          exact Option.noConfusion hv
        rw [hd.1] at hy
        rw [hd.2 row (List.get?_mem hr)] at hx
        exact ⟨hb.1, by omega, hb.2, by omega⟩
  · rw [if_neg hb] at h
    exact absurd rfl h

/-- Overwriting a carved cell with any open character leaves the open
set of the grid unchanged, cell by cell. -/
theorem openCG_setC_space (g : CGrid) (x y : Int) (c : Char)
    (hsp : getC g x y = ' ') (h1 : c ≠ '#') (h2 : c ≠ 'X') :
    ∀ q : Int × Int, openCG (setC g x y c) q = openCG g q := by
  intro q
  by_cases hq : (q.1, q.2) = (x, y)
  · have e1 : q.1 = x := congrArg Prod.fst hq
    have e2 : q.2 = y := congrArg Prod.snd hq
    unfold openCG
    rw [e1, e2, hsp, getC_setC_self g x y c (by rw [hsp]; decide)]
    have hc1 : (c != '#') = true := bne_iff_ne.2 h1
    have hc2 : (c != 'X') = true := bne_iff_ne.2 h2
    rw [hc1, hc2]
    decide
  · unfold openCG
    rw [getC_setC_ne g x y q.1 q.2 c hq]

/-- Overwriting one known cell cannot create or destroy occurrences of a
different character. -/
theorem getC_setC_char_iff (g : CGrid) (x y : Int) (c v : Char)
    (hv : getC g x y = v) (hX : v ≠ 'X') (ch : Char) (h1 : ch ≠ c) (h2 : ch ≠ v) :
    ∀ a b, getC (setC g x y c) a b = ch ↔ getC g a b = ch := by
  intro a b
  by_cases hq : (a, b) = (x, y)
  · have e1 : a = x := congrArg Prod.fst hq
    have e2 : b = y := congrArg Prod.snd hq
    subst e1
    subst e2
    rw [getC_setC_self g a b c (by rw [hv]; exact hX), hv]
    constructor
    · intro hcc
      exact absurd hcc.symm h1
    · intro hcc
      exact absurd hcc.symm h2
  · rw [getC_setC_ne g x y a b c hq]

/-- Also a solver direction list is closed under negation. -/
theorem mem_solverDirs_neg (d : Int × Int) (h : d ∈ solverDirs) :
    (-d.1, -d.2) ∈ solverDirs := by
  fin_cases h <;> decide

/-- Orthogonal adjacency is symmetric. -/
theorem adjStep_symm {p q : Int × Int} (h : adjStep p q) : adjStep q p := by
  unfold adjStep at h ⊢
  have he : (p.1 - q.1, p.2 - q.2) = (-(q.1 - p.1), -(q.2 - p.2)) := by
    rw [Prod.mk.injEq]
    constructor <;> ring
  rw [he]
  exact mem_solverDirs_neg _ h

/-- Both endpoints of a reachability chain satisfy the predicate. -/
theorem ReachVia_endpoints {P : (Int × Int) → Prop} {a b : Int × Int}
    (h : ReachVia P a b) : P a ∧ P b := by
  induction h with
  | refl hp => exact ⟨hp, hp⟩
  | tail b c _ hadj hc ih => exact ⟨ih.1, hc⟩

/-- Reachability is transitive. -/
theorem ReachVia_trans {P : (Int × Int) → Prop} {a b c : Int × Int}
    (h1 : ReachVia P a b) (h2 : ReachVia P b c) : ReachVia P a c := by
  induction h2 with
  | refl _ => exact h1
  | tail d e _ hadj he ih => exact .tail _ _ _ ih hadj he

/-- Reachability is symmetric. -/
theorem ReachVia_symm {P : (Int × Int) → Prop} {a b : Int × Int}
    (h : ReachVia P a b) : ReachVia P b a := by
  induction h with
  | refl hp => exact .refl _ hp
  | tail d e h1 hadj he ih =>
    refine ReachVia_trans ?_ ih
    exact .tail _ _ _ (.refl _ he) (adjStep_symm hadj) (ReachVia_endpoints h1).2

/-- On a grid still in the carving alphabet, open means carved. -/
theorem openCG_iff_space (g : CGrid) (h : CharsIn g ['#', ' '])
    (q : Int × Int) : openCG g q = true ↔ getC g q.1 q.2 = ' ' := by
  rcases getC_charsIn g _ h q.1 q.2 with hm | hx
  · rcases (by simpa using hm : getC g q.1 q.2 = '#' ∨ getC g q.1 q.2 = ' ')
      with h1 | h1
    · unfold openCG
      rw [h1]
      decide
    · unfold openCG
      rw [h1]
      decide
  · unfold openCG
    rw [hx]
    decide

/-- The maximum fold keeps the accumulator or lands in the list. -/
theorem argmax_fold_mem :
    ∀ (l : List ((Int × Int) × Nat)) (a0 out : (Int × Int) × Nat),
      l.foldl (fun acc kv =>
        match acc with
        | none => some kv
        | some best => if kv.2 > best.2 then some kv else some best) (some a0)
        = some out →
      out = a0 ∨ out ∈ l
  | [], a0, out => by
    intro h
    exact Or.inl (Option.some_inj.1 h).symm
  | b :: t, a0, out => by
    intro h
    rw [List.foldl_cons] at h
    by_cases hgt : b.2 > a0.2
    · rw [show (match some a0 with
          | none => some b
          | some best => if b.2 > best.2 then some b else some best) = some b by
          dsimp only; rw [if_pos hgt]] at h
      rcases argmax_fold_mem t b out h with h1 | h1
      · exact Or.inr (h1 ▸ List.mem_cons_self _ _)
      · exact Or.inr (List.mem_cons_of_mem _ h1)
    · rw [show (match some a0 with
          | none => some b
          | some best => if b.2 > best.2 then some b else some best) = some a0 by
          dsimp only; rw [if_neg hgt]] at h
      rcases argmax_fold_mem t a0 out h with h1 | h1
      · exact Or.inl h1
      · exact Or.inr (List.mem_cons_of_mem _ h1)

/-- The maximum fold with a seeded accumulator never returns nothing. -/
theorem argmax_fold_some :
    ∀ (l : List ((Int × Int) × Nat)) (a0 : (Int × Int) × Nat),
      ∃ out, l.foldl (fun acc kv =>
        match acc with
        | none => some kv
        | some best => if kv.2 > best.2 then some kv else some best) (some a0)
        = some out
  | [], a0 => ⟨a0, rfl⟩
  | b :: t, a0 => by
    rw [List.foldl_cons]
    by_cases hgt : b.2 > a0.2
    · rw [show (match some a0 with
          | none => some b
          | some best => if b.2 > best.2 then some b else some best) = some b by
          dsimp only; rw [if_pos hgt]]
      exact argmax_fold_some t b
    · rw [show (match some a0 with
          | none => some b
          | some best => if b.2 > best.2 then some b else some best) = some a0 by
          dsimp only; rw [if_neg hgt]]
      exact argmax_fold_some t a0

/-- `argmaxFirst` of a nonempty association list succeeds and returns
one of the keys. -/
theorem argmaxFirst_spec (l : List ((Int × Int) × Nat)) (h : l ≠ []) :
    ∃ e dv, argmaxFirst l = some e ∧ (e, dv) ∈ l := by
  rcases l with _ | ⟨kv, t⟩
  · exact absurd rfl h
  · unfold argmaxFirst
    rw [List.foldl_cons]
    rw [show (match (none : Option ((Int × Int) × Nat)) with
        | none => some kv
        | some best => if kv.2 > best.2 then some kv else some best) = some kv
        from rfl]
    obtain ⟨out, hout⟩ := argmax_fold_some t kv
    rcases argmax_fold_mem t kv out hout with h1 | h1
    · refine ⟨out.1, out.2, ?_, ?_⟩
      · rw [hout]
        rfl
      · rw [Prod.mk.eta, h1]
        exact List.mem_cons_self _ _
    · refine ⟨out.1, out.2, ?_, ?_⟩
      · rw [hout]
        rfl
      · rw [Prod.mk.eta]
        exact List.mem_cons_of_mem _ h1

/-- The penalty loop always terminates, keeps the open set of the grid
intact cell by cell, and neither moves nor duplicates the Start and End
markers. -/
theorem placePenalties_spec :
    ∀ (k : Nat) (g : CGrid) (cells : List (Int × Int)) (r : RNG),
      cells.Nodup → (∀ p ∈ cells, getC g p.1 p.2 = ' ') →
      ∃ g1 r1, placePenalties k g cells r = some (g1, r1)
        ∧ (∀ q : Int × Int, openCG g1 q = openCG g q)
        ∧ (∀ x y, getC g1 x y = 'S' ↔ getC g x y = 'S')
        ∧ (∀ x y, getC g1 x y = 'E' ↔ getC g x y = 'E')
        ∧ countChar g1 'S' = countChar g 'S'
        ∧ countChar g1 'E' = countChar g 'E'
  | 0, g, cells, r => by
    intro _ _
    exact ⟨g, r, rfl, fun q => rfl, fun x y => Iff.rfl, fun x y => Iff.rfl, rfl, rfl⟩
  | k + 1, g, cells, r => by
    intro hnd hsp
    rcases hc : cells with _ | ⟨c0, t⟩
    · exact ⟨g, r, rfl, fun q => rfl, fun x y => Iff.rfl, fun x y => Iff.rfl, rfl, rfl⟩
    · subst hc
      obtain ⟨p, r1, heq, hmem⟩ := choice_some (c0 :: t) r (by simp)
      have hps : getC g p.1 p.2 = ' ' := hsp p hmem
      have hnd2 : ((c0 :: t).erase p).Nodup := hnd.erase p
      have hsp2 : ∀ q ∈ (c0 :: t).erase p,
          getC (setC g p.1 p.2 'P') q.1 q.2 = ' ' := by
        intro q hq
        rcases (List.Nodup.mem_erase_iff hnd).1 hq with ⟨hqp, hqm⟩
        have hne : (q.1, q.2) ≠ (p.1, p.2) := by
          rw [Prod.mk.eta, Prod.mk.eta]
          exact hqp
        rw [getC_setC_ne _ _ _ _ _ _ hne]
        exact hsp q hqm
      obtain ⟨g1, r2, heq2, hopen, hS, hE, hcS, hcE⟩ :=
        placePenalties_spec k (setC g p.1 p.2 'P') ((c0 :: t).erase p) r1 hnd2 hsp2
      refine ⟨g1, r2, ?_, ?_, ?_, ?_, ?_, ?_⟩
      · unfold placePenalties
        dsimp only
        rw [heq]
        exact heq2
      · intro q
        rw [hopen q, openCG_setC_space g p.1 p.2 'P' hps (by decide) (by decide) q]
      · intro x y
        rw [hS x y,
          getC_setC_char_iff g p.1 p.2 'P' ' ' hps (by decide) 'S' (by decide)
            (by decide) x y]
      · intro x y
        rw [hE x y,
          getC_setC_char_iff g p.1 p.2 'P' ' ' hps (by decide) 'E' (by decide)
            (by decide) x y]
      · rw [hcS]
        have h2 := countChar_setC g p.1 p.2 'P' ' ' hps (by decide) 'S'
        simp at h2
        exact h2
      · rw [hcE]
        have h2 := countChar_setC g p.1 p.2 'P' ' ' hps (by decide) 'E'
        simp at h2
        exact h2

/-- The value drawn by a successful `randint` lies in the range. -/
theorem randint_bounds (lo hi : Int) (r : RNG) (v : Int) (r1 : RNG)
    (h : randint lo hi r = some (v, r1)) : lo ≤ v ∧ v ≤ hi := by
  unfold randint RNG.take at h
  by_cases hlt : hi < lo
  · rw [if_pos hlt] at h
    exact absurd h (by simp)
  · rw [if_neg hlt] at h
    have hv : lo + ((r.f r.i : Nat) : Int) % (hi - lo + 1) = v := by
      have := Option.some_inj.1 h
      exact congrArg Prod.fst this
    have hm1 : (0 : Int) ≤ ((r.f r.i : Nat) : Int) % (hi - lo + 1) :=
      Int.emod_nonneg _ (by omega)
    have hm2 : ((r.f r.i : Nat) : Int) % (hi - lo + 1) < hi - lo + 1 :=
      Int.emod_lt_of_pos _ (by omega)
    omega

/-- Reads of the all-wall initial grid. -/
theorem getC_replicate (width height x y : Int)
    (h : InRange width height (x, y)) :
    getC (List.replicate height.toNat (List.replicate width.toNat '#')) x y
      = '#' := by
  rcases h with ⟨h1, h2, h3, h4⟩
  unfold getC
  rw [if_pos ⟨h1, h3⟩]
  have hy : y.toNat <
      (List.replicate height.toNat (List.replicate width.toNat '#')).length := by
    rw [List.length_replicate]
    omega
  rw [List.get?_eq_get hy, List.get_replicate]
  simp only [Option.getD_some]
  have hx : x.toNat < (List.replicate width.toNat '#').length := by
    rw [List.length_replicate]
    omega
  rw [List.get?_eq_get hx, List.get_replicate]
  rfl

/-- Wall count of the all-wall initial grid. -/
theorem countChar_replicate (width height : Int) :
    countChar (List.replicate height.toNat (List.replicate width.toNat '#')) '#'
      = height.toNat * width.toNat := by
  unfold countChar
  have hrow : (List.replicate width.toNat '#').countP (fun ch => ch = '#')
      = width.toNat := by
    induction width.toNat with
    | zero => rfl
    | succ k ih => simp [List.replicate_succ, List.countP_cons, ih]
  rw [List.map_replicate, hrow]
  induction height.toNat with
  | zero => simp
  | succ k ih =>
    rw [List.replicate_succ, List.sum_cons, ih]
    ring

/-- The all-wall initial grid uses the carving alphabet. -/
theorem charsIn_replicate (width height : Int) :
    CharsIn (List.replicate height.toNat (List.replicate width.toNat '#'))
      ['#', ' '] := by
  intro row hrow ch hch
  rw [List.eq_of_mem_replicate hrow] at hch
  rw [List.eq_of_mem_replicate hch]
  simp

/-- Overwriting an open cell with an open character leaves the open set
unchanged, cell by cell. -/
theorem openCG_setC_open (g : CGrid) (x y : Int) (c v : Char)
    (hv : getC g x y = v) (hv1 : v ≠ '#') (hv2 : v ≠ 'X')
    (h1 : c ≠ '#') (h2 : c ≠ 'X') :
    ∀ q : Int × Int, openCG (setC g x y c) q = openCG g q := by
  intro q
  by_cases hq : (q.1, q.2) = (x, y)
  · have e1 : q.1 = x := congrArg Prod.fst hq
    have e2 : q.2 = y := congrArg Prod.snd hq
    unfold openCG
    rw [e1, e2, hv, getC_setC_self g x y c (by rw [hv]; exact hv2)]
    rw [bne_iff_ne.2 h1, bne_iff_ne.2 h2, bne_iff_ne.2 hv1, bne_iff_ne.2 hv2]
  · unfold openCG
    rw [getC_setC_ne g x y q.1 q.2 c hq]

/-- At most four initial frontier entries. -/
theorem initialWalls_length_le (width height sx sy : Int) :
    (initialWalls width height sx sy).length ≤ 4 := by
  have h := List.length_filterMap_le (fun d : Int × Int =>
    let nx := sx + d.1
    let ny := sy + d.2
    if 0 < nx ∧ nx < width - 1 ∧ 0 < ny ∧ ny < height - 1 then
      some ((nx, ny), (sx, sy))
    else none) genDirs
  unfold initialWalls
  simpa using h

/-- A run of the carving stage on valid dimensions: it succeeds, and the
carved grid keeps the alphabet and dimensions, contains the carved seed,
and has every carved cell reachable from the seed. -/
theorem carveStage_run (width height : Int) (r : RNG) (h3w : 3 ≤ width)
    (h3h : 3 ≤ height) :
    ∃ gC seedP r3, carveStage width height r = some (gC, seedP, r3)
      ∧ CharsIn gC ['#', ' ']
      ∧ GridDims gC width height
      ∧ getC gC seedP.1 seedP.2 = ' '
      ∧ (∀ p : Int × Int, getC gC p.1 p.2 = ' ' →
          ReachVia (fun q => getC gC q.1 q.2 = ' ') seedP p) := by
  obtain ⟨sx, r1, he1, hsx1, hsx2⟩ := randint_some 1 (width - 2) r (by omega)
  obtain ⟨sy, r2, he2, hsy1, hsy2⟩ := randint_some 1 (height - 2) r1 (by omega)
  set g0 : CGrid := List.replicate height.toNat (List.replicate width.toNat '#')
    with hg0
  have hdims0 : GridDims g0 width height := replicate_dims width height
  have hchars0 : CharsIn g0 ['#', ' '] := charsIn_replicate width height
  have hseedrange : InRange width height (sx, sy) :=
    ⟨by omega, by omega, by omega, by omega⟩
  have h0 : getC g0 sx sy = '#' := getC_replicate width height sx sy hseedrange
  have hsp1 : getC (setC g0 sx sy ' ') sx sy = ' ' :=
    getC_setC_self _ _ _ _ (by rw [h0]; decide)
  have hchars1 : CharsIn (setC g0 sx sy ' ') ['#', ' '] :=
    charsIn_setC _ _ _ _ _ hchars0 (by decide)
  have hdims1 : GridDims (setC g0 sx sy ' ') width height :=
    setC_dims _ _ _ _ _ _ hdims0
  have hcount1 : countChar (setC g0 sx sy ' ') '#' + 1
      = height.toNat * width.toNat := by
    have h2 := countChar_setC g0 sx sy ' ' '#' h0 (by decide) '#'
    simp at h2
    rw [countChar_replicate] at h2
    exact h2
  obtain ⟨⟨gC, r3⟩, hcarve⟩ := carve_term width height (genFuel width height)
    (setC g0 sx sy ' ') (initialWalls width height sx sy) r2 (by
      have hW := initialWalls_length_le width height sx sy
      unfold genFuel
      have hcomm : height.toNat * width.toNat = width.toNat * height.toNat :=
        Nat.mul_comm _ _
      omega)
  have hreach0 : ∀ p : Int × Int, getC (setC g0 sx sy ' ') p.1 p.2 = ' ' →
      ReachVia (fun q => getC (setC g0 sx sy ' ') q.1 q.2 = ' ') (sx, sy) p := by
    intro p hp
    by_cases hpe : (p.1, p.2) = (sx, sy)
    · have hpeta : p = (sx, sy) := by rw [← hpe]
      rw [hpeta]
      exact .refl _ hsp1
    · rw [getC_setC_ne _ _ _ _ _ _ hpe] at hp
      by_cases hx : getC g0 p.1 p.2 = 'X'
      · rw [hp] at hx
        exact absurd hx (by decide)
      · have hr := getC_inRange g0 width height p.1 p.2 hdims0 hx
        have hww : getC g0 p.1 p.2 = '#' := by
          have := getC_replicate width height p.1 p.2 (by
            rcases hr with ⟨a1, a2, a3, a4⟩
            exact ⟨a1, a2, a3, a4⟩)
          rw [← hg0] at this
          exact this
        rw [hp] at hww
        exact absurd hww (by decide)
  have hpres := carve_preserves width height (sx, sy) (genFuel width height)
    _ _ _ _ _ hcarve
  have hdimsC := carve_dims width height (genFuel width height) _ _ _ _ _
    hcarve hdims1
  refine ⟨gC, (sx, sy), r3, ?_, hpres.2.1 hchars1, hdimsC,
    hpres.1 sx sy hsp1, hpres.2.2 hreach0⟩
  unfold carveStage
  dsimp only
  rw [he1]
  dsimp only
  rw [he2]
  dsimp only
  rw [← hg0, hcarve]

/-- The carving stage fails exactly as Python does on degenerate
dimensions: `random.randint` raises on an empty range. -/
theorem carveStage_none (width height : Int) (r : RNG)
    (h : width < 3 ∨ height < 3) : carveStage width height r = none := by
  unfold carveStage
  dsimp only
  by_cases hw : width < 3
  · rw [randint_none 1 (width - 2) r (by omega)]
  · obtain ⟨sx, r1, he1, _, _⟩ := randint_some 1 (width - 2) r (by omega)
    rw [he1]
    dsimp only
    rw [randint_none 1 (height - 2) r1 (by omega)]

/-- A run of the Start stage: given a carved grid with at least one
carved cell, it succeeds, Start is a carved in-range cell, and so is
every remaining reachable cell. -/
theorem startStage_run (gC : CGrid) (width height : Int) (r3 : RNG)
    (hchars : CharsIn gC ['#', ' ']) (hdims : GridDims gC width height)
    (hne : cellsWithChar gC width height ' ' ≠ []) :
    ∃ startP reach2 r5, startStage gC width height r3 = some (startP, reach2, r5)
      ∧ getC gC startP.1 startP.2 = ' '
      ∧ InRange width height startP
      ∧ (∀ q ∈ reach2, getC gC q.1 q.2 = ' ' ∧ InRange width height q) := by
  obtain ⟨st0, r4, hch1, hmem1⟩ := choice_some (cellsWithChar gC width height ' ')
    r3 hne
  rw [mem_cellsWithChar] at hmem1
  obtain ⟨h1, h2, h3, h4, h5⟩ := hmem1
  obtain ⟨visited, hfl, _, hstk, hndv, hrng, hsrc⟩ :=
    flood_term gC width height (genFuel width height) [] [st0]
      List.nodup_nil (by simp)
      (by
        intro p hp
        rw [List.mem_singleton.1 hp]
        exact ⟨h1, h2, h3, h4⟩)
      (by
        unfold genFuel
        simp only [List.length_nil, List.length_singleton, Nat.sub_zero]
        omega)
  have hst0v : st0 ∈ visited := hstk st0 (List.mem_singleton_self _)
  have hvne : visited ≠ [] := List.ne_nil_of_mem hst0v
  have hspace : ∀ q ∈ visited, getC gC q.1 q.2 = ' ' := by
    intro q hq
    rcases hsrc q hq with hb | hb | hb | hb | hb
    · exact absurd hb (List.not_mem_nil q)
    · rw [List.mem_singleton.1 hb]
      exact h5
    · exact hb
    · rcases getC_charsIn gC _ hchars q.1 q.2 with hm | hx
      · rw [hb] at hm
        exact absurd hm (by decide)
      · rw [hb] at hx
        exact absurd hx (by decide)
    · rcases getC_charsIn gC _ hchars q.1 q.2 with hm | hx
      · rw [hb] at hm
        exact absurd hm (by decide)
      · rw [hb] at hx
        exact absurd hx (by decide)
  obtain ⟨startP, r5, hch2, hmem2⟩ := choice_some visited r4 hvne
  refine ⟨startP, visited.erase startP, r5, ?_, hspace startP hmem2,
    hrng startP hmem2, ?_⟩
  · unfold startStage
    dsimp only
    rw [hch1]
    dsimp only
    rw [hfl]
    dsimp only
    rw [if_neg hvne, hch2]
  · intro q hq
    have hq2 := List.mem_of_mem_erase hq
    exact ⟨hspace q hq2, hrng q hq2⟩

/-- A run of the End stage: it succeeds and End is a carved in-range
cell of the carved grid. -/
theorem endStage_run (gC : CGrid) (width height : Int)
    (startP : Int × Int) (reach2 : List (Int × Int)) (r5 : RNG)
    (hchars : CharsIn gC ['#', ' ']) (hdims : GridDims gC width height)
    (hsp : getC gC startP.1 startP.2 = ' ')
    (hspr : InRange width height startP)
    (hr2 : ∀ q ∈ reach2, getC gC q.1 q.2 = ' ' ∧ InRange width height q) :
    ∃ endP r6, endStage gC width height startP reach2 r5 = some (endP, r6)
      ∧ getC gC endP.1 endP.2 = ' '
      ∧ InRange width height endP := by
  obtain ⟨dists, hdl, _, hqm, hsrc⟩ :=
    distLoop_term gC width height (genFuel width height) [(startP, 0)] [] []
      List.nodup_nil (by simp)
      (by
        intro kv hkv
        rw [List.mem_singleton.1 hkv]
        exact hspr)
      (by
        unfold genFuel
        simp only [List.length_nil, List.length_singleton, Nat.sub_zero]
        omega)
  have hdne : dists ≠ [] := by
    rcases hqm (startP, 0) (List.mem_singleton_self _) with hb | ⟨d0, hb⟩
    · exact absurd hb (List.not_mem_nil _)
    · exact List.ne_nil_of_mem hb
  obtain ⟨e, dv, hargmax, hemem⟩ := argmaxFirst_spec dists hdne
  have hespace : getC gC e.1 e.2 = ' ' := by
    rcases hsrc (e, dv) hemem with hb | ⟨d0, hb⟩ | hb | hb | hb
    · exact absurd hb (List.not_mem_nil _)
    · have he2 : e = startP := congrArg Prod.fst (List.mem_singleton.1 hb)
      rw [he2]
      exact hsp
    · exact hb
    · rcases getC_charsIn gC _ hchars e.1 e.2 with hm | hx
      · rw [hb] at hm
        exact absurd hm (by decide)
      · rw [hb] at hx
        exact absurd hx (by decide)
    · rcases getC_charsIn gC _ hchars e.1 e.2 with hm | hx
      · rw [hb] at hm
        exact absurd hm (by decide)
      · rw [hb] at hx
        exact absurd hx (by decide)
  have herange : InRange width height e := by
    have h2 := getC_inRange gC width height e.1 e.2 hdims (by
      rw [hespace]
      decide)
    rcases h2 with ⟨a1, a2, a3, a4⟩
    exact ⟨a1, a2, a3, a4⟩
  refine ⟨e, r5, ?_, hespace, herange⟩
  unfold endStage
  rw [hdl]
  dsimp only
  rw [if_neg hdne, hargmax]
  rfl

/-- A run of the teleport stage: it succeeds, leaves the open set
unchanged, neither moves nor duplicates Start and End, and hands on a
duplicate-free list of still-plain cells. -/
theorem teleportStage_run (g5 : CGrid) (empty2 : List (Int × Int)) (r6 : RNG)
    (hnd : empty2.Nodup) (hsp : ∀ p ∈ empty2, getC g5 p.1 p.2 = ' ') :
    ∃ g6 empty3 r9, teleportStage g5 empty2 r6 = some (g6, empty3, r9)
      ∧ (∀ q : Int × Int, openCG g6 q = openCG g5 q)
      ∧ (∀ x y, getC g6 x y = 'S' ↔ getC g5 x y = 'S')
      ∧ (∀ x y, getC g6 x y = 'E' ↔ getC g5 x y = 'E')
      ∧ countChar g6 'S' = countChar g5 'S'
      ∧ countChar g6 'E' = countChar g5 'E'
      ∧ empty3.Nodup ∧ (∀ p ∈ empty3, getC g6 p.1 p.2 = ' ') := by
  unfold teleportStage
  by_cases hlen : 2 ≤ empty2.length
  · rw [if_pos hlen]
    obtain ⟨t1, r7, hc1, hm1⟩ := choice_some empty2 r6 (by
      intro hc
      rw [hc] at hlen
      simp at hlen)
    rw [hc1]
    dsimp only
    have hel : (empty2.erase t1).length = empty2.length - 1 :=
      List.length_erase_of_mem hm1
    obtain ⟨t2, r8, hc2, hm2⟩ := choice_some (empty2.erase t1) r7 (by
      intro hc
      rw [hc] at hel
      simp at hel
      omega)
    rw [hc2]
    dsimp only
    have ht1s : getC g5 t1.1 t1.2 = ' ' := hsp t1 hm1
    have ht2m := (List.Nodup.mem_erase_iff hnd).1 hm2
    have ht2ne : t2 ≠ t1 := ht2m.1
    have ht2s : getC g5 t2.1 t2.2 = ' ' := hsp t2 ht2m.2
    have ht2s1 : getC (setC g5 t1.1 t1.2 'T') t2.1 t2.2 = ' ' := by
      rw [getC_setC_ne _ _ _ _ _ _ (by rw [Prod.mk.eta, Prod.mk.eta]; exact ht2ne)]
      exact ht2s
    refine ⟨_, _, _, rfl, ?_, ?_, ?_, ?_, ?_, ?_, ?_⟩
    · intro q
      rw [openCG_setC_space (setC g5 t1.1 t1.2 'T') t2.1 t2.2 'T' ht2s1
          (by decide) (by decide) q,
        openCG_setC_space g5 t1.1 t1.2 'T' ht1s (by decide) (by decide) q]
    · intro x y
      rw [getC_setC_char_iff (setC g5 t1.1 t1.2 'T') t2.1 t2.2 'T' ' ' ht2s1
          (by decide) 'S' (by decide) (by decide) x y,
        getC_setC_char_iff g5 t1.1 t1.2 'T' ' ' ht1s (by decide) 'S'
          (by decide) (by decide) x y]
    · intro x y
      rw [getC_setC_char_iff (setC g5 t1.1 t1.2 'T') t2.1 t2.2 'T' ' ' ht2s1
          (by decide) 'E' (by decide) (by decide) x y,
        getC_setC_char_iff g5 t1.1 t1.2 'T' ' ' ht1s (by decide) 'E'
          (by decide) (by decide) x y]
    · have e1 := countChar_setC (setC g5 t1.1 t1.2 'T') t2.1 t2.2 'T' ' '
        ht2s1 (by decide) 'S'
      have e2 := countChar_setC g5 t1.1 t1.2 'T' ' ' ht1s (by decide) 'S'
      simp at e1 e2
      rw [e1, e2]
    · have e1 := countChar_setC (setC g5 t1.1 t1.2 'T') t2.1 t2.2 'T' ' '
        ht2s1 (by decide) 'E'
      have e2 := countChar_setC g5 t1.1 t1.2 'T' ' ' ht1s (by decide) 'E'
      simp at e1 e2
      rw [e1, e2]
    · exact (hnd.erase t1).erase t2
    · intro p hp
      have hp2 := (List.Nodup.mem_erase_iff (hnd.erase t1)).1 hp
      have hp3 := (List.Nodup.mem_erase_iff hnd).1 hp2.2
      have hps : getC g5 p.1 p.2 = ' ' := hsp p hp3.2
      rw [getC_setC_ne _ _ _ _ _ _ (by rw [Prod.mk.eta, Prod.mk.eta]; exact hp2.1),
        getC_setC_ne _ _ _ _ _ _ (by rw [Prod.mk.eta, Prod.mk.eta]; exact hp3.1)]
      exact hps
  · rw [if_neg hlen]
    exact ⟨g5, empty2, r6, rfl, fun q => rfl, fun x y => Iff.rfl,
      fun x y => Iff.rfl, rfl, rfl, hnd, hsp⟩

/-- A full generator run on valid dimensions: it succeeds; the final
grid's open cells are exactly the carved cells; every carved cell is
reachable from the seed; Start was written on a carved cell; any `S` in
the final grid sits at the chosen Start; the grid holds exactly one `E`,
and one `S` exactly when End landed elsewhere than Start (when the
farthest cell is Start itself, `E` overwrites `S`). -/
theorem generate_run (width height : Int) (r : RNG) (h3w : 3 ≤ width)
    (h3h : 3 ≤ height) :
    ∃ out r10, generateMazeFull width height r = some (out, r10)
      ∧ (∀ q : Int × Int, openCG out.grid q = true ↔ getC out.carved q.1 q.2 = ' ')
      ∧ (∀ p : Int × Int, getC out.carved p.1 p.2 = ' ' →
          ReachVia (fun q => getC out.carved q.1 q.2 = ' ') out.seed p)
      ∧ getC out.carved out.startPos.1 out.startPos.2 = ' '
      ∧ (∀ sp : Int × Int, getC out.grid sp.1 sp.2 = 'S' → sp = out.startPos)
      ∧ countChar out.grid 'E' = 1
      ∧ (out.startPos ≠ out.endPos → countChar out.grid 'S' = 1)
      ∧ (out.startPos = out.endPos → countChar out.grid 'S' = 0) := by
  obtain ⟨gC, seedP, r3, hcs, hchars, hdims, hseed, hreach⟩ :=
    carveStage_run width height r h3w h3h
  have hemp : cellsWithChar gC width height ' ' ≠ [] := by
    have hin := getC_inRange gC width height seedP.1 seedP.2 hdims
      (by rw [hseed]; decide)
    rcases hin with ⟨a1, a2, a3, a4⟩
    exact List.ne_nil_of_mem ((mem_cellsWithChar gC width height ' ' seedP).2
      ⟨a1, a2, a3, a4, hseed⟩)
  obtain ⟨startP, reach2, r5, hss, hstasp, hstarange, hr2⟩ :=
    startStage_run gC width height r3 hchars hdims hemp
  obtain ⟨endP, r6, hes, hendsp, hendrange⟩ :=
    endStage_run gC width height startP reach2 r5 hchars hdims hstasp
      hstarange hr2
  have hXs : getC gC startP.1 startP.2 ≠ 'X' := by
    rw [hstasp]
    decide
  have hg4self : getC (setC gC startP.1 startP.2 'S') startP.1 startP.2 = 'S' :=
    getC_setC_self _ _ _ _ hXs
  have hcS0 : countChar gC 'S' = 0 := countChar_eq_zero gC _ hchars 'S' (by decide)
  have hcE0 : countChar gC 'E' = 0 := countChar_eq_zero gC _ hchars 'E' (by decide)
  have hcS4 : countChar (setC gC startP.1 startP.2 'S') 'S' = 1 := by
    have h2 := countChar_setC gC startP.1 startP.2 'S' ' ' hstasp (by decide) 'S'
    simp at h2
    omega
  have hcE4 : countChar (setC gC startP.1 startP.2 'S') 'E' = 0 := by
    have h2 := countChar_setC gC startP.1 startP.2 'S' ' ' hstasp (by decide) 'E'
    simp at h2
    omega
  have hopen4 : ∀ q : Int × Int,
      openCG (setC gC startP.1 startP.2 'S') q = openCG gC q :=
    openCG_setC_space gC startP.1 startP.2 'S' hstasp (by decide) (by decide)
  have hSpos4 : ∀ sp : Int × Int,
      getC (setC gC startP.1 startP.2 'S') sp.1 sp.2 = 'S' → sp = startP := by
    intro sp hsp5
    by_cases hpe : (sp.1, sp.2) = (startP.1, startP.2)
    · rw [Prod.mk.eta, Prod.mk.eta] at hpe
      exact hpe
    · rw [getC_setC_ne _ _ _ _ _ _ hpe] at hsp5
      rcases getC_charsIn gC _ hchars sp.1 sp.2 with hm | hx
      · rw [hsp5] at hm
        exact absurd hm (by decide)
      · rw [hsp5] at hx
        exact absurd hx (by decide)
  have hfacts : (∀ q : Int × Int,
        openCG (setC (setC gC startP.1 startP.2 'S') endP.1 endP.2 'E') q
          = openCG gC q)
      ∧ countChar (setC (setC gC startP.1 startP.2 'S') endP.1 endP.2 'E') 'E' = 1
      ∧ (startP ≠ endP →
          countChar (setC (setC gC startP.1 startP.2 'S') endP.1 endP.2 'E') 'S' = 1)
      ∧ (startP = endP →
          countChar (setC (setC gC startP.1 startP.2 'S') endP.1 endP.2 'E') 'S' = 0)
      ∧ (∀ sp : Int × Int,
          getC (setC (setC gC startP.1 startP.2 'S') endP.1 endP.2 'E') sp.1 sp.2
            = 'S' → sp = startP) := by
    rcases eq_or_ne startP endP with heq | hne
    · have hg4e : getC (setC gC startP.1 startP.2 'S') endP.1 endP.2 = 'S' := by
        rw [← heq]
        exact hg4self
      refine ⟨?_, ?_, ?_, ?_, ?_⟩
      · intro q
        rw [openCG_setC_open (setC gC startP.1 startP.2 'S') endP.1 endP.2 'E' 'S'
            hg4e (by decide) (by decide) (by decide) (by decide) q, hopen4 q]
      · have h2 := countChar_setC (setC gC startP.1 startP.2 'S') endP.1 endP.2
          'E' 'S' hg4e (by decide) 'E'
        simp at h2
        omega
      · intro hc
        exact absurd heq hc
      · intro _
        have h2 := countChar_setC (setC gC startP.1 startP.2 'S') endP.1 endP.2
          'E' 'S' hg4e (by decide) 'S'
        simp at h2
        omega
      · intro sp hsp5
        by_cases hpe : (sp.1, sp.2) = (endP.1, endP.2)
        · have e1 : sp.1 = endP.1 := congrArg Prod.fst hpe
          have e2 : sp.2 = endP.2 := congrArg Prod.snd hpe
          rw [e1, e2] at hsp5
          rw [getC_setC_self _ _ _ 'E' (by rw [hg4e]; decide)] at hsp5
          exact absurd hsp5 (by decide)
        · rw [getC_setC_ne _ _ _ _ _ _ hpe] at hsp5
          exact hSpos4 sp hsp5
    · have hg4e : getC (setC gC startP.1 startP.2 'S') endP.1 endP.2 = ' ' := by
        rw [getC_setC_ne _ _ _ _ _ _ (by
          rw [Prod.mk.eta, Prod.mk.eta]
          exact Ne.symm hne)]
        exact hendsp
      refine ⟨?_, ?_, ?_, ?_, ?_⟩
      · intro q
        rw [openCG_setC_space (setC gC startP.1 startP.2 'S') endP.1 endP.2 'E'
            hg4e (by decide) (by decide) q, hopen4 q]
      · have h2 := countChar_setC (setC gC startP.1 startP.2 'S') endP.1 endP.2
          'E' ' ' hg4e (by decide) 'E'
        simp at h2
        omega
      · intro _
        have h2 := countChar_setC (setC gC startP.1 startP.2 'S') endP.1 endP.2
          'E' ' ' hg4e (by decide) 'S'
        simp at h2
        omega
      · intro hc
        exact absurd hc hne
      · intro sp hsp5
        rw [getC_setC_char_iff (setC gC startP.1 startP.2 'S') endP.1 endP.2
          'E' ' ' hg4e (by decide) 'S' (by decide) (by decide) sp.1 sp.2] at hsp5
        exact hSpos4 sp hsp5
  obtain ⟨hopen5, hcE5, hcS5ne, hcS5eq, hSpos5⟩ := hfacts
  have hnd2 : ((cellsWithChar (setC (setC gC startP.1 startP.2 'S') endP.1
      endP.2 'E') width height ' ').filter
      (fun p => p ≠ startP ∧ p ≠ endP)).Nodup :=
    (nodup_cellsWithChar _ width height ' ').filter _
  have hsp2 : ∀ p ∈ (cellsWithChar (setC (setC gC startP.1 startP.2 'S') endP.1
      endP.2 'E') width height ' ').filter (fun p => p ≠ startP ∧ p ≠ endP),
      getC (setC (setC gC startP.1 startP.2 'S') endP.1 endP.2 'E') p.1 p.2
        = ' ' := by
    intro p hp
    have hp2 := List.mem_of_mem_filter hp
    exact ((mem_cellsWithChar _ width height ' ' p).1 hp2).2.2.2.2
  obtain ⟨g6, empty3, r9, hts, hopen6, hS6, hE6, hcS6, hcE6, hnd3, hsp3⟩ :=
    teleportStage_run (setC (setC gC startP.1 startP.2 'S') endP.1 endP.2 'E')
      _ r6 hnd2 hsp2
  obtain ⟨g7, r10, hps, hopen7, hS7, hE7, hcS7, hcE7⟩ :=
    placePenalties_spec (max 1 (empty3.length / 20)) g6 empty3 r9 hnd3 hsp3
  refine ⟨⟨g7, gC, seedP, startP, endP⟩, r10, ?_, ?_, hreach, hstasp, ?_, ?_,
    ?_, ?_⟩
  · unfold generateMazeFull
    rw [hcs]
    dsimp only
    rw [hss]
    dsimp only
    rw [hes]
    dsimp only
    rw [hts]
    dsimp only
    rw [hps]
  · intro q
    dsimp only
    rw [hopen7 q, hopen6 q, hopen5 q]
    exact openCG_iff_space gC hchars q
  · intro sp hsp7
    dsimp only at hsp7 ⊢
    rw [hS7 sp.1 sp.2, hS6 sp.1 sp.2] at hsp7
    exact hSpos5 sp hsp7
  · dsimp only
    rw [hcE7, hcE6]
    exact hcE5
  · intro hne
    dsimp only at hne ⊢
    rw [hcS7, hcS6]
    exact hcS5ne hne
  · intro heq
    dsimp only at heq ⊢
    rw [hcS7, hcS6]
    exact hcS5eq heq

/-- Below the 3-by-3 minimum the whole generation pipeline yields `none`. -/
theorem generate_none (width height : Int) (r : RNG)
    (h : width < 3 ∨ height < 3) : generateMazeFull width height r = none := by
  unfold generateMazeFull
  rw [carveStage_none width height r h]

/-- C9: called with width < 3 or height < 3 the generator fails (no grid is
produced, modelled as `none`); with width ≥ 3 and height ≥ 3 it always
succeeds with some grid. -/
theorem c9_dimension_contract (width height : Int) (r : RNG) :
    ((width < 3 ∨ height < 3) → generateMaze width height r = none)
    ∧ (3 ≤ width → 3 ≤ height → ∃ g, generateMaze width height r = some g) := by
  constructor
  · intro h
    unfold generateMaze
    rw [generate_none width height r h]
    rfl
  · intro h1 h2
    obtain ⟨out, r10, heq, _⟩ := generate_run width height r h1 h2
    refine ⟨out.grid, ?_⟩
    unfold generateMaze
    rw [heq]
    rfl

/-- C9 witness: a 2-wide request fails, a 3-by-3 request succeeds. -/
theorem c9_dimension_contract_w :
    generateMaze 2 5 rngZero = none ∧ ∃ g, generateMaze 3 3 rngZero = some g :=
  ⟨(c9_dimension_contract 2 5 rngZero).1 (Or.inl (by decide)),
   (c9_dimension_contract 3 3 rngZero).2 (by decide) (by decide)⟩

/-- C4 counterexample: at width = height = 3 with the all-zero stream the only
reachable cell is the seed itself, so the End write overwrites the Start write
and the generated grid has zero 'S' tiles (not exactly one Start). -/
theorem c4_counterexample :
    (generateMaze 3 3 rngZero).map (fun g => (countChar g 'S', countChar g 'E'))
      = some (0, 1) := by decide

/-- C4 amended: for width, height ≥ 3 the generated grid has exactly one 'E';
it has exactly one 'S' when the chosen start and end cells differ, and zero
'S' when the End write lands on the Start cell. -/
theorem c4_amended_start_end_counts (width height : Int) (r : RNG)
    (out : GenOut) (r10 : RNG) (h1 : 3 ≤ width) (h2 : 3 ≤ height)
    (heq : generateMazeFull width height r = some (out, r10)) :
    countChar out.grid 'E' = 1
    ∧ (out.startPos ≠ out.endPos → countChar out.grid 'S' = 1)
    ∧ (out.startPos = out.endPos → countChar out.grid 'S' = 0) := by
  obtain ⟨out2, r10', heq2, _, _, _, _, hE, hSne, hSeq⟩ :=
    generate_run width height r h1 h2
  rw [heq] at heq2
  have e := Option.some_inj.1 heq2
  have eo : out = out2 := congrArg Prod.fst e
  subst eo
  exact ⟨hE, hSne, hSeq⟩

/-- C4 witness: a 5-by-3 run with the all-zero stream has distinct start and
end cells, one 'E' and one 'S'. -/
theorem c4_amended_start_end_counts_w :
    ∃ out r10, generateMazeFull 5 3 rngZero = some (out, r10)
      ∧ countChar out.grid 'E' = 1 ∧ countChar out.grid 'S' = 1 := by
  obtain ⟨out, r10, heq⟩ : ∃ o rr, generateMazeFull 5 3 rngZero = some (o, rr) :=
    ⟨_, _, rfl⟩
  have hps : (generateMazeFull 5 3 rngZero).map
      (fun x => (x.1.startPos, x.1.endPos))
      = some (((1 : Int), (1 : Int)), ((3 : Int), (1 : Int))) := by decide
  rw [heq] at hps
  have e := Option.some_inj.1 hps
  have e1 : out.startPos = ((1 : Int), (1 : Int)) := congrArg Prod.fst e
  have e2 : out.endPos = ((3 : Int), (1 : Int)) := congrArg Prod.snd e
  have h := c4_amended_start_end_counts 5 3 rngZero out r10 (by decide) (by decide) heq
  refine ⟨out, r10, heq, h.1, h.2.1 ?_⟩
  rw [e1, e2]
  decide

/-- C3: for width, height ≥ 3 and any random stream, every open (non-wall)
cell of the generated grid is reachable from the Start cell by orthogonal
moves through open cells. -/
theorem c3_generated_reachability (width height : Int) (r : RNG) (g : CGrid)
    (h1 : 3 ≤ width) (h2 : 3 ≤ height)
    (hg : generateMaze width height r = some g) :
    ∀ sp : Int × Int, getC g sp.1 sp.2 = 'S' →
      ∀ c : Int × Int, openCG g c = true →
        ReachVia (fun q => openCG g q = true) sp c := by
  obtain ⟨out, r10, heq, hopen, hreach, hsc, hSuniq, _, _, _⟩ :=
    generate_run width height r h1 h2
  have hgg : out.grid = g := by
    unfold generateMaze at hg
    rw [heq] at hg
    exact Option.some_inj.1 hg
  subst hgg
  intro sp hsp c hc
  have hspP : sp = out.startPos := hSuniq sp hsp
  have hcs : getC out.carved c.1 c.2 = ' ' := (hopen c).1 hc
  have hss : getC out.carved out.startPos.1 out.startPos.2 = ' ' := hsc
  have r1 := hreach c hcs
  have r2 := hreach out.startPos hss
  have r3 : ReachVia (fun q => getC out.carved q.1 q.2 = ' ') sp c := by
    rw [hspP]
    exact ReachVia_trans (ReachVia_symm r2) r1
  exact ReachVia_mono (fun p hp => (hopen p).2 hp) r3

/-- C3 witness: in the 5-by-3 all-zero-stream maze every open cell is
reachable from the Start cell. -/
theorem c3_generated_reachability_w :
    ∃ g, generateMaze 5 3 rngZero = some g
      ∧ (∀ sp : Int × Int, getC g sp.1 sp.2 = 'S' →
          ∀ c : Int × Int, openCG g c = true →
            ReachVia (fun q => openCG g q = true) sp c) := by
  obtain ⟨g, hg⟩ : ∃ g, generateMaze 5 3 rngZero = some g := ⟨_, rfl⟩
  exact ⟨g, hg, c3_generated_reachability 5 3 rngZero g (by decide) (by decide) hg⟩

/-- `insertVisited` preserves `Nodup`. -/
theorem insertVisited_nodup (v : List (Int × Int)) (p : Int × Int)
    (h : v.Nodup) : (insertVisited v p).Nodup := by
  unfold insertVisited
  split
  · exact h
  · next hn => exact List.nodup_cons.2 ⟨hn, h⟩

/-- `insertVisited` grows the set by at most one element. -/
theorem insertVisited_length (v : List (Int × Int)) (p : Int × Int) :
    v.length ≤ (insertVisited v p).length
      ∧ (insertVisited v p).length ≤ v.length + 1 := by
  unfold insertVisited
  split
  · omega
  · simp only [List.length_cons]
    omega

/-- Adding a fresh element grows the set by exactly one. -/
theorem insertVisited_length_not_mem (v : List (Int × Int)) (p : Int × Int)
    (h : p ∉ v) : (insertVisited v p).length = v.length + 1 := by
  unfold insertVisited
  rw [if_neg h]
  rfl

/-- In a rectangular maze every scanned tile position is in range. -/
theorem mem_positionsOf_inRange (m : Maze) (t : TileType) (p : Int × Int)
    (hrect : Rect m) (hp : p ∈ positionsOf m t) :
    InRange (mazeWidth m) (mazeHeight m) p := by
  unfold positionsOf at hp
  rw [List.mem_flatMap] at hp
  obtain ⟨y, hy, hx⟩ := hp
  rw [List.mem_filterMap] at hx
  obtain ⟨x, hxr, hif⟩ := hx
  rw [List.mem_range] at hy hxr
  split at hif
  · have e := Option.some_inj.1 hif
    have e1 : ((x : Int)) = p.1 := congrArg Prod.fst e
    have e2 : ((y : Int)) = p.2 := congrArg Prod.snd e
    have hrow : ((m.get? y).getD []).length = mazeWidth m := by
      rw [List.get?_eq_get hy]
      exact hrect _ (List.get_mem m y hy)
    unfold InRange
    rw [← e1, ← e2]
    refine ⟨Int.natCast_nonneg x, ?_, Int.natCast_nonneg y, ?_⟩
    · rw [hrow] at hxr
      exact_mod_cast hxr
    · exact_mod_cast hy
  · exact absurd hif (by simp)

/-- Every neighbor returned by `get_neighbors` is in range (the source
checks the bounds explicitly before returning the neighbor). -/
theorem mem_getNeighbors_inRange (m : Maze) (c p : Int × Int)
    (hp : p ∈ getNeighbors m c) :
    InRange (mazeWidth m) (mazeHeight m) p := by
  unfold getNeighbors at hp
  rw [List.mem_filterMap] at hp
  obtain ⟨d, hd, hif⟩ := hp
  dsimp only at hif
  split at hif
  · next hb =>
    split at hif
    · split at hif
      · exact absurd hif (by simp)
      · have e := Option.some_inj.1 hif
        subst e
        exact hb
    · exact absurd hif (by simp)
  · exact absurd hif (by simp)

/-- Bookkeeping facts about `process_special_cell`: the visited set only
grows, stays duplicate-free, gains only the candidate and teleport cells,
and any returned pair target is a teleport cell of the scan. -/
theorem processSpecialCell_facts (m : Maze) (v : List (Int × Int)) (c : Int × Int) :
    v.length ≤ (processSpecialCell m v c).2.length
    ∧ (v.Nodup → (processSpecialCell m v c).2.Nodup)
    ∧ (∀ p ∈ (processSpecialCell m v c).2,
        p ∈ v ∨ p = c ∨ p ∈ positionsOf m TileType.teleport)
    ∧ (∀ p ∈ v, p ∈ (processSpecialCell m v c).2)
    ∧ (∀ tgt, (processSpecialCell m v c).1 = some tgt →
        tgt ∈ positionsOf m TileType.teleport)
    ∧ ((processSpecialCell m v c).1 = none → (processSpecialCell m v c).2 = v) := by
  unfold processSpecialCell
  split
  · rcases hot : otherTeleport m c with _ | o
    · dsimp only
      exact ⟨le_refl _, fun h => h, fun p hp => Or.inl hp, fun p hp => hp,
        fun tgt ht => absurd ht (by simp), fun _ => rfl⟩
    · dsimp only
      have hom : o ∈ positionsOf m TileType.teleport := by
        unfold otherTeleport at hot
        exact List.mem_of_find?_eq_some hot
      refine ⟨?_, ?_, ?_, ?_, ?_, ?_⟩
      · calc v.length ≤ (insertVisited v c).length := (insertVisited_length v c).1
          _ ≤ (insertVisited (insertVisited v c) o).length :=
            (insertVisited_length _ o).1
      · intro h
        exact insertVisited_nodup _ _ (insertVisited_nodup _ _ h)
      · intro p hp
        rcases (mem_insertVisited _ _ _).1 hp with rfl | hp2
        · exact Or.inr (Or.inr hom)
        · rcases (mem_insertVisited _ _ _).1 hp2 with rfl | hp3
          · exact Or.inr (Or.inl rfl)
          · exact Or.inl hp3
      · intro p hp
        exact (mem_insertVisited _ _ _).2
          (Or.inr ((mem_insertVisited _ _ _).2 (Or.inr hp)))
      · intro tgt ht
        have e : o = tgt := Option.some_inj.1 ht
        subst e
        exact hom
      · intro h
        exact absurd h (by simp)
  · dsimp only
    exact ⟨le_refl _, fun h => h, fun p hp => Or.inl hp, fun p hp => hp,
      fun tgt ht => absurd ht (by simp), fun _ => rfl⟩

/-- `queue.append` adds one element at the tail. -/
theorem fifoPush_len (q : List (Int × Int)) (n : Int × Int) :
    (fifoPush q n).length = q.length + 1 := by
  unfold fifoPush
  rw [List.length_append]
  rfl

/-- Membership after a FIFO push. -/
theorem fifoPush_mem (p : Int × Int) (q : List (Int × Int)) (n : Int × Int)
    (h : p ∈ fifoPush q n) : p ∈ q ∨ p = n := by
  unfold fifoPush at h
  rcases List.mem_append.1 h with h | h
  · exact Or.inl h
  · exact Or.inr (List.mem_singleton.1 h)

/-- A FIFO push of a fresh element keeps the queue duplicate-free. -/
theorem fifoPush_nodup (q : List (Int × Int)) (n : Int × Int)
    (h1 : q.Nodup) (h2 : n ∉ q) : (fifoPush q n).Nodup := by
  unfold fifoPush
  rw [List.nodup_append]
  refine ⟨h1, List.nodup_singleton n, ?_⟩
  intro a ha hb
  rw [List.mem_singleton] at hb
  subst hb
  exact h2 ha

/-- `stack.append` adds one element at the top. -/
theorem lifoPush_len (q : List (Int × Int)) (n : Int × Int) :
    (lifoPush q n).length = q.length + 1 := rfl

/-- Membership after a LIFO push. -/
theorem lifoPush_mem (p : Int × Int) (q : List (Int × Int)) (n : Int × Int)
    (h : p ∈ lifoPush q n) : p ∈ q ∨ p = n := by
  unfold lifoPush at h
  rcases List.mem_cons.1 h with h | h
  · exact Or.inr h
  · exact Or.inl h

/-- A LIFO push of a fresh element keeps the stack duplicate-free. -/
theorem lifoPush_nodup (q : List (Int × Int)) (n : Int × Int)
    (h1 : q.Nodup) (h2 : n ∉ q) : (lifoPush q n).Nodup :=
  List.nodup_cons.2 ⟨h2, h1⟩

/-- The neighbor-push loop of BFS/DFS: each frontier insertion happens for
a not-yet-visited position and marks that position visited at the same
time, so the visited set and the frontier grow in lockstep, the visited
set stays duplicate-free, and a duplicate-free frontier contained in the
visited set stays so. -/
theorem pushNeighbors_spec
    (push : List (Int × Int) → (Int × Int) → List (Int × Int))
    (hlen : ∀ q n, (push q n).length = q.length + 1)
    (hmem : ∀ p q n, p ∈ push q n → p ∈ q ∨ p = n)
    (hpnd : ∀ (q : List (Int × Int)) n, q.Nodup → n ∉ q → (push q n).Nodup)
    (c : Int × Int) :
    ∀ (ns v : List (Int × Int)) (ps : List ((Int × Int) × (Int × Int)))
      (q : List (Int × Int)),
      (pushNeighbors push c ns v ps q).1.length + q.length
          = (pushNeighbors push c ns v ps q).2.2.length + v.length
      ∧ v.length ≤ (pushNeighbors push c ns v ps q).1.length
      ∧ (v.Nodup → (pushNeighbors push c ns v ps q).1.Nodup)
      ∧ (∀ p ∈ (pushNeighbors push c ns v ps q).1, p ∈ v ∨ p ∈ ns)
      ∧ (∀ p ∈ v, p ∈ (pushNeighbors push c ns v ps q).1)
      ∧ (q.Nodup → (∀ p ∈ q, p ∈ v) →
          ((pushNeighbors push c ns v ps q).2.2.Nodup
            ∧ ∀ p ∈ (pushNeighbors push c ns v ps q).2.2,
                p ∈ (pushNeighbors push c ns v ps q).1)) := by
  intro ns
  induction ns with
  | nil =>
    intro v ps q
    simp only [pushNeighbors]
    exact ⟨by omega, le_refl _, fun h => h, fun p hp => Or.inl hp,
      fun p hp => hp, fun h1 h2 => ⟨h1, h2⟩⟩
  | cons n t ih =>
    intro v ps q
    by_cases hn : n ∈ v
    · have hstep : pushNeighbors push c (n :: t) v ps q
          = pushNeighbors push c t v ps q := by
        simp only [pushNeighbors]
        rw [if_pos hn]
      rw [hstep]
      obtain ⟨hA, hB, hC, hD, hE, hF⟩ := ih v ps q
      exact ⟨hA, hB, hC,
        fun p hp => (hD p hp).imp id (List.mem_cons_of_mem n), hE, hF⟩
    · have hstep : pushNeighbors push c (n :: t) v ps q
          = pushNeighbors push c t (insertVisited v n) ((n, c) :: ps) (push q n) := by
        simp only [pushNeighbors]
        rw [if_neg hn]
      rw [hstep]
      obtain ⟨hA, hB, hC, hD, hE, hF⟩ := ih (insertVisited v n) ((n, c) :: ps) (push q n)
      have hvl : (insertVisited v n).length = v.length + 1 :=
        insertVisited_length_not_mem v n hn
      have hql : (push q n).length = q.length + 1 := hlen q n
      refine ⟨by omega, by omega, ?_, ?_, ?_, ?_⟩
      · intro h
        exact hC (insertVisited_nodup v n h)
      · intro p hp
        rcases hD p hp with h1 | h1
        · rcases (mem_insertVisited v p n).1 h1 with rfl | h2
          · exact Or.inr (List.mem_cons_self p t)
          · exact Or.inl h2
        · exact Or.inr (List.mem_cons_of_mem n h1)
      · intro p hp
        exact hE p ((mem_insertVisited v p n).2 (Or.inr hp))
      · intro h1 h2
        have hnq : n ∉ q := fun hq => hn (h2 n hq)
        refine hF (hpnd q n h1 hnq) ?_
        intro p hp
        rcases hmem p q n hp with h3 | rfl
        · exact (mem_insertVisited v p n).2 (Or.inr (h2 p h3))
        · exact (mem_insertVisited v p p).2 (Or.inl rfl)

/-- One BFS/DFS loop iteration preserves the frontier/visited discipline
(visited duplicate-free and in range, frontier duplicate-free and
contained in visited, step counter dominated by the visited count) and,
when it neither exhausts the frontier nor pops the end, strictly decreases
the measure `|frontier| + 2·(area − |visited|)`. -/
theorem solveIter_inv
    (push : List (Int × Int) → (Int × Int) → List (Int × Int))
    (hlen : ∀ q n, (push q n).length = q.length + 1)
    (hmem : ∀ p q n, p ∈ push q n → p ∈ q ∨ p = n)
    (hpnd : ∀ (q : List (Int × Int)) n, q.Nodup → n ∉ q → (push q n).Nodup)
    (m : Maze) (hrect : Rect m) (endPos : Int × Int) (s : BfsState)
    (hvnd : s.visited.Nodup)
    (hvr : ∀ p ∈ s.visited, InRange (mazeWidth m) (mazeHeight m) p)
    (hfnd : s.frontier.Nodup)
    (hfv : ∀ p ∈ s.frontier, p ∈ s.visited)
    (hst : s.steps + s.frontier.length ≤ s.visited.length) :
    ((solveIter push m endPos s).2.visited.Nodup
      ∧ (∀ p ∈ (solveIter push m endPos s).2.visited,
          InRange (mazeWidth m) (mazeHeight m) p)
      ∧ (solveIter push m endPos s).2.frontier.Nodup
      ∧ (∀ p ∈ (solveIter push m endPos s).2.frontier,
          p ∈ (solveIter push m endPos s).2.visited)
      ∧ (solveIter push m endPos s).2.steps
          + (solveIter push m endPos s).2.frontier.length
          ≤ (solveIter push m endPos s).2.visited.length)
    ∧ ((solveIter push m endPos s).1 = IterRes.teleported
        ∨ (solveIter push m endPos s).1 = IterRes.expanded →
      (solveIter push m endPos s).2.frontier.length
          + 2 * (mazeWidth m * mazeHeight m
              - (solveIter push m endPos s).2.visited.length)
        < s.frontier.length
          + 2 * (mazeWidth m * mazeHeight m - s.visited.length)) := by
  rcases hf : s.frontier with _ | ⟨c, rest⟩
  · have hs1 : solveIter push m endPos s = (.exhausted, s) := by
      unfold solveIter
      rw [hf]
    rw [hs1]
    refine ⟨⟨hvnd, hvr, hfnd, hfv, hst⟩, ?_⟩
    intro h
    rcases h with h | h <;> cases h
  · have hcv : c ∈ s.visited := hfv c (by rw [hf]; exact List.mem_cons_self c rest)
    have hrsub : ∀ p ∈ rest, p ∈ s.visited :=
      fun p hp => hfv p (by rw [hf]; exact List.mem_cons_of_mem c hp)
    have hrnd : rest.Nodup := by
      have h := hfnd
      rw [hf] at h
      exact (List.nodup_cons.1 h).2
    have hflen : s.frontier.length = rest.length + 1 := by rw [hf]; rfl
    obtain ⟨hP1, hP2, hP3, hP4, hP5, hP6⟩ := processSpecialCell_facts m s.visited c
    unfold solveIter
    rw [hf]
    dsimp only
    by_cases hce : c = endPos
    · rw [if_pos hce]
      dsimp only
      refine ⟨⟨hvnd, hvr, hrnd, hrsub, by omega⟩, ?_⟩
      intro h
      rcases h with h | h <;> cases h
    · rw [if_neg hce]
      rcases hps : processSpecialCell m s.visited c with ⟨ot, v⟩
      rw [hps] at hP1 hP2 hP3 hP4 hP5 hP6
      dsimp only at hP1 hP2 hP3 hP4 hP5 hP6 ⊢
      have hvrange : ∀ p ∈ v, InRange (mazeWidth m) (mazeHeight m) p := by
        intro p hp
        rcases hP3 p hp with h | h | h
        · exact hvr p h
        · exact h ▸ hvr c hcv
        · exact mem_positionsOf_inRange m TileType.teleport p hrect h
      rcases ot with _ | tgt
      · have hveq : v = s.visited := hP6 rfl
        subst hveq
        dsimp only
        obtain ⟨hA, hB, hC, hD, hE, hF⟩ :=
          pushNeighbors_spec push hlen hmem hpnd c (getNeighbors m c)
            s.visited s.parents rest
        obtain ⟨hFnd, hFsub⟩ := hF hrnd hrsub
        have hr1nd : (pushNeighbors push c (getNeighbors m c)
            s.visited s.parents rest).1.Nodup := hC hvnd
        have hr1r : ∀ p ∈ (pushNeighbors push c (getNeighbors m c)
            s.visited s.parents rest).1,
            InRange (mazeWidth m) (mazeHeight m) p := by
          intro p hp
          rcases hD p hp with h | h
          · exact hvr p h
          · exact mem_getNeighbors_inRange m c p h
        have hr1W : (pushNeighbors push c (getNeighbors m c)
            s.visited s.parents rest).1.length
            ≤ mazeWidth m * mazeHeight m := by
          have h := nodup_inRange_length (mazeWidth m) (mazeHeight m) _ hr1nd hr1r
          simp only [Int.toNat_natCast] at h
          exact h
        refine ⟨⟨hr1nd, hr1r, hFnd, hFsub, by omega⟩, ?_⟩
        intro _
        simp only [List.length_cons]
        omega
      · dsimp only
        by_cases htv : tgt ∉ v
        · rw [if_pos htv]
          dsimp only
          have htgt : tgt ∈ positionsOf m TileType.teleport := hP5 tgt rfl
          have hvnd2 : (insertVisited v tgt).Nodup := insertVisited_nodup v tgt (hP2 hvnd)
          have hvr2 : ∀ p ∈ insertVisited v tgt,
              InRange (mazeWidth m) (mazeHeight m) p := by
            intro p hp
            rcases (mem_insertVisited v p tgt).1 hp with rfl | hp2
            · exact mem_positionsOf_inRange m TileType.teleport p hrect htgt
            · exact hvrange p hp2
          have hvl : (insertVisited v tgt).length = v.length + 1 :=
            insertVisited_length_not_mem v tgt htv
          have hvW : (insertVisited v tgt).length ≤ mazeWidth m * mazeHeight m := by
            have h := nodup_inRange_length (mazeWidth m) (mazeHeight m) _ hvnd2 hvr2
            simp only [Int.toNat_natCast] at h
            exact h
          have hql : (push rest tgt).length = rest.length + 1 := hlen rest tgt
          refine ⟨⟨hvnd2, hvr2, ?_, ?_, by omega⟩, ?_⟩
          · refine hpnd rest tgt hrnd ?_
            intro hr
            exact htv (hP4 tgt (hrsub tgt hr))
          · intro p hp
            rcases hmem p rest tgt hp with h | rfl
            · exact (mem_insertVisited v p tgt).2 (Or.inr (hP4 p (hrsub p h)))
            · exact (mem_insertVisited v p p).2 (Or.inl rfl)
          · intro _
            simp only [List.length_cons]
            omega
        · rw [if_neg htv]
          dsimp only
          refine ⟨⟨hP2 hvnd, hvrange, hrnd, ?_, by omega⟩, ?_⟩
          · intro p hp
            exact hP4 p (hrsub p hp)
          · intro _
            simp only [List.length_cons]
            omega

/-- With fuel exceeding the measure `|frontier| + 2·(area − |visited|)`,
a BFS/DFS run completes and its final step counter stays within the area. -/
theorem solveRun_term
    (push : List (Int × Int) → (Int × Int) → List (Int × Int))
    (hlen : ∀ q n, (push q n).length = q.length + 1)
    (hmem : ∀ p q n, p ∈ push q n → p ∈ q ∨ p = n)
    (hpnd : ∀ (q : List (Int × Int)) n, q.Nodup → n ∉ q → (push q n).Nodup)
    (m : Maze) (hrect : Rect m) (endPos : Int × Int) :
    ∀ (fuel : Nat) (s : BfsState),
      s.visited.Nodup →
      (∀ p ∈ s.visited, InRange (mazeWidth m) (mazeHeight m) p) →
      s.frontier.Nodup →
      (∀ p ∈ s.frontier, p ∈ s.visited) →
      s.steps + s.frontier.length ≤ s.visited.length →
      s.frontier.length + 2 * (mazeWidth m * mazeHeight m - s.visited.length) < fuel →
      ∃ b s1, solveRun push m endPos fuel s = some (b, s1)
        ∧ s1.visited.Nodup ∧ s1.frontier.Nodup
        ∧ (∀ p ∈ s1.frontier, p ∈ s1.visited)
        ∧ s1.steps ≤ mazeWidth m * mazeHeight m := by
  intro fuel
  induction fuel with
  | zero =>
    intro s _ _ _ _ _ hmea
    exact absurd hmea (Nat.not_lt_zero _)
  | succ fuel ih =>
    intro s hvnd hvr hfnd hfv hst hmea
    obtain ⟨⟨h1, h2, h3, h4, h5⟩, hdec⟩ :=
      solveIter_inv push hlen hmem hpnd m hrect endPos s hvnd hvr hfnd hfv hst
    rcases hr : solveIter push m endPos s with ⟨r, s1⟩
    rw [hr] at h1 h2 h3 h4 h5 hdec
    dsimp only at h1 h2 h3 h4 h5 hdec
    have hW : s1.visited.length ≤ mazeWidth m * mazeHeight m := by
      have h := nodup_inRange_length (mazeWidth m) (mazeHeight m) _ h1 h2
      simp only [Int.toNat_natCast] at h
      exact h
    cases r with
    | exhausted =>
      refine ⟨false, s1, ?_, h1, h3, h4, by omega⟩
      unfold solveRun
      rw [hr]
    | foundEnd =>
      refine ⟨true, s1, ?_, h1, h3, h4, by omega⟩
      unfold solveRun
      rw [hr]
    | teleported =>
      have hq := hdec (Or.inl rfl)
      obtain ⟨b, s2, hrun, hrest⟩ := ih s1 h1 h2 h3 h4 h5 (by omega)
      refine ⟨b, s2, ?_, hrest⟩
      unfold solveRun
      rw [hr]
      exact hrun
    | expanded =>
      have hq := hdec (Or.inr rfl)
      obtain ⟨b, s2, hrun, hrest⟩ := ih s1 h1 h2 h3 h4 h5 (by omega)
      refine ⟨b, s2, ?_, hrest⟩
      unfold solveRun
      rw [hr]
      exact hrun

/-- The frontier/visited discipline holds after any number of BFS loop
iterations from any state satisfying it. -/
theorem bfsIterN_inv (m : Maze) (hrect : Rect m) (endPos : Int × Int) :
    ∀ (k : Nat) (s : BfsState),
      s.visited.Nodup →
      (∀ p ∈ s.visited, InRange (mazeWidth m) (mazeHeight m) p) →
      s.frontier.Nodup →
      (∀ p ∈ s.frontier, p ∈ s.visited) →
      s.steps + s.frontier.length ≤ s.visited.length →
      (bfsIterN m endPos k s).visited.Nodup
      ∧ (∀ p ∈ (bfsIterN m endPos k s).visited,
          InRange (mazeWidth m) (mazeHeight m) p)
      ∧ (bfsIterN m endPos k s).frontier.Nodup
      ∧ (∀ p ∈ (bfsIterN m endPos k s).frontier, p ∈ (bfsIterN m endPos k s).visited)
      ∧ (bfsIterN m endPos k s).steps + (bfsIterN m endPos k s).frontier.length
          ≤ (bfsIterN m endPos k s).visited.length := by
  intro k
  induction k with
  | zero =>
    intro s hvnd hvr hfnd hfv hst
    exact ⟨hvnd, hvr, hfnd, hfv, hst⟩
  | succ k ih =>
    intro s hvnd hvr hfnd hfv hst
    obtain ⟨⟨h1, h2, h3, h4, h5⟩, _⟩ :=
      solveIter_inv fifoPush fifoPush_len fifoPush_mem fifoPush_nodup
        m hrect endPos s hvnd hvr hfnd hfv hst
    exact ih (bfsIter m endPos s).2 h1 h2 h3 h4 h5

/-- The frontier/visited discipline holds after any number of DFS loop
iterations from any state satisfying it. -/
theorem dfsIterN_inv (m : Maze) (hrect : Rect m) (endPos : Int × Int) :
    ∀ (k : Nat) (s : BfsState),
      s.visited.Nodup →
      (∀ p ∈ s.visited, InRange (mazeWidth m) (mazeHeight m) p) →
      s.frontier.Nodup →
      (∀ p ∈ s.frontier, p ∈ s.visited) →
      s.steps + s.frontier.length ≤ s.visited.length →
      (dfsIterN m endPos k s).visited.Nodup
      ∧ (∀ p ∈ (dfsIterN m endPos k s).visited,
          InRange (mazeWidth m) (mazeHeight m) p)
      ∧ (dfsIterN m endPos k s).frontier.Nodup
      ∧ (∀ p ∈ (dfsIterN m endPos k s).frontier, p ∈ (dfsIterN m endPos k s).visited)
      ∧ (dfsIterN m endPos k s).steps + (dfsIterN m endPos k s).frontier.length
          ≤ (dfsIterN m endPos k s).visited.length := by
  intro k
  induction k with
  | zero =>
    intro s hvnd hvr hfnd hfv hst
    exact ⟨hvnd, hvr, hfnd, hfv, hst⟩
  | succ k ih =>
    intro s hvnd hvr hfnd hfv hst
    obtain ⟨⟨h1, h2, h3, h4, h5⟩, _⟩ :=
      solveIter_inv lifoPush lifoPush_len lifoPush_mem lifoPush_nodup
        m hrect endPos s hvnd hvr hfnd hfv hst
    exact ih (dfsIter m endPos s).2 h1 h2 h3 h4 h5

/-- The fold inside `findMinEntry` only ever returns an element of the
list or its starting accumulator. -/
theorem findMinEntry_fold_mem (l : List (Nat × Nat × (Int × Int))) :
    ∀ (acc : Option (Nat × Nat × (Int × Int))) (k : Nat × Nat × (Int × Int)),
      l.foldl (fun acc x =>
        match acc with
        | none => some x
        | some a => if keyLtB x a then some x else some a) acc = some k →
      k ∈ l ∨ acc = some k := by
  induction l with
  | nil =>
    intro acc k h
    exact Or.inr h
  | cons x t ih =>
    intro acc k h
    rw [List.foldl_cons] at h
    rcases ih _ k h with h1 | h1
    · exact Or.inl (List.mem_cons_of_mem x h1)
    · rcases acc with _ | a
      · dsimp only at h1
        cases Option.some_inj.1 h1
        exact Or.inl (List.mem_cons_self x t)
      · dsimp only at h1
        split at h1
        · cases Option.some_inj.1 h1
          exact Or.inl (List.mem_cons_self x t)
        · exact Or.inr h1

/-- Once the accumulator holds an entry, `findMinEntry`'s fold keeps
holding one. -/
theorem findMinEntry_fold_some (l : List (Nat × Nat × (Int × Int))) :
    ∀ a, ∃ k, l.foldl (fun acc x =>
        match acc with
        | none => some x
        | some a => if keyLtB x a then some x else some a) (some a) = some k := by
  induction l with
  | nil =>
    intro a
    exact ⟨a, rfl⟩
  | cons x t ih =>
    intro a
    rw [List.foldl_cons]
    dsimp only
    split
    · exact ih x
    · exact ih a

/-- `heappop` on a nonempty heap pops some member and erases it. -/
theorem heapPop_spec (l : List (Nat × Nat × (Int × Int))) (h : l ≠ []) :
    ∃ k, heapPop l = some (k, l.erase k) ∧ k ∈ l := by
  rcases l with _ | ⟨x, t⟩
  · exact absurd rfl h
  · obtain ⟨k, hk⟩ := findMinEntry_fold_some t x
    have hmin : findMinEntry (x :: t) = some k := by
      unfold findMinEntry
      rw [List.foldl_cons]
      exact hk
    refine ⟨k, ?_, ?_⟩
    · unfold heapPop
      rw [hmin]
    · have hmin2 := hmin
      unfold findMinEntry at hmin2
      rcases findMinEntry_fold_mem (x :: t) none k hmin2 with h1 | h1
      · exact h1
      · exact absurd h1 (by simp)

/-- One neighbor relaxation of the A* loop: the step counter is
untouched, the open set and the visited set grow in lockstep (a push
happens only for an unvisited neighbor, which is marked visited at push
time), and the open-set positions stay duplicate-free and visited. -/
theorem astarRelax_facts (endPos c : Int × Int) (s : AStarState) (n : Int × Int) :
    (astarRelax endPos c s n).steps = s.steps
    ∧ (astarRelax endPos c s n).visited.length + s.openSet.length
        = s.visited.length + (astarRelax endPos c s n).openSet.length
    ∧ s.visited.length ≤ (astarRelax endPos c s n).visited.length
    ∧ (s.visited.Nodup → (astarRelax endPos c s n).visited.Nodup)
    ∧ (∀ p ∈ (astarRelax endPos c s n).visited, p ∈ s.visited ∨ p = n)
    ∧ (∀ p ∈ s.visited, p ∈ (astarRelax endPos c s n).visited)
    ∧ (((s.openSet.map (fun e => e.2.2)).Nodup
          ∧ ∀ e ∈ s.openSet, e.2.2 ∈ s.visited) →
        (((astarRelax endPos c s n).openSet.map (fun e => e.2.2)).Nodup
          ∧ ∀ e ∈ (astarRelax endPos c s n).openSet,
              e.2.2 ∈ (astarRelax endPos c s n).visited)) := by
  unfold astarRelax
  by_cases hn : n ∈ s.visited
  · rw [if_pos hn]
    exact ⟨rfl, by omega, le_refl _, fun h => h, fun p hp => Or.inl hp,
      fun p hp => hp, fun h => h⟩
  · rw [if_neg hn]
    dsimp only
    split
    · dsimp only
      have hvl : (insertVisited s.visited n).length = s.visited.length + 1 :=
        insertVisited_length_not_mem s.visited n hn
      refine ⟨rfl, ?_, ?_, ?_, ?_, ?_, ?_⟩
      · simp only [List.length_append, List.length_cons, List.length_nil, hvl]
        omega
      · rw [hvl]
        omega
      · intro h
        exact insertVisited_nodup _ _ h
      · intro p hp
        exact Or.symm ((mem_insertVisited s.visited p n).1 hp)
      · intro p hp
        exact (mem_insertVisited s.visited p n).2 (Or.inr hp)
      · rintro ⟨hnd, hsub⟩
        constructor
        · rw [List.map_append, List.nodup_append]
          refine ⟨hnd, by simp, ?_⟩
          intro a ha hb
          simp only [List.map_cons, List.map_nil, List.mem_singleton] at hb
          subst hb
          obtain ⟨e, he, hpos⟩ := List.mem_map.1 ha
          exact hn (hpos ▸ hsub e he)
        · intro e he
          rcases List.mem_append.1 he with h | h
          · exact (mem_insertVisited _ _ _).2 (Or.inr (hsub e h))
          · rw [List.mem_singleton] at h
            subst h
            exact (mem_insertVisited _ _ _).2 (Or.inl rfl)
    · exact ⟨rfl, by omega, le_refl _, fun h => h, fun p hp => Or.inl hp,
        fun p hp => hp, fun h => h⟩

/-- The whole A* neighbor loop: composition of `astarRelax_facts` along
the neighbor list. -/
theorem astarRelax_fold_facts (endPos c : Int × Int) :
    ∀ (ns : List (Int × Int)) (s : AStarState),
      ((ns.foldl (astarRelax endPos c) s).steps = s.steps)
      ∧ ((ns.foldl (astarRelax endPos c) s).visited.length + s.openSet.length
          = s.visited.length + (ns.foldl (astarRelax endPos c) s).openSet.length)
      ∧ (s.visited.length ≤ (ns.foldl (astarRelax endPos c) s).visited.length)
      ∧ (s.visited.Nodup → (ns.foldl (astarRelax endPos c) s).visited.Nodup)
      ∧ (∀ p ∈ (ns.foldl (astarRelax endPos c) s).visited, p ∈ s.visited ∨ p ∈ ns)
      ∧ (∀ p ∈ s.visited, p ∈ (ns.foldl (astarRelax endPos c) s).visited)
      ∧ (((s.openSet.map (fun e => e.2.2)).Nodup
            ∧ ∀ e ∈ s.openSet, e.2.2 ∈ s.visited) →
          (((ns.foldl (astarRelax endPos c) s).openSet.map (fun e => e.2.2)).Nodup
            ∧ ∀ e ∈ (ns.foldl (astarRelax endPos c) s).openSet,
                e.2.2 ∈ (ns.foldl (astarRelax endPos c) s).visited)) := by
  intro ns
  induction ns with
  | nil =>
    intro s
    exact ⟨rfl, rfl, le_refl _, fun h => h, fun p hp => Or.inl hp,
      fun p hp => hp, fun h => h⟩
  | cons n t ih =>
    intro s
    rw [List.foldl_cons]
    obtain ⟨g1, g2, g3, g4, g5, g6, g7⟩ := astarRelax_facts endPos c s n
    obtain ⟨i1, i2, i3, i4, i5, i6, i7⟩ := ih (astarRelax endPos c s n)
    refine ⟨by rw [i1, g1], by omega, by omega, fun h => i4 (g4 h), ?_,
      fun p hp => i6 p (g6 p hp), fun h => i7 (g7 h)⟩
    intro p hp
    rcases i5 p hp with h | h
    · rcases g5 p h with h2 | h2
      · exact Or.inl h2
      · cases h2
        exact Or.inr (List.mem_cons_self n t)
    · exact Or.inr (List.mem_cons_of_mem n h)

/-- One A* loop iteration preserves the open-set/visited discipline
(visited duplicate-free and in range, open-set positions duplicate-free
and visited, step counter dominated by the visited count) and, when it
neither exhausts the heap nor pops the end, strictly decreases the
measure `|open set| + 2·(area − |visited|)`. -/
theorem astarIter_inv (m : Maze) (hrect : Rect m) (endPos : Int × Int)
    (s : AStarState)
    (hvnd : s.visited.Nodup)
    (hvr : ∀ p ∈ s.visited, InRange (mazeWidth m) (mazeHeight m) p)
    (hopnd : (s.openSet.map (fun e => e.2.2)).Nodup)
    (hov : ∀ e ∈ s.openSet, e.2.2 ∈ s.visited)
    (hst : s.steps + s.openSet.length ≤ s.visited.length) :
    ((astarIter m endPos s).2.visited.Nodup
      ∧ (∀ p ∈ (astarIter m endPos s).2.visited,
          InRange (mazeWidth m) (mazeHeight m) p)
      ∧ ((astarIter m endPos s).2.openSet.map (fun e => e.2.2)).Nodup
      ∧ (∀ e ∈ (astarIter m endPos s).2.openSet,
          e.2.2 ∈ (astarIter m endPos s).2.visited)
      ∧ (astarIter m endPos s).2.steps + (astarIter m endPos s).2.openSet.length
          ≤ (astarIter m endPos s).2.visited.length)
    ∧ ((astarIter m endPos s).1 = IterRes.teleported
        ∨ (astarIter m endPos s).1 = IterRes.expanded →
      (astarIter m endPos s).2.openSet.length
          + 2 * (mazeWidth m * mazeHeight m
              - (astarIter m endPos s).2.visited.length)
        < s.openSet.length
          + 2 * (mazeWidth m * mazeHeight m - s.visited.length)) := by
  by_cases hne : s.openSet = []
  · have hs1 : astarIter m endPos s = (.exhausted, s) := by
      unfold astarIter
      rw [hne]
      rfl
    rw [hs1]
    refine ⟨⟨hvnd, hvr, hopnd, hov, hst⟩, ?_⟩
    intro h
    rcases h with h | h <;> cases h
  · obtain ⟨k, hpop, hkmem⟩ := heapPop_spec s.openSet hne
    rcases k with ⟨kf, kc, kp⟩
    have hlpos : 0 < s.openSet.length := List.length_pos.2 hne
    have hrl : (s.openSet.erase (kf, kc, kp)).length = s.openSet.length - 1 :=
      List.length_erase_of_mem hkmem
    have hrsubl : (s.openSet.erase (kf, kc, kp)).Sublist s.openSet :=
      List.erase_sublist _ _
    have hrnd : ((s.openSet.erase (kf, kc, kp)).map (fun e => e.2.2)).Nodup :=
      (hrsubl.map _).nodup hopnd
    have hrsub : ∀ e ∈ s.openSet.erase (kf, kc, kp), e.2.2 ∈ s.visited :=
      fun e he => hov e (hrsubl.mem he)
    have hcv : kp ∈ s.visited := hov (kf, kc, kp) hkmem
    obtain ⟨hP1, hP2, hP3, hP4, hP5, hP6⟩ := processSpecialCell_facts m s.visited kp
    unfold astarIter
    rw [hpop]
    dsimp only
    by_cases hce : kp = endPos
    · rw [if_pos hce]
      dsimp only
      refine ⟨⟨hvnd, hvr, hrnd, hrsub, by omega⟩, ?_⟩
      intro h
      rcases h with h | h <;> cases h
    · rw [if_neg hce]
      rcases hps : processSpecialCell m s.visited kp with ⟨ot, v⟩
      rw [hps] at hP1 hP2 hP3 hP4 hP5 hP6
      dsimp only at hP1 hP2 hP3 hP4 hP5 hP6
      have hvrange : ∀ p ∈ v, InRange (mazeWidth m) (mazeHeight m) p := by
        intro p hp
        rcases hP3 p hp with h | h | h
        · exact hvr p h
        · exact h ▸ hvr kp hcv
        · exact mem_positionsOf_inRange m TileType.teleport p hrect h
      rcases ot with _ | tgt
      · have hveq : v = s.visited := hP6 rfl
        subst hveq
        dsimp only
        set b0 : AStarState := { s with openSet := s.openSet.erase (kf, kc, kp), current := some kp } with hb0
        obtain ⟨i1, i2, i3, i4, i5, i6, i7⟩ :=
          astarRelax_fold_facts endPos kp (getNeighbors m kp) b0
        obtain ⟨j1, j2⟩ := i7 ⟨hrnd, hrsub⟩
        have hbo : b0.openSet.length = s.openSet.length - 1 := hrl
        have hbv : b0.visited.length = s.visited.length := rfl
        have hbs : b0.steps = s.steps := rfl
        have hr1nd : ((getNeighbors m kp).foldl (astarRelax endPos kp) b0).visited.Nodup :=
          i4 hvnd
        have hr1r : ∀ p ∈ ((getNeighbors m kp).foldl (astarRelax endPos kp) b0).visited,
            InRange (mazeWidth m) (mazeHeight m) p := by
          intro p hp
          rcases i5 p hp with h | h
          · exact hvr p h
          · exact mem_getNeighbors_inRange m kp p h
        have hr1W : ((getNeighbors m kp).foldl (astarRelax endPos kp) b0).visited.length
            ≤ mazeWidth m * mazeHeight m := by
          have h := nodup_inRange_length (mazeWidth m) (mazeHeight m) _ hr1nd hr1r
          simp only [Int.toNat_natCast] at h
          exact h
        refine ⟨⟨hr1nd, hr1r, j1, j2, ?_⟩, ?_⟩
        · rw [i1, hbs]
          omega
        · intro _
          omega
      · dsimp only
        by_cases htv : tgt ∉ v
        · rw [if_pos htv]
          dsimp only
          have htgt : tgt ∈ positionsOf m TileType.teleport := hP5 tgt rfl
          have hvnd2 : (insertVisited v tgt).Nodup :=
            insertVisited_nodup v tgt (hP2 hvnd)
          have hvr2 : ∀ p ∈ insertVisited v tgt,
              InRange (mazeWidth m) (mazeHeight m) p := by
            intro p hp
            rcases (mem_insertVisited v p tgt).1 hp with rfl | hp2
            · exact mem_positionsOf_inRange m TileType.teleport p hrect htgt
            · exact hvrange p hp2
          have hvl : (insertVisited v tgt).length = v.length + 1 :=
            insertVisited_length_not_mem v tgt htv
          have hvW : (insertVisited v tgt).length ≤ mazeWidth m * mazeHeight m := by
            have h := nodup_inRange_length (mazeWidth m) (mazeHeight m) _ hvnd2 hvr2
            simp only [Int.toNat_natCast] at h
            exact h
          refine ⟨⟨hvnd2, hvr2, ?_, ?_, ?_⟩, ?_⟩
          · rw [List.map_append, List.nodup_append]
            refine ⟨hrnd, by simp, ?_⟩
            intro a ha hb
            simp only [List.map_cons, List.map_nil, List.mem_singleton] at hb
            subst hb
            obtain ⟨e, he, hpos⟩ := List.mem_map.1 ha
            exact htv (hP4 a (hpos ▸ hrsub e he))
          · intro e he
            rcases List.mem_append.1 he with h | h
            · exact (mem_insertVisited _ _ _).2 (Or.inr (hP4 _ (hrsub e h)))
            · rw [List.mem_singleton] at h
              subst h
              exact (mem_insertVisited _ _ _).2 (Or.inl rfl)
          · simp only [List.length_append, List.length_cons, List.length_nil, hvl]
            omega
          · intro _
            simp only [List.length_append, List.length_cons, List.length_nil, hvl]
            omega
        · rw [if_neg htv]
          dsimp only
          refine ⟨⟨hP2 hvnd, hvrange, hrnd, ?_, by omega⟩, ?_⟩
          · intro e he
            exact hP4 _ (hrsub e he)
          · intro _
            omega

/-- With fuel exceeding the measure `|open set| + 2·(area − |visited|)`,
an A* run completes and its final step counter stays within the area. -/
theorem astarRun_term (m : Maze) (hrect : Rect m) (endPos : Int × Int) :
    ∀ (fuel : Nat) (s : AStarState),
      s.visited.Nodup →
      (∀ p ∈ s.visited, InRange (mazeWidth m) (mazeHeight m) p) →
      (s.openSet.map (fun e => e.2.2)).Nodup →
      (∀ e ∈ s.openSet, e.2.2 ∈ s.visited) →
      s.steps + s.openSet.length ≤ s.visited.length →
      s.openSet.length + 2 * (mazeWidth m * mazeHeight m - s.visited.length) < fuel →
      ∃ b s1, astarRun m endPos fuel s = some (b, s1)
        ∧ s1.visited.Nodup ∧ (s1.openSet.map (fun e => e.2.2)).Nodup
        ∧ (∀ e ∈ s1.openSet, e.2.2 ∈ s1.visited)
        ∧ s1.steps ≤ mazeWidth m * mazeHeight m := by
  intro fuel
  induction fuel with
  | zero =>
    intro s _ _ _ _ _ hmea
    exact absurd hmea (Nat.not_lt_zero _)
  | succ fuel ih =>
    intro s hvnd hvr hopnd hov hst hmea
    obtain ⟨⟨h1, h2, h3, h4, h5⟩, hdec⟩ :=
      astarIter_inv m hrect endPos s hvnd hvr hopnd hov hst
    rcases hr : astarIter m endPos s with ⟨r, s1⟩
    rw [hr] at h1 h2 h3 h4 h5 hdec
    dsimp only at h1 h2 h3 h4 h5 hdec
    have hW : s1.visited.length ≤ mazeWidth m * mazeHeight m := by
      have h := nodup_inRange_length (mazeWidth m) (mazeHeight m) _ h1 h2
      simp only [Int.toNat_natCast] at h
      exact h
    cases r with
    | exhausted =>
      refine ⟨false, s1, ?_, h1, h3, h4, by omega⟩
      unfold astarRun
      rw [hr]
    | foundEnd =>
      refine ⟨true, s1, ?_, h1, h3, h4, by omega⟩
      unfold astarRun
      rw [hr]
    | teleported =>
      have hq := hdec (Or.inl rfl)
      obtain ⟨b, s2, hrun, hrest⟩ := ih s1 h1 h2 h3 h4 h5 (by omega)
      refine ⟨b, s2, ?_, hrest⟩
      unfold astarRun
      rw [hr]
      exact hrun
    | expanded =>
      have hq := hdec (Or.inr rfl)
      obtain ⟨b, s2, hrun, hrest⟩ := ih s1 h1 h2 h3 h4 h5 (by omega)
      refine ⟨b, s2, ?_, hrest⟩
      unfold astarRun
      rw [hr]
      exact hrun

/-- The open-set/visited discipline holds after any number of A* loop
iterations from any state satisfying it. -/
theorem astarIterN_inv (m : Maze) (hrect : Rect m) (endPos : Int × Int) :
    ∀ (k : Nat) (s : AStarState),
      s.visited.Nodup →
      (∀ p ∈ s.visited, InRange (mazeWidth m) (mazeHeight m) p) →
      (s.openSet.map (fun e => e.2.2)).Nodup →
      (∀ e ∈ s.openSet, e.2.2 ∈ s.visited) →
      s.steps + s.openSet.length ≤ s.visited.length →
      (astarIterN m endPos k s).visited.Nodup
      ∧ (∀ p ∈ (astarIterN m endPos k s).visited,
          InRange (mazeWidth m) (mazeHeight m) p)
      ∧ ((astarIterN m endPos k s).openSet.map (fun e => e.2.2)).Nodup
      ∧ (∀ e ∈ (astarIterN m endPos k s).openSet,
          e.2.2 ∈ (astarIterN m endPos k s).visited)
      ∧ (astarIterN m endPos k s).steps + (astarIterN m endPos k s).openSet.length
          ≤ (astarIterN m endPos k s).visited.length := by
  intro k
  induction k with
  | zero =>
    intro s hvnd hvr hopnd hov hst
    exact ⟨hvnd, hvr, hopnd, hov, hst⟩
  | succ k ih =>
    intro s hvnd hvr hopnd hov hst
    obtain ⟨⟨h1, h2, h3, h4, h5⟩, _⟩ :=
      astarIter_inv m hrect endPos s hvnd hvr hopnd hov hst
    exact ih (astarIter m endPos s).2 h1 h2 h3 h4 h5

/-- C10: all three solvers mark a position visited at frontier-insertion
time and only insert positions not yet visited, so at every point of a run
the frontier holds no duplicates and only visited positions; a full run
with fuel `2·area + 2` therefore terminates (Found or Exhausted) with at
most `width · height` counted expansions. -/
theorem c10_insertion_unique_terminates (m : Maze) (endPos s0 : Int × Int)
    (hrect : Rect m) (hs0 : InRange (mazeWidth m) (mazeHeight m) s0) :
    (∃ b s1, bfsRun m endPos (2 * (mazeWidth m * mazeHeight m) + 2) (solveStart s0)
        = some (b, s1) ∧ s1.steps ≤ mazeWidth m * mazeHeight m)
    ∧ (∃ b s1, dfsRun m endPos (2 * (mazeWidth m * mazeHeight m) + 2) (solveStart s0)
        = some (b, s1) ∧ s1.steps ≤ mazeWidth m * mazeHeight m)
    ∧ (∃ b s1, astarRun m endPos (2 * (mazeWidth m * mazeHeight m) + 2)
          (astarStart endPos s0)
        = some (b, s1) ∧ s1.steps ≤ mazeWidth m * mazeHeight m)
    ∧ (∀ k : Nat, (bfsIterN m endPos k (solveStart s0)).frontier.Nodup
        ∧ (bfsIterN m endPos k (solveStart s0)).visited.Nodup
        ∧ ∀ p ∈ (bfsIterN m endPos k (solveStart s0)).frontier,
            p ∈ (bfsIterN m endPos k (solveStart s0)).visited)
    ∧ (∀ k : Nat, (dfsIterN m endPos k (solveStart s0)).frontier.Nodup
        ∧ (dfsIterN m endPos k (solveStart s0)).visited.Nodup
        ∧ ∀ p ∈ (dfsIterN m endPos k (solveStart s0)).frontier,
            p ∈ (dfsIterN m endPos k (solveStart s0)).visited)
    ∧ (∀ k : Nat, ((astarIterN m endPos k (astarStart endPos s0)).openSet.map
            (fun e => e.2.2)).Nodup
        ∧ (astarIterN m endPos k (astarStart endPos s0)).visited.Nodup
        ∧ ∀ e ∈ (astarIterN m endPos k (astarStart endPos s0)).openSet,
            e.2.2 ∈ (astarIterN m endPos k (astarStart endPos s0)).visited) := by
  have hfv0 : ∀ p ∈ ([s0] : List (Int × Int)),
      InRange (mazeWidth m) (mazeHeight m) p := by
    intro p hp
    rw [List.mem_singleton] at hp
    subst hp
    exact hs0
  have hmea : (1 : Nat) + 2 * (mazeWidth m * mazeHeight m - 1)
      < 2 * (mazeWidth m * mazeHeight m) + 2 := by omega
  have hposv : ∀ e ∈ (astarStart endPos s0).openSet,
      e.2.2 ∈ (astarStart endPos s0).visited := by
    intro e he
    have he2 : e ∈ [(heuristic endPos s0, 1, s0)] := he
    rw [List.mem_singleton] at he2
    subst he2
    exact List.mem_singleton_self s0
  obtain ⟨b1, s1, h1⟩ := solveRun_term fifoPush fifoPush_len fifoPush_mem
    fifoPush_nodup m hrect endPos (2 * (mazeWidth m * mazeHeight m) + 2)
    (solveStart s0) (List.nodup_singleton s0) hfv0 (List.nodup_singleton s0)
    (fun p hp => hp) (le_refl 1) hmea
  obtain ⟨b2, s2, h2⟩ := solveRun_term lifoPush lifoPush_len lifoPush_mem
    lifoPush_nodup m hrect endPos (2 * (mazeWidth m * mazeHeight m) + 2)
    (solveStart s0) (List.nodup_singleton s0) hfv0 (List.nodup_singleton s0)
    (fun p hp => hp) (le_refl 1) hmea
  obtain ⟨b3, s3, h3⟩ := astarRun_term m hrect endPos
    (2 * (mazeWidth m * mazeHeight m) + 2) (astarStart endPos s0)
    (List.nodup_singleton s0) hfv0 (List.nodup_singleton s0) hposv
    (le_refl 1) hmea
  refine ⟨⟨b1, s1, h1.1, h1.2.2.2.2⟩, ⟨b2, s2, h2.1, h2.2.2.2.2⟩,
    ⟨b3, s3, h3.1, h3.2.2.2.2⟩, ?_, ?_, ?_⟩
  · intro k
    obtain ⟨g1, g2, g3, g4, g5⟩ := bfsIterN_inv m hrect endPos k (solveStart s0)
      (List.nodup_singleton s0) hfv0 (List.nodup_singleton s0)
      (fun p hp => hp) (le_refl 1)
    exact ⟨g3, g1, g4⟩
  · intro k
    obtain ⟨g1, g2, g3, g4, g5⟩ := dfsIterN_inv m hrect endPos k (solveStart s0)
      (List.nodup_singleton s0) hfv0 (List.nodup_singleton s0)
      (fun p hp => hp) (le_refl 1)
    exact ⟨g3, g1, g4⟩
  · intro k
    obtain ⟨g1, g2, g3, g4, g5⟩ := astarIterN_inv m hrect endPos k
      (astarStart endPos s0) (List.nodup_singleton s0) hfv0
      (List.nodup_singleton s0) hposv (le_refl 1)
    exact ⟨g3, g1, g4⟩

/-- C10 witness: the plain 5-by-5 maze with start (1,1) and end (3,3):
all three full runs complete with at most 25 counted expansions. -/
theorem c10_insertion_unique_terminates_w :
    Rect mzP
    ∧ InRange (mazeWidth mzP) (mazeHeight mzP) ((1 : Int), (1 : Int))
    ∧ (∃ b s1, bfsRun mzP ((3 : Int), (3 : Int))
          (2 * (mazeWidth mzP * mazeHeight mzP) + 2)
          (solveStart ((1 : Int), (1 : Int)))
        = some (b, s1) ∧ s1.steps ≤ mazeWidth mzP * mazeHeight mzP)
    ∧ (∃ b s1, astarRun mzP ((3 : Int), (3 : Int))
          (2 * (mazeWidth mzP * mazeHeight mzP) + 2)
          (astarStart ((3 : Int), (3 : Int)) ((1 : Int), (1 : Int)))
        = some (b, s1) ∧ s1.steps ≤ mazeWidth mzP * mazeHeight mzP) :=
  ⟨by unfold Rect; decide, by decide,
   (c10_insertion_unique_terminates mzP ((3 : Int), (3 : Int))
      ((1 : Int), (1 : Int)) (by unfold Rect; decide) (by decide)).1,
   (c10_insertion_unique_terminates mzP ((3 : Int), (3 : Int))
      ((1 : Int), (1 : Int)) (by unfold Rect; decide) (by decide)).2.2.1⟩

/-- A successful association-list lookup comes from a stored entry. -/
theorem lookup_mem_entry (ps : List ((Int × Int) × (Int × Int))) (p u : Int × Int)
    (h : ps.lookup p = some u) : (p, u) ∈ ps := by
  induction ps with
  | nil => exact absurd h (by simp)
  | cons e t ih =>
    rcases e with ⟨k, b⟩
    rw [List.lookup] at h
    split at h
    · next heq =>
      have hk : p = k := by simpa using heq
      have hb : b = u := Option.some_inj.1 h
      subst hk
      subst hb
      exact List.mem_cons_self _ _
    · exact List.mem_cons_of_mem _ (ih h)

/-- A key stored by no entry looks up to `none`. -/
theorem lookup_none_entry (ps : List ((Int × Int) × (Int × Int))) (p : Int × Int)
    (h : ∀ e ∈ ps, e.1 ≠ p) : ps.lookup p = none := by
  induction ps with
  | nil => rfl
  | cons e t ih =>
    rcases e with ⟨k, b⟩
    rw [List.lookup]
    have hk : (p == k) = false := by
      have h2 := h (k, b) (List.mem_cons_self _ _)
      simp only [ne_eq] at h2
      simp only [beq_eq_false_iff_ne, ne_eq]
      intro hc
      exact h2 hc.symm
    rw [hk]
    exact ih (fun e he => h e (List.mem_cons_of_mem _ he))

/-- With no TELEPORT tile anywhere, `process_special_cell` never touches
the visited set and never returns a pair. -/
theorem processSpecialCell_no_teleport (m : Maze)
    (hnt : positionsOf m TileType.teleport = [])
    (v : List (Int × Int)) (c : Int × Int) :
    processSpecialCell m v c = (none, v) := by
  unfold processSpecialCell
  split
  · unfold otherTeleport
    rw [hnt]
    rfl
  · rfl

/-- `reconstruct_path` on a depth-decreasing parent map: starting from a
visited node of depth `d p`, the reconstructed chain has exactly
`d p + 1` cells (fuel beyond the depth is enough). -/
theorem reconstructPath_length (ps : List ((Int × Int) × (Int × Int)))
    (v : List (Int × Int)) (s0 : Int × Int) (d : (Int × Int) → Nat)
    (hd0 : d s0 = 0)
    (hpar : ∀ e ∈ ps, d e.1 = d e.2 + 1 ∧ e.2 ∈ v)
    (hkey : ∀ p ∈ v, p = s0 ∨ (ps.lookup p).isSome) :
    ∀ (fuel : Nat) (p : Int × Int), p ∈ v → d p < fuel →
      (reconstructPath ps fuel p).length = d p + 1 := by
  have hs0none : ps.lookup s0 = none := by
    refine lookup_none_entry ps s0 ?_
    intro e he hc
    have h1 := (hpar e he).1
    rw [hc, hd0] at h1
    omega
  intro fuel
  induction fuel with
  | zero =>
    intro p _ hlt
    exact absurd hlt (Nat.not_lt_zero _)
  | succ fuel ih =>
    intro p hp hlt
    rcases hkey p hp with rfl | hsome
    · simp only [reconstructPath]
      rw [hs0none, hd0]
      rfl
    · obtain ⟨u, hu⟩ := Option.isSome_iff_exists.1 hsome
      have hmem := lookup_mem_entry ps p u hu
      obtain ⟨hdp, huv⟩ := hpar (p, u) hmem
      have hdp2 : d p = d u + 1 := hdp
      have huv2 : u ∈ v := huv
      simp only [reconstructPath]
      rw [hu]
      dsimp only
      rw [List.length_append, ih u huv2 (by omega)]
      simp only [List.length_cons, List.length_nil]
      omega

/-- Prepending an entry can only make a lookup succeed. -/
theorem lookup_cons_isSome (ps : List ((Int × Int) × (Int × Int)))
    (k b p : Int × Int) (h : (ps.lookup p).isSome) :
    (((k, b) :: ps).lookup p).isSome := by
  rw [List.lookup]
  split
  · simp
  · exact h

/-- Looking up the key just prepended succeeds. -/
theorem lookup_cons_self_isSome (ps : List ((Int × Int) × (Int × Int)))
    (k b : Int × Int) : (((k, b) :: ps).lookup k).isSome := by
  rw [List.lookup]
  split
  · simp
  · next hne =>
    simp at hne

/-- BFS crossing lemma: with the frontier headed by the minimum-depth cell
`c`, every walk either stays inside the visited set or takes at least
`d c + 1` hops (every settled cell has all neighbors visited, and depths
of visited cells are walk-length lower bounds). -/
theorem bfs_cross (m : Maze) (s0 : Int × Int) (v : List (Int × Int))
    (c : Int × Int) (rest : List (Int × Int)) (d : (Int × Int) → Nat)
    (hs0 : s0 ∈ v)
    (hH7 : ∀ u ∈ v, u ∉ (c :: rest) → ∀ w ∈ getNeighbors m u, w ∈ v)
    (hH8 : ∀ p ∈ v, ∀ n, WalkN m s0 p n → d p ≤ n)
    (hmin : ∀ u ∈ (c :: rest), d c ≤ d u) :
    ∀ (n : Nat) (p : Int × Int), WalkN m s0 p n → p ∈ v ∨ d c + 1 ≤ n := by
  intro n p hw
  induction hw with
  | refl => exact Or.inl hs0
  | step b p' k hwb hpn ih =>
    rcases ih with hb | hk
    · by_cases hbq : b ∈ (c :: rest)
      · have h1 := hmin b hbq
        have h2 := hH8 b hb k hwb
        exact Or.inr (by omega)
      · exact Or.inl (hH7 b hb hbq p' hpn)
    · exact Or.inr (by omega)


/-- The BFS neighbor-push loop preserves the depth labelling: every fresh
push receives depth `dc + 1`, keeps walks, parent depths, lookup keys,
walk-length lower bounds, the depth/size bound, and the FIFO depth
ordering of the queue. -/
theorem pushNeighbors_bfs_d (m : Maze) (s0 c : Int × Int) (dc : Nat)
    (v0 : List (Int × Int))
    (hX : ∀ (n : Nat) (p : Int × Int), WalkN m s0 p n → p ∈ v0 ∨ dc + 1 ≤ n)
    (hwalkc : WalkN m s0 c dc) :
    ∀ (ns v : List (Int × Int)) (ps : List ((Int × Int) × (Int × Int)))
      (q : List (Int × Int)) (d : (Int × Int) → Nat),
      d c = dc →
      (∀ nb ∈ ns, nb ∈ getNeighbors m c) →
      c ∈ v →
      (∀ p ∈ v0, p ∈ v) →
      (∀ p ∈ v, WalkN m s0 p (d p)) →
      (∀ e ∈ ps, e.1 ∈ getNeighbors m e.2 ∧ d e.1 = d e.2 + 1
        ∧ e.1 ∈ v ∧ e.2 ∈ v) →
      (∀ p ∈ v, p = s0 ∨ (ps.lookup p).isSome) →
      (∀ p ∈ v, ∀ n, WalkN m s0 p n → d p ≤ n) →
      (∀ p ∈ v, d p + 1 ≤ v.length) →
      (∀ p ∈ q, p ∈ v) →
      (∀ p ∈ q, dc ≤ d p ∧ d p ≤ dc + 1) →
      q.Pairwise (fun p r => d p ≤ d r) →
      ∃ d' : (Int × Int) → Nat,
        (∀ p ∈ v, d' p = d p)
        ∧ (∀ p ∈ (pushNeighbors fifoPush c ns v ps q).1, WalkN m s0 p (d' p))
        ∧ (∀ e ∈ (pushNeighbors fifoPush c ns v ps q).2.1,
            e.1 ∈ getNeighbors m e.2 ∧ d' e.1 = d' e.2 + 1
              ∧ e.1 ∈ (pushNeighbors fifoPush c ns v ps q).1
              ∧ e.2 ∈ (pushNeighbors fifoPush c ns v ps q).1)
        ∧ (∀ p ∈ (pushNeighbors fifoPush c ns v ps q).1,
            p = s0 ∨ ((pushNeighbors fifoPush c ns v ps q).2.1.lookup p).isSome)
        ∧ (∀ p ∈ (pushNeighbors fifoPush c ns v ps q).1,
            ∀ n, WalkN m s0 p n → d' p ≤ n)
        ∧ (∀ p ∈ (pushNeighbors fifoPush c ns v ps q).1,
            d' p + 1 ≤ (pushNeighbors fifoPush c ns v ps q).1.length)
        ∧ (∀ p ∈ (pushNeighbors fifoPush c ns v ps q).2.2,
            p ∈ (pushNeighbors fifoPush c ns v ps q).1)
        ∧ (∀ p ∈ (pushNeighbors fifoPush c ns v ps q).2.2,
            dc ≤ d' p ∧ d' p ≤ dc + 1)
        ∧ (pushNeighbors fifoPush c ns v ps q).2.2.Pairwise (fun p r => d' p ≤ d' r)
        ∧ (∀ nb ∈ ns, nb ∈ (pushNeighbors fifoPush c ns v ps q).1)
        ∧ (∀ p ∈ (pushNeighbors fifoPush c ns v ps q).1,
            p ∈ v ∨ p ∈ (pushNeighbors fifoPush c ns v ps q).2.2)
        ∧ (∀ p ∈ q, p ∈ (pushNeighbors fifoPush c ns v ps q).2.2) := by
  intro ns
  induction ns with
  | nil =>
    intro v ps q d hdc hns hcv hv0 h1 h2 h3 h8 h9 hqv hq1 hqp
    simp only [pushNeighbors]
    exact ⟨d, fun p _ => rfl, h1, h2, h3, h8, h9, hqv, hq1, hqp,
      fun nb hnb => absurd hnb (List.not_mem_nil nb),
      fun p hp => Or.inl hp, fun p hp => hp⟩
  | cons n t ih =>
    intro v ps q d hdc hns hcv hv0 h1 h2 h3 h8 h9 hqv hq1 hqp
    by_cases hn : n ∈ v
    · have hstep : pushNeighbors fifoPush c (n :: t) v ps q
          = pushNeighbors fifoPush c t v ps q := by
        simp only [pushNeighbors]
        rw [if_pos hn]
      rw [hstep]
      obtain ⟨d', hagree, g1, g2, g3, g8, g9, gqv, gq1, gqp, gns, g11, g12⟩ :=
        ih v ps q d hdc (fun nb hnb => hns nb (List.mem_cons_of_mem n hnb))
          hcv hv0 h1 h2 h3 h8 h9 hqv hq1 hqp
      obtain ⟨_, _, _, _, hE0, _⟩ :=
        pushNeighbors_spec fifoPush fifoPush_len fifoPush_mem fifoPush_nodup
          c t v ps q
      refine ⟨d', hagree, g1, g2, g3, g8, g9, gqv, gq1, gqp, ?_, g11, g12⟩
      intro nb hnb
      rcases List.mem_cons.1 hnb with heq | hnb2
      · rw [heq]
        exact hE0 n hn
      · exact gns nb hnb2
    · have hstep : pushNeighbors fifoPush c (n :: t) v ps q
          = pushNeighbors fifoPush c t (insertVisited v n) ((n, c) :: ps)
              (fifoPush q n) := by
        simp only [pushNeighbors]
        rw [if_neg hn]
      rw [hstep]
      have hnnb : n ∈ getNeighbors m c := hns n (List.mem_cons_self n t)
      have hd1v : ∀ p ∈ v, (fun p => if p = n then dc + 1 else d p) p = d p := by
        intro p hp
        dsimp only
        exact if_neg (fun hc : p = n => hn (hc ▸ hp))
      have hd1n : (fun p => if p = n then dc + 1 else d p) n = dc + 1 := by
        dsimp only
        exact if_pos rfl
      have hvl : (insertVisited v n).length = v.length + 1 :=
        insertVisited_length_not_mem v n hn
      have hmemv : ∀ p ∈ v, p ∈ insertVisited v n :=
        fun p hp => (mem_insertVisited v p n).2 (Or.inr hp)
      have hmemn : n ∈ insertVisited v n := (mem_insertVisited v n n).2 (Or.inl rfl)
      have h1n : ∀ p ∈ insertVisited v n,
          WalkN m s0 p ((fun p => if p = n then dc + 1 else d p) p) := by
        intro p hp
        rcases (mem_insertVisited v p n).1 hp with heq | hp2
        · subst heq
          rw [hd1n]
          exact WalkN.step s0 c p dc hwalkc hnnb
        · rw [hd1v p hp2]
          exact h1 p hp2
      have h2n : ∀ e ∈ (n, c) :: ps,
          e.1 ∈ getNeighbors m e.2
            ∧ (fun p => if p = n then dc + 1 else d p) e.1
              = (fun p => if p = n then dc + 1 else d p) e.2 + 1
            ∧ e.1 ∈ insertVisited v n ∧ e.2 ∈ insertVisited v n := by
        intro e he
        rcases List.mem_cons.1 he with heq | he2
        · subst heq
          refine ⟨hnnb, ?_, hmemn, hmemv c hcv⟩
          dsimp only
          rw [if_pos rfl, if_neg (fun hc : c = n => hn (hc ▸ hcv)), hdc]
        · obtain ⟨k1, k2, k3, k4⟩ := h2 e he2
          refine ⟨k1, ?_, hmemv _ k3, hmemv _ k4⟩
          dsimp only
          rw [if_neg (fun hc : e.1 = n => hn (hc ▸ k3)),
            if_neg (fun hc : e.2 = n => hn (hc ▸ k4))]
          exact k2
      have h3n : ∀ p ∈ insertVisited v n,
          p = s0 ∨ (((n, c) :: ps).lookup p).isSome := by
        intro p hp
        rcases (mem_insertVisited v p n).1 hp with heq | hp2
        · subst heq
          exact Or.inr (lookup_cons_self_isSome ps p c)
        · rcases h3 p hp2 with h | h
          · exact Or.inl h
          · exact Or.inr (lookup_cons_isSome ps n c p h)
      have h8n : ∀ p ∈ insertVisited v n, ∀ nn, WalkN m s0 p nn →
          (fun p => if p = n then dc + 1 else d p) p ≤ nn := by
        intro p hp nn hw
        rcases (mem_insertVisited v p n).1 hp with heq | hp2
        · subst heq
          rw [hd1n]
          rcases hX nn p hw with h | h
          · exact absurd (hv0 p h) hn
          · exact h
        · rw [hd1v p hp2]
          exact h8 p hp2 nn hw
      have h9n : ∀ p ∈ insertVisited v n,
          (fun p => if p = n then dc + 1 else d p) p + 1
            ≤ (insertVisited v n).length := by
        intro p hp
        rw [hvl]
        rcases (mem_insertVisited v p n).1 hp with heq | hp2
        · subst heq
          rw [hd1n]
          have h := h9 c hcv
          rw [hdc] at h
          omega
        · rw [hd1v p hp2]
          have h := h9 p hp2
          omega
      have hqvn : ∀ p ∈ fifoPush q n, p ∈ insertVisited v n := by
        intro p hp
        rcases fifoPush_mem p q n hp with h | heq
        · exact hmemv p (hqv p h)
        · subst heq
          exact hmemn
      have hq1n : ∀ p ∈ fifoPush q n,
          dc ≤ (fun p => if p = n then dc + 1 else d p) p
            ∧ (fun p => if p = n then dc + 1 else d p) p ≤ dc + 1 := by
        intro p hp
        rcases fifoPush_mem p q n hp with h | heq
        · rw [hd1v p (hqv p h)]
          exact hq1 p h
        · subst heq
          rw [hd1n]
          omega
      have hqpn : (fifoPush q n).Pairwise
          (fun p r => (fun p => if p = n then dc + 1 else d p) p
            ≤ (fun p => if p = n then dc + 1 else d p) r) := by
        unfold fifoPush
        rw [List.pairwise_append]
        refine ⟨?_, List.pairwise_singleton _ _, ?_⟩
        · refine hqp.imp_of_mem ?_
          intro a b ha hb hab
          dsimp only
          rw [if_neg (fun hc : a = n => hn (hc ▸ hqv a ha)),
            if_neg (fun hc : b = n => hn (hc ▸ hqv b hb))]
          exact hab
        · intro a ha b hb
          rw [List.mem_singleton] at hb
          rw [hb]
          dsimp only
          rw [if_neg (fun hc : a = n => hn (hc ▸ hqv a ha)), if_pos rfl]
          exact (hq1 a ha).2
      obtain ⟨d', hagree, g1, g2, g3, g8, g9, gqv, gq1, gqp, gns, g11, g12⟩ :=
        ih (insertVisited v n) ((n, c) :: ps) (fifoPush q n)
          (fun p => if p = n then dc + 1 else d p)
          (by dsimp only; rw [if_neg (fun hc : c = n => hn (hc ▸ hcv))]; exact hdc)
          (fun nb hnb => hns nb (List.mem_cons_of_mem n hnb))
          (hmemv c hcv)
          (fun p hp => hmemv p (hv0 p hp))
          h1n h2n h3n h8n h9n hqvn hq1n hqpn
      obtain ⟨_, _, _, _, hE0, _⟩ :=
        pushNeighbors_spec fifoPush fifoPush_len fifoPush_mem fifoPush_nodup
          c t (insertVisited v n) ((n, c) :: ps) (fifoPush q n)
      have hnq : n ∈ fifoPush q n := by
        unfold fifoPush
        exact List.mem_append_right q (List.mem_singleton_self n)
      refine ⟨d', ?_, g1, g2, g3, g8, g9, gqv, gq1, gqp, ?_, ?_, ?_⟩
      · intro p hp
        rw [hagree p (hmemv p hp)]
        exact hd1v p hp
      · intro nb hnb
        rcases List.mem_cons.1 hnb with heq | hnb2
        · rw [heq]
          exact hE0 n hmemn
        · exact gns nb hnb2
      · intro p hp
        rcases g11 p hp with h | h
        · rcases (mem_insertVisited v p n).1 h with heq | h2
          · refine Or.inr ?_
            rw [heq]
            exact g12 n hnq
          · exact Or.inl h2
        · exact Or.inr h
      · intro p hp
        refine g12 p ?_
        unfold fifoPush
        exact List.mem_append_left _ hp

/-- One BFS loop iteration on a teleport-free maze: it never takes the
teleport branch; when it pops the end it reconstructs a path of exactly
`d endPos + 1` cells with `d endPos` the minimum hop count; otherwise an
expansion preserves the whole depth labelling. -/
theorem bfsIter_d (m : Maze) (hnt : positionsOf m TileType.teleport = [])
    (s0 endPos : Int × Int) (s : BfsState) (d : (Int × Int) → Nat)
    (hvW : s.visited.length ≤ mazeWidth m * mazeHeight m)
    (hfnd : s.frontier.Nodup)
    (hfv : ∀ p ∈ s.frontier, p ∈ s.visited)
    (H0 : s0 ∈ s.visited) (Hd0 : d s0 = 0)
    (H1 : ∀ p ∈ s.visited, WalkN m s0 p (d p))
    (H2 : ∀ e ∈ s.parents, e.1 ∈ getNeighbors m e.2 ∧ d e.1 = d e.2 + 1
        ∧ e.1 ∈ s.visited ∧ e.2 ∈ s.visited)
    (H3 : ∀ p ∈ s.visited, p = s0 ∨ (s.parents.lookup p).isSome)
    (H7 : ∀ u ∈ s.visited, u ∉ s.frontier → ∀ w ∈ getNeighbors m u, w ∈ s.visited)
    (H8 : ∀ p ∈ s.visited, ∀ n, WalkN m s0 p n → d p ≤ n)
    (H9 : ∀ p ∈ s.visited, d p + 1 ≤ s.visited.length)
    (HQ : ∀ p ∈ s.frontier, ∀ r ∈ s.frontier, d r ≤ d p + 1)
    (HP : s.frontier.Pairwise (fun p r => d p ≤ d r)) :
    ((bfsIter m endPos s).1 ≠ IterRes.teleported)
    ∧ ((bfsIter m endPos s).1 = IterRes.foundEnd →
      ∃ k, WalkN m s0 endPos k
        ∧ (bfsIter m endPos s).2.solPath.length = k + 1
        ∧ ∀ n, WalkN m s0 endPos n → k ≤ n)
    ∧ ((bfsIter m endPos s).1 = IterRes.expanded →
      ∃ d' : (Int × Int) → Nat, s0 ∈ (bfsIter m endPos s).2.visited ∧ d' s0 = 0
        ∧ (∀ p ∈ (bfsIter m endPos s).2.visited, WalkN m s0 p (d' p))
        ∧ (∀ e ∈ (bfsIter m endPos s).2.parents,
            e.1 ∈ getNeighbors m e.2 ∧ d' e.1 = d' e.2 + 1
              ∧ e.1 ∈ (bfsIter m endPos s).2.visited
              ∧ e.2 ∈ (bfsIter m endPos s).2.visited)
        ∧ (∀ p ∈ (bfsIter m endPos s).2.visited,
            p = s0 ∨ ((bfsIter m endPos s).2.parents.lookup p).isSome)
        ∧ (∀ u ∈ (bfsIter m endPos s).2.visited, u ∉ (bfsIter m endPos s).2.frontier →
            ∀ w ∈ getNeighbors m u, w ∈ (bfsIter m endPos s).2.visited)
        ∧ (∀ p ∈ (bfsIter m endPos s).2.visited, ∀ n, WalkN m s0 p n → d' p ≤ n)
        ∧ (∀ p ∈ (bfsIter m endPos s).2.visited,
            d' p + 1 ≤ (bfsIter m endPos s).2.visited.length)
        ∧ (∀ p ∈ (bfsIter m endPos s).2.frontier,
            ∀ r ∈ (bfsIter m endPos s).2.frontier, d' r ≤ d' p + 1)
        ∧ (bfsIter m endPos s).2.frontier.Pairwise (fun p r => d' p ≤ d' r)) := by
  rcases hf : s.frontier with _ | ⟨c, rest⟩
  · have hs1 : bfsIter m endPos s = (.exhausted, s) := by
      unfold bfsIter solveIter
      rw [hf]
    rw [hs1]
    refine ⟨fun h => IterRes.noConfusion h, ?_, ?_⟩
    · intro h
      cases h
    · intro h
      cases h
  · have hcf : c ∈ s.frontier := by
      rw [hf]
      exact List.mem_cons_self c rest
    have hcv : c ∈ s.visited := hfv c hcf
    have hrsub : ∀ p ∈ rest, p ∈ s.visited := by
      intro p hp
      refine hfv p ?_
      rw [hf]
      exact List.mem_cons_of_mem c hp
    have hcnr : c ∉ rest := by
      have h := hfnd
      rw [hf] at h
      exact (List.nodup_cons.1 h).1
    have hmin : ∀ u ∈ (c :: rest), d c ≤ d u := by
      intro u hu
      rcases List.mem_cons.1 hu with heq | hu2
      · rw [heq]
      · have h := HP
        rw [hf] at h
        exact (List.pairwise_cons.1 h).1 u hu2
    have hX : ∀ (n : Nat) (p : Int × Int), WalkN m s0 p n →
        p ∈ s.visited ∨ d c + 1 ≤ n := by
      refine bfs_cross m s0 s.visited c rest d H0 ?_ H8 hmin
      intro u hu hunq
      refine H7 u hu ?_
      rw [hf]
      exact hunq
    unfold bfsIter solveIter
    rw [hf]
    dsimp only
    by_cases hce : c = endPos
    · rw [if_pos hce]
      dsimp only
      subst hce
      refine ⟨fun h => IterRes.noConfusion h, ?_, ?_⟩
      · intro _
        refine ⟨d c, H1 c hcv, ?_, fun n hw => H8 c hcv n hw⟩
        have hlen := reconstructPath_length s.parents s.visited s0 d Hd0
          (fun e he => ⟨(H2 e he).2.1, (H2 e he).2.2.2⟩) H3
          (mazeWidth m * mazeHeight m) c hcv
          (by have h := H9 c hcv; omega)
        exact hlen
      · intro h
        cases h
    · rw [if_neg hce]
      rw [processSpecialCell_no_teleport m hnt s.visited c]
      dsimp only
      refine ⟨fun h => IterRes.noConfusion h, ?_, ?_⟩
      · intro h
        cases h
      · intro _
        obtain ⟨d', hagree, g1, g2, g3, g8, g9, gqv, gq1, gqp, gns, g11, g12⟩ :=
          pushNeighbors_bfs_d m s0 c (d c) s.visited hX (H1 c hcv)
            (getNeighbors m c) s.visited s.parents rest d rfl
            (fun nb hnb => hnb) hcv (fun p hp => hp) H1 H2 H3 H8 H9
            hrsub
            (fun p hp => ⟨hmin p (List.mem_cons_of_mem c hp),
              HQ c hcf p (by rw [hf]; exact List.mem_cons_of_mem c hp)⟩)
            (by have h := HP; rw [hf] at h; exact (List.pairwise_cons.1 h).2)
        obtain ⟨_, _, _, _, hE0, _⟩ :=
          pushNeighbors_spec fifoPush fifoPush_len fifoPush_mem fifoPush_nodup
            c (getNeighbors m c) s.visited s.parents rest
        refine ⟨d', hE0 s0 H0, ?_, g1, g2, g3, ?_, g8, g9, ?_, gqp⟩
        · rw [hagree s0 H0]
          exact Hd0
        · intro u hu hunq w hw
          rcases g11 u hu with huv | huq
          · by_cases huc : u = c
            · subst huc
              exact gns w hw
            · have hunr : u ∉ rest := fun hr => hunq (g12 u hr)
              have hH7 := H7 u huv
              rw [hf] at hH7
              refine hE0 w (hH7 ?_ w hw)
              intro hmem
              rcases List.mem_cons.1 hmem with heq | h2
              · exact huc heq
              · exact hunr h2
          · exact absurd huq hunq
        · intro p hp r hr
          have h1 := (gq1 p hp).1
          have h2 := (gq1 r hr).2
          omega

/-- A complete BFS run on a teleport-free maze that reports Found has
popped the end cell out of a depth-labelled state: the reconstructed path
realizes the minimum hop count. -/
theorem bfsRun_d (m : Maze) (hrect : Rect m)
    (hnt : positionsOf m TileType.teleport = []) (s0 endPos : Int × Int) :
    ∀ (fuel : Nat) (s : BfsState) (d : (Int × Int) → Nat),
      s.visited.Nodup →
      (∀ p ∈ s.visited, InRange (mazeWidth m) (mazeHeight m) p) →
      s.frontier.Nodup →
      (∀ p ∈ s.frontier, p ∈ s.visited) →
      s.steps + s.frontier.length ≤ s.visited.length →
      s0 ∈ s.visited → d s0 = 0 →
      (∀ p ∈ s.visited, WalkN m s0 p (d p)) →
      (∀ e ∈ s.parents, e.1 ∈ getNeighbors m e.2 ∧ d e.1 = d e.2 + 1
        ∧ e.1 ∈ s.visited ∧ e.2 ∈ s.visited) →
      (∀ p ∈ s.visited, p = s0 ∨ (s.parents.lookup p).isSome) →
      (∀ u ∈ s.visited, u ∉ s.frontier → ∀ w ∈ getNeighbors m u, w ∈ s.visited) →
      (∀ p ∈ s.visited, ∀ n, WalkN m s0 p n → d p ≤ n) →
      (∀ p ∈ s.visited, d p + 1 ≤ s.visited.length) →
      (∀ p ∈ s.frontier, ∀ r ∈ s.frontier, d r ≤ d p + 1) →
      s.frontier.Pairwise (fun p r => d p ≤ d r) →
      ∀ s1, bfsRun m endPos fuel s = some (true, s1) →
      ∃ k, WalkN m s0 endPos k ∧ s1.solPath.length = k + 1
        ∧ ∀ n, WalkN m s0 endPos n → k ≤ n := by
  intro fuel
  induction fuel with
  | zero =>
    intro s d _ _ _ _ _ _ _ _ _ _ _ _ _ _ _ s1 hrun
    exact Option.noConfusion hrun
  | succ fuel ih =>
    intro s d hvnd hvr hfnd hfv hst H0 Hd0 H1 H2 H3 H7 H8 H9 HQ HP s1 hrun
    have hvW : s.visited.length ≤ mazeWidth m * mazeHeight m := by
      have h := nodup_inRange_length (mazeWidth m) (mazeHeight m) _ hvnd hvr
      simp only [Int.toNat_natCast] at h
      exact h
    obtain ⟨hnTel, hfound, hexp⟩ := bfsIter_d m hnt s0 endPos s d hvW hfnd hfv
      H0 Hd0 H1 H2 H3 H7 H8 H9 HQ HP
    obtain ⟨⟨k1, k2, k3, k4, k5⟩, _⟩ :=
      solveIter_inv fifoPush fifoPush_len fifoPush_mem fifoPush_nodup
        m hrect endPos s hvnd hvr hfnd hfv hst
    rcases hr : bfsIter m endPos s with ⟨r, s2⟩
    rw [hr] at hnTel hfound hexp
    dsimp only at hnTel hfound hexp
    have hr2 : solveIter fifoPush m endPos s = (r, s2) := hr
    rw [hr2] at k1 k2 k3 k4 k5
    dsimp only at k1 k2 k3 k4 k5
    have hrun2 : solveRun fifoPush m endPos (fuel + 1) s = some (true, s1) := hrun
    simp only [solveRun] at hrun2
    rw [hr2] at hrun2
    cases r with
    | exhausted =>
      dsimp only at hrun2
      have h := Option.some_inj.1 hrun2
      have hb : false = true := congrArg Prod.fst h
      exact Bool.noConfusion hb
    | foundEnd =>
      dsimp only at hrun2
      have h := Option.some_inj.1 hrun2
      have hs12 : s2 = s1 := congrArg Prod.snd h
      subst hs12
      exact hfound rfl
    | teleported => exact absurd rfl hnTel
    | expanded =>
      dsimp only at hrun2
      obtain ⟨d', D0, D1, D2, D3, D4, D5, D6, D7, D8, D9⟩ := hexp rfl
      exact ih s2 d' k1 k2 k3 k4 k5 D0 D1 D2 D3 D4 D5 D6 D7 D8 D9 s1 hrun2

/-- C5: on a teleport-free maze, a Found BFS run reconstructs a path whose
hop count is realized by an orthogonal walk and is minimal among all
orthogonal walks from the start to the end cell. -/
theorem c5_bfs_shortest (m : Maze) (hrect : Rect m)
    (hnt : positionsOf m TileType.teleport = [])
    (s0 endPos : Int × Int)
    (hs0 : InRange (mazeWidth m) (mazeHeight m) s0)
    (fuel : Nat) (s1 : BfsState)
    (hrun : bfsRun m endPos fuel (solveStart s0) = some (true, s1)) :
    ∃ k, WalkN m s0 endPos k ∧ s1.solPath.length = k + 1
      ∧ ∀ n, WalkN m s0 endPos n → k ≤ n := by
  have hmem : ∀ p ∈ ([s0] : List (Int × Int)), p = s0 := by
    intro p hp
    rw [List.mem_singleton] at hp
    exact hp
  refine bfsRun_d m hrect hnt s0 endPos fuel (solveStart s0) (fun _ => 0)
    (List.nodup_singleton s0) ?_ (List.nodup_singleton s0) (fun p hp => hp)
    (le_refl 1) (List.mem_singleton_self s0) rfl ?_
    (fun e he => absurd he (List.not_mem_nil e)) ?_ ?_ ?_ ?_ ?_ ?_ s1 hrun
  · intro p hp
    have h := hmem p hp
    subst h
    exact hs0
  · intro p hp
    have h := hmem p hp
    subst h
    exact WalkN.refl p
  · intro p hp
    exact Or.inl (hmem p hp)
  · intro u hu hnu
    exact absurd hu hnu
  · intro p hp n hw
    exact Nat.zero_le n
  · intro p hp
    exact le_refl 1
  · intro p hp r hr
    exact Nat.le_succ 0
  · exact List.pairwise_singleton _ s0

/-- C5 witness: BFS on the teleport-free 5-by-5 maze finds the end in a
4-hop shortest path (5 cells). -/
theorem c5_bfs_shortest_w :
    Rect mzP ∧ positionsOf mzP TileType.teleport = []
    ∧ InRange (mazeWidth mzP) (mazeHeight mzP) ((1 : Int), (1 : Int))
    ∧ ∃ s1, bfsRun mzP ((3 : Int), (3 : Int)) 52
        (solveStart ((1 : Int), (1 : Int))) = some (true, s1)
      ∧ ∃ k, WalkN mzP ((1 : Int), (1 : Int)) ((3 : Int), (3 : Int)) k
        ∧ s1.solPath.length = k + 1
        ∧ ∀ n, WalkN mzP ((1 : Int), (1 : Int)) ((3 : Int), (3 : Int)) n → k ≤ n := by
  obtain ⟨s1, hrun⟩ : ∃ s1, bfsRun mzP ((3 : Int), (3 : Int)) 52
      (solveStart ((1 : Int), (1 : Int))) = some (true, s1) := ⟨_, rfl⟩
  exact ⟨by unfold Rect; decide, by decide, by decide, s1, hrun,
    c5_bfs_shortest mzP (by unfold Rect; decide) (by decide)
      ((1 : Int), (1 : Int)) ((3 : Int), (3 : Int)) (by decide) 52 s1 hrun⟩
